import Mathlib

/-!
# SilentG: pulse ring, pulse decoder and pulse encoder

A shallow embedding of `SilentG.h`, `SilentG.cpp` and of the capture loops of
`Curtains.cpp` (`Learn`), followed by theorems about them.

Conventions of the embedding.

* Unsigned machine integers are natural numbers; a conversion to `uintN_t` is an
  explicit `% 2^N`.
* `std::bitset<128>` is a function `Fin 128 → Bool`; `std::array<Buffer, 8>` is a
  function `Fin 8 → Buffer`.
* A `Buffer *` is `Option Nat`: `none` is `nullptr` and `some i` is `&m_Buffers[i]`.
  Dereferencing `&m_Buffers[i]` for `i ≥ 8` is undefined in C++; the accessors
  `sizeAt` and `modifyAt` are made total there (size `0`, no change).  Every state the
  program can reach keeps both indexes below `8`.
* The compare-and-swap loops of `EndReadBuffer` and `EndWriteBuffer` are modelled as
  whole operations: with no other thread running between the load and the
  `compare_exchange_strong`, the exchange succeeds in the first iteration.
* The GPIO calls of the encoder (`digitalWrite`, `delayMicroseconds`) are recorded
  in an output trace.
-/

namespace SilentG

/-! ## `AtomicBuffers` (SilentG.h 26-62, SilentG.cpp 9-72) -/

/-- `AtomicBuffers::Buffer`: a `std::bitset<128>` and the number of bits in use. -/
structure Buffer where
  m_Bits : Fin 128 → Bool
  m_Size : Nat

/-- A default-constructed `Buffer`: all bits clear, `m_Size = 0`. -/
def Buffer.empty : Buffer := { m_Bits := fun _ => false, m_Size := 0 }

/-- `Buffer::Push`. -/
def Buffer.Push (b : Buffer) (one : Bool) : Buffer :=
  if h : b.m_Size < 128 then
    { m_Bits := Function.update b.m_Bits ⟨b.m_Size, h⟩ one, m_Size := b.m_Size + 1 }
  else
    b

/-- `m_Bits[bi]` (reading past the bitset is undefined in C++; `false` here). -/
def Buffer.bit (b : Buffer) (bi : Nat) : Bool :=
  if h : bi < 128 then b.m_Bits ⟨bi, h⟩ else false

/-- `AtomicBuffers`: eight slots and the packed `uint16_t` index, read position in
the low byte and write position in the high byte. -/
structure AtomicBuffers where
  m_Buffers : Fin 8 → Buffer
  m_ReadWriteIndex : Nat

/-- `AtomicBuffers::AtomicBuffers`. -/
def AtomicBuffers.new : AtomicBuffers :=
  { m_Buffers := fun _ => Buffer.empty, m_ReadWriteIndex := 0 }

/-- `AtomicBuffers::Next`: `(i + 1) % m_Buffers.size()`, returned as `uint8_t`. -/
def Next (i : Nat) : Nat := ((i + 1) % 8) % 256

/-- `AtomicBuffers::GetReadWrite`. -/
def AtomicBuffers.GetReadWrite (a : AtomicBuffers) : Nat := a.m_ReadWriteIndex

/-- The read position as the code extracts it: `uint8_t read = readWrite & 0xff`. -/
def AtomicBuffers.read (a : AtomicBuffers) : Nat := (a.m_ReadWriteIndex &&& 0xff) % 256

/-- The write position as the code extracts it: `uint8_t write = readWrite >> 8`. -/
def AtomicBuffers.write (a : AtomicBuffers) : Nat := (a.m_ReadWriteIndex >>> 8) % 256

/-- `m_Buffers[i].m_Size`, also `buffer->m_Size` for `buffer = &m_Buffers[i]`. -/
def AtomicBuffers.sizeAt (a : AtomicBuffers) (i : Nat) : Nat :=
  if h : i < 8 then (a.m_Buffers ⟨i, h⟩).m_Size else 0

/-- `m_Buffers[i].m_Bits[bi]`. -/
def AtomicBuffers.bitAt (a : AtomicBuffers) (i bi : Nat) : Bool :=
  if h : i < 8 then (a.m_Buffers ⟨i, h⟩).bit bi else false

/-- An in-place change of the slot `m_Buffers[i]`. -/
def AtomicBuffers.modifyAt (a : AtomicBuffers) (i : Nat) (f : Buffer → Buffer) :
    AtomicBuffers :=
  if h : i < 8 then
    { a with m_Buffers := Function.update a.m_Buffers ⟨i, h⟩ (f (a.m_Buffers ⟨i, h⟩)) }
  else
    a

/-- `AtomicBuffers::StartReadBuffer`. -/
def AtomicBuffers.StartReadBuffer (a : AtomicBuffers) : Option Nat :=
  let readWrite := a.m_ReadWriteIndex
  let read := (readWrite &&& 0xff) % 256
  let write := (readWrite >>> 8) % 256
  if read = write then
    none
  else
    some read

/-- The value `EndReadBuffer` computes for `newRW` from `oldRW`. -/
def endReadNewRW (oldRW : Nat) : Nat :=
  ((oldRW &&& 0xff00) ||| Next ((oldRW &&& 0xff) % 256)) % 65536

/-- `AtomicBuffers::EndReadBuffer`. -/
def AtomicBuffers.EndReadBuffer (a : AtomicBuffers) (buffer : Option Nat) : AtomicBuffers :=
  match buffer with
  | none => a
  | some _ =>
    let oldRW := a.m_ReadWriteIndex
    let a1 := a.modifyAt (oldRW &&& 0xff) (fun b => { b with m_Size := 0 })
    { a1 with m_ReadWriteIndex := endReadNewRW oldRW }

/-- `AtomicBuffers::GetWriteBuffer`. -/
def AtomicBuffers.GetWriteBuffer (a : AtomicBuffers) : Option Nat :=
  let readWrite := a.m_ReadWriteIndex
  let read := (readWrite &&& 0xff) % 256
  let write := (readWrite >>> 8) % 256
  if read = Next write then
    none
  else
    some write

/-- The value `EndWriteBuffer` computes for `newRW` from `oldRW`. -/
def endWriteNewRW (oldRW : Nat) : Nat :=
  ((oldRW &&& 0x00ff) ||| (Next (((oldRW >>> 8) &&& 0xff) % 256) <<< 8)) % 65536

/-- `AtomicBuffers::EndWriteBuffer`. -/
def AtomicBuffers.EndWriteBuffer (a : AtomicBuffers) (buffer : Option Nat) : AtomicBuffers :=
  match buffer with
  | none => a
  | some i =>
    if a.sizeAt i > 0 then
      { a with m_ReadWriteIndex := endWriteNewRW a.m_ReadWriteIndex }
    else
      a

/-! ## `RadioInterface` (SilentG.h 65-126, SilentG.cpp 88-259) -/

/-- `RadioInterface::HighLow`. -/
structure HighLow where
  high : Nat
  low : Nat
deriving DecidableEq, Repr

/-- `RadioInterface::Protocol`. -/
structure Protocol where
  sync : HighLow
  zero : HighLow
  one : HighLow
deriving DecidableEq, Repr

/-- `RadioInterface::State::Enum`; the enumerator `EnumCount` is the number of states
and is never stored in `m_State`. -/
inductive State where
  | WaitingForSync
  | WaitingForHigh
  | WaitingForLowSync
  | WaitingForLowZero
  | WaitingForLowOne
deriving DecidableEq, Repr

/-- The data members of `RadioInterface`. -/
structure RadioInterface where
  m_Buffer : AtomicBuffers
  m_Protocol : Protocol
  m_MinProtocol : Protocol
  m_MaxProtocol : Protocol
  m_State : State
  m_ReceiverInterrupt : Int
  m_TransmitterPin : Int
  m_LastDiff : Nat

/-- `RadioInterface::RadioInterface`. -/
def RadioInterface.new : RadioInterface :=
  { m_Buffer := AtomicBuffers.new
    m_TransmitterPin := -1
    m_ReceiverInterrupt := -1
    m_Protocol := { sync := ⟨5200, 600⟩, zero := ⟨600, 200⟩, one := ⟨200, 600⟩ }
    m_MinProtocol := { sync := ⟨5000, 500⟩, zero := ⟨500, 150⟩, one := ⟨150, 500⟩ }
    m_MaxProtocol := { sync := ⟨5400, 700⟩, zero := ⟨700, 350⟩, one := ⟨350, 700⟩ }
    m_LastDiff := 0xffffffff
    m_State := State.WaitingForHigh }

/-- `InRange` (SilentG.cpp 176-179). -/
def InRange (min duration max : Nat) : Bool :=
  decide (min < duration) && decide (duration < max)

/-- The static data the interrupt handler works on: the instance `s_Instance` points
to and the function-local `s_lastTime`. -/
structure Receiver where
  s_Instance : RadioInterface
  s_lastTime : Nat

/-- The statics after the construction of one `RadioInterface`: `s_lastTime = 0`. -/
def Receiver.new : Receiver := { s_Instance := RadioInterface.new, s_lastTime := 0 }

/-- The `uint32_t` difference `time - s_lastTime` (SilentG.cpp 186). -/
def duration (time s_lastTime : Nat) : Nat :=
  (time % 4294967296 + 4294967296 - s_lastTime % 4294967296) % 4294967296

/-- `RadioInterface::ReceiveInterruptHandler`; `micros` is the value the call of
`micros()` returns. -/
def ReceiveInterruptHandler (micros : Nat) (r : Receiver) : Receiver :=
  let time := micros % 4294967296
  let duration := duration time r.s_lastTime
  let inst := { r.s_Instance with m_LastDiff := duration }
  let s_lastTime := time
  match inst.m_Buffer.GetWriteBuffer with
  | none =>
    { s_Instance := { inst with m_State := State.WaitingForSync }, s_lastTime := s_lastTime }
  | some buffer =>
    if InRange inst.m_MinProtocol.sync.high duration inst.m_MaxProtocol.sync.high then
      { s_Instance :=
          { inst with
            m_Buffer := inst.m_Buffer.EndWriteBuffer (some buffer)
            m_State := State.WaitingForLowSync }
        s_lastTime := s_lastTime }
    else
      match inst.m_State with
      | State.WaitingForSync => { s_Instance := inst, s_lastTime := s_lastTime }
      | State.WaitingForLowSync =>
        if InRange inst.m_MinProtocol.sync.low duration inst.m_MaxProtocol.sync.low then
          { s_Instance := { inst with m_State := State.WaitingForHigh },
            s_lastTime := s_lastTime }
        else
          { s_Instance := { inst with m_State := State.WaitingForSync },
            s_lastTime := s_lastTime }
      | State.WaitingForHigh =>
        if InRange inst.m_MinProtocol.zero.high duration inst.m_MaxProtocol.zero.high then
          { s_Instance := { inst with m_State := State.WaitingForLowZero },
            s_lastTime := s_lastTime }
        else if InRange inst.m_MinProtocol.one.high duration inst.m_MaxProtocol.one.high then
          { s_Instance := { inst with m_State := State.WaitingForLowOne },
            s_lastTime := s_lastTime }
        else
          { s_Instance := { inst with m_State := State.WaitingForSync },
            s_lastTime := s_lastTime }
      | State.WaitingForLowZero =>
        if InRange inst.m_MinProtocol.zero.low duration inst.m_MaxProtocol.zero.low then
          { s_Instance :=
              { inst with
                m_Buffer := inst.m_Buffer.modifyAt buffer (fun b => b.Push false)
                m_State := State.WaitingForHigh }
            s_lastTime := s_lastTime }
        else
          { s_Instance := { inst with m_State := State.WaitingForSync },
            s_lastTime := s_lastTime }
      | State.WaitingForLowOne =>
        if InRange inst.m_MinProtocol.one.low duration inst.m_MaxProtocol.one.low then
          { s_Instance :=
              { inst with
                m_Buffer := inst.m_Buffer.modifyAt buffer (fun b => b.Push true)
                m_State := State.WaitingForHigh }
            s_lastTime := s_lastTime }
        else
          { s_Instance := { inst with m_State := State.WaitingForSync },
            s_lastTime := s_lastTime }

/-- One edge that arrives `d` microseconds after the previous one: the handler runs
with `micros()` equal to the previous edge time plus `d`, as a 32-bit counter. -/
def edge (r : Receiver) (d : Nat) : Receiver :=
  ReceiveInterruptHandler ((r.s_lastTime + d) % 4294967296) r

/-- A sequence of pulse durations fed to the handler, one duration per edge. -/
def feed (r : Receiver) (ds : List Nat) : Receiver := ds.foldl edge r

/-! ## The encoder (SilentG.cpp 115-149) -/

/-- A call into the GPIO library made by the encoder. -/
inductive Gpio where
  | digitalWrite (pin : Int) (high : Bool)
  | delayMicroseconds (howLong : Nat)
deriving DecidableEq, Repr

/-- `RadioInterface::Transmit`; the calls are appended to the trace `out`. -/
def RadioInterface.Transmit (rf : RadioInterface) (pulses : HighLow) (out : List Gpio) :
    List Gpio :=
  out ++ [Gpio.digitalWrite rf.m_TransmitterPin true, Gpio.delayMicroseconds pulses.high,
          Gpio.digitalWrite rf.m_TransmitterPin false, Gpio.delayMicroseconds pulses.low]

/-- The loop of `RadioInterface::SendWord` with `i` iterations left. -/
def RadioInterface.SendWordLoop (rf : RadioInterface) : Nat → Nat → List Gpio → List Gpio
  | 0, _, out => out
  | i + 1, word, out =>
    let out1 :=
      if (word &&& 0x1) ≠ 0 then rf.Transmit rf.m_Protocol.one out
      else rf.Transmit rf.m_Protocol.zero out
    rf.SendWordLoop i ((word >>> 1) % 4294967296) out1

/-- `RadioInterface::SendWord`. -/
def RadioInterface.SendWord (rf : RadioInterface) (word : Nat) (out : List Gpio) : List Gpio :=
  rf.SendWordLoop 32 word out

/-- `RadioInterface::TransmitCode`, by recursion on `repeats`. -/
def RadioInterface.TransmitCode (rf : RadioInterface) (code : Nat) :
    Nat → List Gpio → List Gpio
  | 0, out => out
  | repeats + 1, out =>
    let out1 := rf.Transmit rf.m_Protocol.sync out
    let out2 := rf.SendWord (code % 4294967296) out1
    let out3 := rf.SendWord ((code >>> 32) % 4294967296) out2
    rf.TransmitCode code repeats out3

/-- The pulse durations of a trace: the arguments of its `delayMicroseconds` calls,
in emission order. -/
def pulseDurations : List Gpio → List Nat
  | [] => []
  | Gpio.delayMicroseconds d :: rest => d :: pulseDurations rest
  | Gpio.digitalWrite _ _ :: rest => pulseDurations rest

/-! ## `Learn` (Curtains.cpp 95-180) -/

/-- The inner loop of the primary path of `Learn` (Curtains.cpp 153-160) with loop
variable `i` and accumulator `val`. -/
def learnLoop (buffer : Buffer) : Nat → Nat → Nat
  | 0, val => val
  | i + 1, val =>
    let bi := i
    learnLoop buffer i
      (if buffer.bit bi then val ||| ((1 <<< bi) % 18446744073709551616) else val)

/-- The value the primary path of `Learn` reconstructs from a frame
(Curtains.cpp 152-160). -/
def learnValue (buffer : Buffer) : Nat := learnLoop buffer buffer.m_Size 0

/-! ## The six tolerance windows -/

/-- The `(min, max)` pairs the handler passes to `InRange`, in the order sync high,
sync low, zero high, zero low, one high, one low. -/
def RadioInterface.windows (rf : RadioInterface) : List (Nat × Nat) :=
  [ (rf.m_MinProtocol.sync.high, rf.m_MaxProtocol.sync.high),
    (rf.m_MinProtocol.sync.low, rf.m_MaxProtocol.sync.low),
    (rf.m_MinProtocol.zero.high, rf.m_MaxProtocol.zero.high),
    (rf.m_MinProtocol.zero.low, rf.m_MaxProtocol.zero.low),
    (rf.m_MinProtocol.one.high, rf.m_MaxProtocol.one.high),
    (rf.m_MinProtocol.one.low, rf.m_MaxProtocol.one.low) ]

/-! ## Frames held by the ring -/

/-- The bit sequence a slot holds: its bits at the positions below `m_Size`. -/
def Buffer.frame (b : Buffer) : List Bool := (List.range b.m_Size).map b.bit

/-- The bit sequence of the slot `m_Buffers[i]`. -/
def AtomicBuffers.frameAt (a : AtomicBuffers) (i : Nat) : List Bool :=
  if h : i < 8 then (a.m_Buffers ⟨i, h⟩).frame else []

/-- The number of slots between the read and the write position, `(write - read) mod 8`. -/
def AtomicBuffers.count (a : AtomicBuffers) : Nat := (a.write + 8 - a.read) % 8

/-- The indexes of the readable slots, oldest first: `read`, `read + 1`, ... up to but
not including `write`, modulo 8. -/
def AtomicBuffers.readable (a : AtomicBuffers) : List Nat :=
  (List.range a.count).map (fun k => (a.read + k) % 8)

/-- The frames of the readable slots, oldest first. -/
def AtomicBuffers.committed (a : AtomicBuffers) : List (List Bool) :=
  a.readable.map a.frameAt

/-! ## The ring with a disciplined producer and a disciplined consumer -/

/-- A whole operation of one of the two clients of the ring. -/
inductive RingOp where
  | getWrite
  | push (one : Bool)
  | endWrite
  | startRead
  | endRead
deriving DecidableEq, Repr

/-- The ring together with the pointers its clients hold: `wbuf` is the result of the
producer's last `GetWriteBuffer` that it has not yet passed to `EndWriteBuffer`, `rbuf`
the result of the consumer's last `StartReadBuffer` that it has not yet passed to
`EndReadBuffer`. -/
structure RingClients where
  ring : AtomicBuffers
  wbuf : Option (Option Nat)
  rbuf : Option (Option Nat)

/-- A fresh ring, no pointer handed out. -/
def RingClients.new : RingClients := { ring := AtomicBuffers.new, wbuf := none, rbuf := none }

/-- One operation; `none` when the discipline does not allow it: a push needs the
non-null slot `GetWriteBuffer` returned, `EndWriteBuffer` and `EndReadBuffer` need the
pointer of the preceding `GetWriteBuffer` resp. `StartReadBuffer`. -/
def RingClients.step (s : RingClients) : RingOp → Option RingClients
  | RingOp.getWrite => some { s with wbuf := some s.ring.GetWriteBuffer }
  | RingOp.push one =>
    match s.wbuf with
    | some (some i) => some { s with ring := s.ring.modifyAt i (fun b => b.Push one) }
    | _ => none
  | RingOp.endWrite =>
    match s.wbuf with
    | some buffer => some { s with ring := s.ring.EndWriteBuffer buffer, wbuf := none }
    | none => none
  | RingOp.startRead => some { s with rbuf := some s.ring.StartReadBuffer }
  | RingOp.endRead =>
    match s.rbuf with
    | some buffer => some { s with ring := s.ring.EndReadBuffer buffer, rbuf := none }
    | none => none

/-- A sequence of operations. -/
def RingClients.run : List RingOp → RingClients → Option RingClients
  | [], s => some s
  | op :: ops, s => (s.step op).bind (RingClients.run ops)

/-- The bounded FIFO queue of the specification (spec 3, 4.1): the committed frames,
oldest first, at most 7 of them; the frame in progress, of capacity 128; and for each
client whether it holds a slot (`some true`), holds "none" (`some false`) or holds
nothing. -/
structure FifoSpec where
  queue : List (List Bool)
  frame : List Bool
  wslot : Option Bool
  rslot : Option Bool
deriving DecidableEq, Repr

/-- The empty queue. -/
def FifoSpec.new : FifoSpec := { queue := [], frame := [], wslot := none, rslot := none }

/-- The operations on the queue of the specification: `AcquireWriteSlot` answers
"none" when 7 frames are buffered; an append beyond 128 bits is discarded;
`CommitWriteSlot` appends the frame in progress to the queue unless it is empty;
`AcquireReadSlot` answers "none" on the empty queue and the oldest frame otherwise;
`ReleaseReadSlot` removes the oldest frame. -/
def FifoSpec.step (q : FifoSpec) : RingOp → Option FifoSpec
  | RingOp.getWrite => some { q with wslot := some (decide (q.queue.length < 7)) }
  | RingOp.push one =>
    match q.wslot with
    | some true =>
      some { q with frame := if q.frame.length < 128 then q.frame ++ [one] else q.frame }
    | _ => none
  | RingOp.endWrite =>
    match q.wslot with
    | some true =>
      if q.frame = [] then some { q with wslot := none }
      else some { q with queue := q.queue ++ [q.frame], frame := [], wslot := none }
    | some false => some { q with wslot := none }
    | none => none
  | RingOp.startRead => some { q with rslot := some (decide (q.queue ≠ [])) }
  | RingOp.endRead =>
    match q.rslot with
    | some true => some { q with queue := q.queue.tail, rslot := none }
    | some false => some { q with rslot := none }
    | none => none

/-- A sequence of operations on the queue of the specification. -/
def FifoSpec.run : List RingOp → FifoSpec → Option FifoSpec
  | [], q => some q
  | op :: ops, q => (q.step op).bind (FifoSpec.run ops)

/-- The queue a ring state stands for. -/
def RingClients.abs (s : RingClients) : FifoSpec :=
  { queue := s.ring.committed
    frame := s.ring.frameAt s.ring.write
    wslot := s.wbuf.map Option.isSome
    rslot := s.rbuf.map Option.isSome }

/-! ## The decoder with its consumer -/

/-- What happens to the receiving side: a GPIO edge (the handler runs and `micros()`
returns `micros`), or the consumer calls `StartReadBuffer`, or the consumer calls
`EndReadBuffer`. -/
inductive Event where
  | edgeAt (micros : Nat)
  | startRead
  | endRead
deriving DecidableEq, Repr

/-- Whether a call of the handler commits a frame: it reaches `EndWriteBuffer`
(SilentG.cpp 193, 199, 201) with a slot that passes the guard of line 63. -/
def commitsFrame (micros : Nat) (r : Receiver) : Bool :=
  match r.s_Instance.m_Buffer.GetWriteBuffer with
  | none => false
  | some buffer =>
    InRange r.s_Instance.m_MinProtocol.sync.high
        (duration (micros % 4294967296) r.s_lastTime) r.s_Instance.m_MaxProtocol.sync.high
      && decide (r.s_Instance.m_Buffer.sizeAt buffer > 0)

/-- The receiver, the pointer the consumer got from `StartReadBuffer` and has not yet
passed to `EndReadBuffer`, and two ghost counters: the frames committed and the frames
released so far. -/
structure System where
  rx : Receiver
  buffer : Option (Option Nat)
  committed : Nat
  released : Nat

/-- The system after the construction of the `RadioInterface`. -/
def System.new : System := { rx := Receiver.new, buffer := none, committed := 0, released := 0 }

/-- One event; `none` when the consumer would call `EndReadBuffer` without a preceding
`StartReadBuffer`. -/
def System.step (s : System) : Event → Option System
  | Event.edgeAt micros =>
    some { s with
      rx := ReceiveInterruptHandler micros s.rx
      committed := s.committed + (if commitsFrame micros s.rx then 1 else 0) }
  | Event.startRead => some { s with buffer := some s.rx.s_Instance.m_Buffer.StartReadBuffer }
  | Event.endRead =>
    match s.buffer with
    | some buffer =>
      some { s with
        rx := { s.rx with
          s_Instance := { s.rx.s_Instance with
            m_Buffer := s.rx.s_Instance.m_Buffer.EndReadBuffer buffer } }
        buffer := none
        released := s.released + (if buffer.isSome then 1 else 0) }
    | none => none

/-- A sequence of events. -/
def System.run : List Event → System → Option System
  | [], s => some s
  | e :: es, s => (s.step e).bind (System.run es)

/-- The ring of a system state. -/
def System.ring (s : System) : AtomicBuffers := s.rx.s_Instance.m_Buffer

/-! ## Predicates used in the statements -/

/-- The tolerance windows of the instance are the ones the constructor installs. -/
def CtorWindows (rf : RadioInterface) : Prop :=
  rf.m_MinProtocol = RadioInterface.new.m_MinProtocol ∧
  rf.m_MaxProtocol = RadioInterface.new.m_MaxProtocol

/-- A receiver in the data phase of a frame: it waits for the high phase of a data
pulse, the ring has the write slot `w`, and that slot holds `n` bits, the ones `f`
lists. -/
def Receiving (r : Receiver) (w n : Nat) (f : Nat → Bool) : Prop :=
  CtorWindows r.s_Instance ∧
  r.s_lastTime < 4294967296 ∧
  r.s_Instance.m_State = State.WaitingForHigh ∧
  r.s_Instance.m_Buffer.GetWriteBuffer = some w ∧
  w < 8 ∧
  r.s_Instance.m_Buffer.sizeAt w = n ∧
  ∀ j, j < n → r.s_Instance.m_Buffer.bitAt w j = f j

/-- The invariant of the ring: both positions are below 8, every readable slot holds at
least one bit, every slot that is neither readable nor the write slot holds none, and
no slot holds more than 128 bits. The slot `j` is readable when its distance from the
read position, `(j - read) mod 8`, is below `count`, and it is the write slot when that
distance is `count`. -/
def RingInv (a : AtomicBuffers) : Prop :=
  a.read < 8 ∧ a.write < 8 ∧
  ∀ j : Fin 8,
    (a.m_Buffers j).m_Size ≤ 128 ∧
    ((j.val + 8 - a.read) % 8 < a.count → 1 ≤ (a.m_Buffers j).m_Size) ∧
    (a.count < (j.val + 8 - a.read) % 8 → (a.m_Buffers j).m_Size = 0)

/-- The invariant of the decoder with its consumer: the ring invariant; a non-null
pointer the consumer holds is the slot at the read position of a ring that is not
empty; and the ghost counters differ by `count`. -/
def SysInv (s : System) : Prop :=
  RingInv s.ring ∧
  (∀ p, s.buffer = some (some p) → p = s.ring.read ∧ s.ring.read ≠ s.ring.write) ∧
  s.released ≤ s.committed ∧
  s.committed - s.released = s.ring.count

/-- The invariant of the ring with its two clients: the ring invariant; a non-null
pointer the producer holds is the write slot of a ring that is not full; a non-null
pointer the consumer holds is the slot at the read position of a ring that is not
empty. -/
def ClientsInv (s : RingClients) : Prop :=
  RingInv s.ring ∧
  (∀ w, s.wbuf = some (some w) → w = s.ring.write ∧ s.ring.read ≠ Next s.ring.write) ∧
  (∀ r, s.rbuf = some (some r) → r = s.ring.read ∧ s.ring.read ≠ s.ring.write)

/-! ## Example inputs -/

/-- The durations `[5200, 600]` followed by 64 copies of the pulse `(high, low)`. -/
def syncThen64 (high low : Nat) : List Nat :=
  [5200, 600] ++ (List.replicate 64 [high, low]).flatten

/-- A sync, a one-pulse, the next sync (which commits the one-bit frame), then the
consumer reads and releases it. -/
def oneBitRun : List Event :=
  [Event.edgeAt 5200, Event.edgeAt 5800, Event.edgeAt 6000, Event.edgeAt 6600,
    Event.edgeAt 11800, Event.startRead, Event.endRead]

/-- Two syncs in a row (the second finds an empty slot), a read of the empty ring, a
zero-pulse, the next sync, and a read that is not yet released. -/
def spuriousSyncRun : List Event :=
  [Event.edgeAt 5200, Event.edgeAt 10400, Event.startRead, Event.endRead, Event.edgeAt 11000,
    Event.edgeAt 11600, Event.edgeAt 11800, Event.edgeAt 17000, Event.startRead]

/-- The state a run ends in, from the freshly constructed system (the fresh system
itself if the run breaks the consumer's discipline). -/
def System.after (evs : List Event) : System := (System.run evs System.new).getD System.new

/-- The producer writes the frame `[1, 0]` and commits it, starts the frame `[1]`, the
consumer looks at the ring, the producer commits, the consumer releases the first frame
and looks again. -/
def twoFramesOps : List RingOp :=
  [RingOp.getWrite, RingOp.push true, RingOp.push false, RingOp.endWrite, RingOp.getWrite,
    RingOp.push true, RingOp.startRead, RingOp.endWrite, RingOp.endRead, RingOp.startRead]

/-- Seven frames of one bit each (a sync and a one-pulse) followed by the sync-high of an
eighth: durations that fill the ring. -/
def sevenFrames : List Nat := (List.replicate 7 [5200, 600, 200, 600]).flatten ++ [5200]

/-! ## Pulses of the encoder -/

/-- The GPIO calls by which `Transmit` emits one pulse on `pin`: the pin held high for
`pulses.high` microseconds, then low for `pulses.low` microseconds. -/
def pulseTrace (pin : Int) (pulses : HighLow) : List Gpio :=
  [Gpio.digitalWrite pin true, Gpio.delayMicroseconds pulses.high,
    Gpio.digitalWrite pin false, Gpio.delayMicroseconds pulses.low]

/-- The pulses of one transmission of `code` as the claims describe them: the sync
`(5200, 600)`, then for `i = 0, ..., 63` the pulse `(200, 600)` if bit `i` of `code` is 1
and `(600, 200)` if it is 0. -/
def framePulses (code : Nat) : List HighLow :=
  ⟨5200, 600⟩ :: (List.range 64).map (fun i => if code.testBit i then ⟨200, 600⟩ else ⟨600, 200⟩)

/-- The fresh receiver with its last edge 100 microseconds before the counter wraps. -/
def beforeWrap : Receiver := { Receiver.new with s_lastTime := 4294967196 }

/-! ## The two paths of `Learn` (Curtains.cpp 102-178) -/

/-- The slot a non-null `Buffer *` points to (the default-constructed `Buffer` for a
pointer past the array, which is undefined in C++). -/
def AtomicBuffers.slot (a : AtomicBuffers) (i : Nat) : Buffer :=
  if h : i < 8 then a.m_Buffers ⟨i, h⟩ else Buffer.empty

/-- The inner loop of the verbose path (Curtains.cpp 122-129) for the nibble below
position `i`, with `k` iterations left, loop variable `j` and accumulator `val`. -/
def verboseNibbleLoop (buffer : Buffer) (i : Nat) : Nat → Nat → Nat → Nat
  | 0, _, val => val
  | k + 1, j, val =>
    let bi := i + j - 4
    verboseNibbleLoop buffer i k (j + 1) (if buffer.bit bi then val ||| (1 <<< j) else val)

/-- The value `val` the verbose path prints for the nibble below position `i`. -/
def verboseNibble (buffer : Buffer) (i : Nat) : Nat := verboseNibbleLoop buffer i 4 0 0

/-- The character `printf("%X", val)` prints for `val < 16`. -/
def hexDigitUpper (val : Nat) : Char :=
  if val < 10 then Char.ofNat (48 + val) else Char.ofNat (55 + val)

/-- The loop `for (; i > buffer->m_Size; i -= 4) printf("?")` (Curtains.cpp 114-117): the
characters printed and the value of `i` it ends with. `i` starts at 64 and stays a
multiple of 4, so the unsigned subtraction never wraps. -/
def verboseUnknown (m_Size : Nat) (i : Nat) : List Char × Nat :=
  if i > m_Size then
    (Char.ofNat 63 :: (verboseUnknown m_Size (i - 4)).1, (verboseUnknown m_Size (i - 4)).2)
  else ([], i)
termination_by i
decreasing_by all_goals omega

/-- The loop `for (; i > 0; i -= 4)` that prints the nibbles (Curtains.cpp 119-131). -/
def verboseDigits (buffer : Buffer) (i : Nat) : List Char :=
  if i > 0 then hexDigitUpper (verboseNibble buffer i) :: verboseDigits buffer (i - 4) else []
termination_by i
decreasing_by omega

/-- The characters the verbose path prints for a frame between the leading blank and
the trailing `" : %d / 64 bits"` (Curtains.cpp 113-131). -/
def verboseDump (buffer : Buffer) : List Char :=
  (verboseUnknown buffer.m_Size 64).1 ++ verboseDigits buffer (verboseUnknown buffer.m_Size 64).2

/-- The `n` low hexadecimal digits of `val`, most significant first, in upper case. -/
def hexDigitsUpper (val : Nat) : Nat → List Char
  | 0 => []
  | n + 1 => hexDigitUpper ((val / 16 ^ n) % 16) :: hexDigitsUpper val n

/-- The 16 digits `printf("%016llX", val)` prints for a 64-bit `val` (Curtains.cpp 175). -/
def hex016 (val : Nat) : List Char := hexDigitsUpper val 16

/-! ## `EndWriteBuffer` against `EndReadBuffer`, load by load -/

/-- Where a thread is in its compare-and-swap loop: about to load `m_ReadWriteIndex`,
about to compare-exchange with the `oldRW` it loaded, or past the loop. -/
inductive Pc where
  | load
  | cas (oldRW : Nat)
  | done
deriving DecidableEq, Repr

/-- The two threads. -/
inductive Thread where
  | producer
  | consumer
deriving DecidableEq, Repr

/-- The shared ring, the producer inside the loop of `EndWriteBuffer` and the consumer
inside the loop of `EndReadBuffer`. -/
structure Race where
  ring : AtomicBuffers
  producer : Pc
  consumer : Pc

/-- Both threads have passed the guard of their function and are about to load. -/
def Race.start (a : AtomicBuffers) : Race := { ring := a, producer := Pc.load, consumer := Pc.load }

/-- One atomic step of a thread (SilentG.cpp 36-41, 66-70): the load, together with the
work that follows it up to the compare-exchange, or the `compare_exchange_strong`, which
stores `newRW` and leaves the loop if `m_ReadWriteIndex` still equals `oldRW` and goes
back to the load otherwise. A thread past its loop does nothing. -/
def Race.step (s : Race) : Thread → Race
  | Thread.producer =>
    match s.producer with
    | Pc.load => { s with producer := Pc.cas s.ring.m_ReadWriteIndex }
    | Pc.cas oldRW =>
      if s.ring.m_ReadWriteIndex = oldRW then
        { s with
          ring := { s.ring with m_ReadWriteIndex := endWriteNewRW oldRW }
          producer := Pc.done }
      else { s with producer := Pc.load }
    | Pc.done => s
  | Thread.consumer =>
    match s.consumer with
    | Pc.load =>
      { s with
        ring := s.ring.modifyAt (s.ring.m_ReadWriteIndex &&& 0xff) (fun b => { b with m_Size := 0 })
        consumer := Pc.cas s.ring.m_ReadWriteIndex }
    | Pc.cas oldRW =>
      if s.ring.m_ReadWriteIndex = oldRW then
        { s with
          ring := { s.ring with m_ReadWriteIndex := endReadNewRW oldRW }
          consumer := Pc.done }
      else { s with consumer := Pc.load }
    | Pc.done => s

/-- An interleaving: the threads step in the order of the schedule. -/
def Race.run (schedule : List Thread) (s : Race) : Race := schedule.foldl Race.step s

/-- A bound on the steps a thread still needs to leave its loop, whatever the other
thread does: a compare-exchange can fail only after the other thread's single
successful one. -/
def Race.need (s : Race) : Thread → Nat
  | Thread.producer =>
    match s.producer with
    | Pc.done => 0
    | Pc.load => if s.consumer = Pc.done then 2 else 4
    | Pc.cas oldRW =>
      if s.ring.m_ReadWriteIndex = oldRW then (if s.consumer = Pc.done then 1 else 3)
      else (if s.consumer = Pc.done then 3 else 5)
  | Thread.consumer =>
    match s.consumer with
    | Pc.done => 0
    | Pc.load => if s.producer = Pc.done then 2 else 4
    | Pc.cas oldRW =>
      if s.ring.m_ReadWriteIndex = oldRW then (if s.producer = Pc.done then 1 else 3)
      else (if s.producer = Pc.done then 3 else 5)

/-- A schedule in which the consumer's compare-exchange comes between the producer's load
and the producer's compare-exchange, which therefore fails once. -/
def racySchedule : List Thread :=
  [Thread.producer, Thread.consumer, Thread.consumer, Thread.producer, Thread.producer,
    Thread.producer]

/-- The halves of the index in every state of a race: each is advanced once its owner
has left its loop, and is the initial one until then. -/
def Race.Halves (r0 w0 : Nat) (s : Race) : Prop :=
  s.ring.write = (if s.producer = Pc.done then (w0 + 1) % 8 else w0) ∧
  s.ring.read = (if s.consumer = Pc.done then (r0 + 1) % 8 else r0)

/-- The ring that holds one committed frame of one bit: read position 0, write position 1. -/
def oneFrameRing : AtomicBuffers := (feed Receiver.new [5200, 600, 200, 600, 5200]).s_Instance.m_Buffer

/-! ## Whole transmissions -/

/-- The durations of a list of pulses, high phase then low phase of each. -/
def durationsOf (pulses : List HighLow) : List Nat := pulses.flatMap (fun p => [p.high, p.low])

/-- The slots below `w` hold a frame of 64 bits, stored bit `i` being bit `i` of `code`,
and the slots above `w` are empty. -/
def Buffered (a : AtomicBuffers) (w : Nat) (code : Nat) : Prop :=
  ∀ j : Fin 8,
    (j.val < w →
      (a.m_Buffers j).m_Size = 64 ∧ ∀ i, i < 64 → (a.m_Buffers j).bit i = code.testBit i) ∧
    (w < j.val → (a.m_Buffers j).m_Size = 0)

/-- A receiver in the data phase of the frame it collects in slot `w`, with `n` bits so
far, behind `w` committed frames of `code` that the consumer has not read. -/
def Filling (r : Receiver) (w n : Nat) (f : Nat → Bool) (code : Nat) : Prop :=
  Receiving r w n f ∧
  r.s_Instance.m_Buffer.m_ReadWriteIndex = 256 * w ∧
  Buffered r.s_Instance.m_Buffer w code

/-- A receiver whose ring is full of 7 committed frames of `code`. -/
def Full7 (r : Receiver) (code : Nat) : Prop :=
  CtorWindows r.s_Instance ∧
  r.s_lastTime < 4294967296 ∧
  r.s_Instance.m_State = State.WaitingForSync ∧
  r.s_Instance.m_Buffer.m_ReadWriteIndex = 1792 ∧
  Buffered r.s_Instance.m_Buffer 7 code

/-- The receiver after `n` whole transmissions of `code`, the consumer never reading:
up to 7 transmissions the last one is in the write slot `n - 1` behind `n - 1` committed
ones, from the eighth on the ring is full. -/
def AfterFrames (r : Receiver) (n : Nat) (code : Nat) : Prop :=
  (1 ≤ n ∧ n ≤ 7 ∧ Filling r (n - 1) 64 code.testBit code) ∨ (8 ≤ n ∧ Full7 r code)

/-- The receiver after the freshly constructed decoder has been fed, one duration per
edge, all the durations `TransmitCode(code, n)` emits. -/
def afterTransmissions (tx : RadioInterface) (code n : Nat) : Receiver :=
  feed Receiver.new (pulseDurations (tx.TransmitCode code n []))

/-! ## Arithmetic of the packed index -/

theorem land_ff (x : Nat) : x &&& 0xff = x % 256 := by
  have := Nat.and_pow_two_sub_one_eq_mod x 8
  simpa using this

theorem land_ff00 (x : Nat) : x &&& 0xff00 = (x / 256 % 256) * 256 := by
  apply Nat.eq_of_testBit_eq
  intro i
  have h1 : (0xff00 : Nat) = 2 ^ 8 * (2 ^ 8 - 1) := by norm_num
  have h2 : x / 256 % 256 * 256 = 2 ^ 8 * ((x >>> 8) % 2 ^ 8) := by
    rw [Nat.shiftRight_eq_div_pow]; norm_num [Nat.mul_comm]
  rw [Nat.testBit_land, h1, h2, Nat.testBit_mul_pow_two, Nat.testBit_mul_pow_two,
    Nat.testBit_two_pow_sub_one, Nat.testBit_mod_two_pow, Nat.testBit_shiftRight]
  by_cases h : 8 ≤ i
  · have : 8 + (i - 8) = i := by omega
    simp only [this]
    cases x.testBit i <;> simp
  · simp [h]

theorem shiftRight_8 (x : Nat) : x >>> 8 = x / 256 := by
  rw [Nat.shiftRight_eq_div_pow]

theorem lor_shiftLeft_8 (a b : Nat) (ha : a < 256) : a ||| (b <<< 8) = a + 256 * b := by
  rw [Nat.shiftLeft_eq, Nat.lor_comm, Nat.mul_comm, Nat.add_comm]
  exact (Nat.mul_add_lt_is_or (i := 8) ha b).symm

theorem mul_256_lor (a b : Nat) (hb : b < 256) : a * 256 ||| b = a * 256 + b := by
  rw [Nat.mul_comm]
  exact (Nat.mul_add_lt_is_or (i := 8) hb a).symm

theorem Next_eq (i : Nat) : Next i = (i + 1) % 8 := by
  unfold Next; omega

theorem Next_lt (i : Nat) : Next i < 8 := by
  unfold Next; omega

theorem AtomicBuffers.read_eq (a : AtomicBuffers) : a.read = a.m_ReadWriteIndex % 256 := by
  unfold AtomicBuffers.read; rw [land_ff]; omega

theorem AtomicBuffers.write_eq (a : AtomicBuffers) :
    a.write = a.m_ReadWriteIndex / 256 % 256 := by
  unfold AtomicBuffers.write; rw [shiftRight_8]

theorem endWriteNewRW_eq (rw : Nat) :
    endWriteNewRW rw = rw % 256 + 256 * ((rw / 256 % 256 + 1) % 8) := by
  unfold endWriteNewRW
  rw [land_ff, shiftRight_8, land_ff, lor_shiftLeft_8 _ _ (by omega), Next_eq]
  omega

theorem endReadNewRW_eq (rw : Nat) :
    endReadNewRW rw = (rw / 256 % 256) * 256 + (rw % 256 + 1) % 8 := by
  unfold endReadNewRW
  rw [land_ff, land_ff00, mul_256_lor _ _ (by have := Next_lt (rw % 256 % 256); omega), Next_eq]
  omega

/-! ### The ring operations in terms of `read`, `write` and the slots -/

theorem AtomicBuffers.StartReadBuffer_eq (a : AtomicBuffers) :
    a.StartReadBuffer = if a.read = a.write then none else some a.read := rfl

theorem AtomicBuffers.GetWriteBuffer_eq (a : AtomicBuffers) :
    a.GetWriteBuffer = if a.read = Next a.write then none else some a.write := rfl

theorem AtomicBuffers.modifyAt_index (a : AtomicBuffers) (i : Nat) (f : Buffer → Buffer) :
    (a.modifyAt i f).m_ReadWriteIndex = a.m_ReadWriteIndex := by
  unfold AtomicBuffers.modifyAt; split <;> rfl

theorem AtomicBuffers.modifyAt_read (a : AtomicBuffers) (i : Nat) (f : Buffer → Buffer) :
    (a.modifyAt i f).read = a.read := by
  simp [AtomicBuffers.read, AtomicBuffers.modifyAt_index]

theorem AtomicBuffers.modifyAt_write (a : AtomicBuffers) (i : Nat) (f : Buffer → Buffer) :
    (a.modifyAt i f).write = a.write := by
  simp [AtomicBuffers.write, AtomicBuffers.modifyAt_index]

theorem AtomicBuffers.modifyAt_slot (a : AtomicBuffers) (i : Nat) (f : Buffer → Buffer)
    (j : Fin 8) :
    (a.modifyAt i f).m_Buffers j = if j.val = i then f (a.m_Buffers j) else a.m_Buffers j := by
  unfold AtomicBuffers.modifyAt
  by_cases h : i < 8
  · by_cases hj : j = ⟨i, h⟩
    · subst hj; simp [h]
    · have : j.val ≠ i := fun e => hj (Fin.ext e)
      simp [h, Function.update_noteq hj, this]
  · have : j.val ≠ i := by have := j.isLt; omega
    simp [h, this]

theorem AtomicBuffers.EndWriteBuffer_slots (a : AtomicBuffers) (p : Option Nat) :
    (a.EndWriteBuffer p).m_Buffers = a.m_Buffers := by
  unfold AtomicBuffers.EndWriteBuffer
  cases p with
  | none => rfl
  | some i => dsimp only; split <;> rfl

theorem AtomicBuffers.EndWriteBuffer_read (a : AtomicBuffers) (p : Option Nat) :
    (a.EndWriteBuffer p).read = a.read := by
  unfold AtomicBuffers.EndWriteBuffer
  cases p with
  | none => rfl
  | some i =>
    dsimp only; split
    · simp only [AtomicBuffers.read_eq, endWriteNewRW_eq]; omega
    · rfl

theorem AtomicBuffers.EndWriteBuffer_write (a : AtomicBuffers) (i : Nat) :
    (a.EndWriteBuffer (some i)).write = if a.sizeAt i > 0 then Next a.write else a.write := by
  unfold AtomicBuffers.EndWriteBuffer
  dsimp only; split
  · simp only [AtomicBuffers.write_eq, endWriteNewRW_eq, Next_eq]; omega
  · rfl

theorem AtomicBuffers.EndReadBuffer_read (a : AtomicBuffers) (i : Nat) :
    (a.EndReadBuffer (some i)).read = Next a.read := by
  simp only [AtomicBuffers.EndReadBuffer, AtomicBuffers.read_eq, endReadNewRW_eq, Next_eq]
  omega

theorem AtomicBuffers.EndReadBuffer_write (a : AtomicBuffers) (p : Option Nat) :
    (a.EndReadBuffer p).write = a.write := by
  cases p with
  | none => rfl
  | some i =>
    simp only [AtomicBuffers.EndReadBuffer, AtomicBuffers.write_eq, endReadNewRW_eq]
    omega

theorem AtomicBuffers.EndReadBuffer_slot (a : AtomicBuffers) (i : Nat) (j : Fin 8) :
    (a.EndReadBuffer (some i)).m_Buffers j =
      if j.val = a.read then { a.m_Buffers j with m_Size := 0 } else a.m_Buffers j := by
  simp only [AtomicBuffers.EndReadBuffer, AtomicBuffers.modifyAt_slot, AtomicBuffers.read_eq,
    land_ff]

/-! ## The handler at an edge -/

theorem duration_edge (s d : Nat) (hs : s < 4294967296) (hd : d < 4294967296) :
    duration ((s + d) % 4294967296) s = d := by
  unfold duration; omega

theorem edge_WaitingForHigh_one (r : Receiver) (w d : Nat) (ht : r.s_lastTime < 4294967296)
    (hc : CtorWindows r.s_Instance) (hs : r.s_Instance.m_State = State.WaitingForHigh)
    (hb : r.s_Instance.m_Buffer.GetWriteBuffer = some w) (h1 : 150 < d) (h2 : d < 350) :
    edge r d =
      { s_Instance := { r.s_Instance with m_LastDiff := d, m_State := State.WaitingForLowOne }
        s_lastTime := (r.s_lastTime + d) % 4294967296 } := by
  have e := duration_edge r.s_lastTime d ht (by omega)
  have i1 : InRange 5000 d 5400 = false := by simp [InRange]; omega
  have i2 : InRange 500 d 700 = false := by simp [InRange]; omega
  have i3 : InRange 150 d 350 = true := by simp [InRange]; omega
  simp [edge, ReceiveInterruptHandler, e, hc.1, hc.2, hs, hb, RadioInterface.new, i1, i2, i3]

theorem edge_WaitingForHigh_zero (r : Receiver) (w d : Nat) (ht : r.s_lastTime < 4294967296)
    (hc : CtorWindows r.s_Instance) (hs : r.s_Instance.m_State = State.WaitingForHigh)
    (hb : r.s_Instance.m_Buffer.GetWriteBuffer = some w) (h1 : 500 < d) (h2 : d < 700) :
    edge r d =
      { s_Instance := { r.s_Instance with m_LastDiff := d, m_State := State.WaitingForLowZero }
        s_lastTime := (r.s_lastTime + d) % 4294967296 } := by
  have e := duration_edge r.s_lastTime d ht (by omega)
  have i1 : InRange 5000 d 5400 = false := by simp [InRange]; omega
  have i2 : InRange 500 d 700 = true := by simp [InRange]; omega
  simp [edge, ReceiveInterruptHandler, e, hc.1, hc.2, hs, hb, RadioInterface.new, i1, i2]

theorem edge_WaitingForLowOne (r : Receiver) (w d : Nat) (ht : r.s_lastTime < 4294967296)
    (hc : CtorWindows r.s_Instance) (hs : r.s_Instance.m_State = State.WaitingForLowOne)
    (hb : r.s_Instance.m_Buffer.GetWriteBuffer = some w) (h1 : 500 < d) (h2 : d < 700) :
    edge r d =
      { s_Instance :=
          { r.s_Instance with
            m_Buffer := r.s_Instance.m_Buffer.modifyAt w (fun b => b.Push true)
            m_LastDiff := d
            m_State := State.WaitingForHigh }
        s_lastTime := (r.s_lastTime + d) % 4294967296 } := by
  have e := duration_edge r.s_lastTime d ht (by omega)
  have i1 : InRange 5000 d 5400 = false := by simp [InRange]; omega
  have i2 : InRange 500 d 700 = true := by simp [InRange]; omega
  simp [edge, ReceiveInterruptHandler, e, hc.1, hc.2, hs, hb, RadioInterface.new, i1, i2]

theorem edge_WaitingForLowZero (r : Receiver) (w d : Nat) (ht : r.s_lastTime < 4294967296)
    (hc : CtorWindows r.s_Instance) (hs : r.s_Instance.m_State = State.WaitingForLowZero)
    (hb : r.s_Instance.m_Buffer.GetWriteBuffer = some w) (h1 : 150 < d) (h2 : d < 350) :
    edge r d =
      { s_Instance :=
          { r.s_Instance with
            m_Buffer := r.s_Instance.m_Buffer.modifyAt w (fun b => b.Push false)
            m_LastDiff := d
            m_State := State.WaitingForHigh }
        s_lastTime := (r.s_lastTime + d) % 4294967296 } := by
  have e := duration_edge r.s_lastTime d ht (by omega)
  have i1 : InRange 5000 d 5400 = false := by simp [InRange]; omega
  have i2 : InRange 150 d 350 = true := by simp [InRange]; omega
  simp [edge, ReceiveInterruptHandler, e, hc.1, hc.2, hs, hb, RadioInterface.new, i1, i2]

theorem edge_WaitingForLowSync (r : Receiver) (w d : Nat) (ht : r.s_lastTime < 4294967296)
    (hc : CtorWindows r.s_Instance) (hs : r.s_Instance.m_State = State.WaitingForLowSync)
    (hb : r.s_Instance.m_Buffer.GetWriteBuffer = some w) (h1 : 500 < d) (h2 : d < 700) :
    edge r d =
      { s_Instance := { r.s_Instance with m_LastDiff := d, m_State := State.WaitingForHigh }
        s_lastTime := (r.s_lastTime + d) % 4294967296 } := by
  have e := duration_edge r.s_lastTime d ht (by omega)
  have i1 : InRange 5000 d 5400 = false := by simp [InRange]; omega
  have i2 : InRange 500 d 700 = true := by simp [InRange]; omega
  simp [edge, ReceiveInterruptHandler, e, hc.1, hc.2, hs, hb, RadioInterface.new, i1, i2]

theorem edge_sync (r : Receiver) (w d : Nat) (ht : r.s_lastTime < 4294967296)
    (hc : CtorWindows r.s_Instance)
    (hb : r.s_Instance.m_Buffer.GetWriteBuffer = some w) (h1 : 5000 < d) (h2 : d < 5400) :
    edge r d =
      { s_Instance :=
          { r.s_Instance with
            m_Buffer := r.s_Instance.m_Buffer.EndWriteBuffer (some w)
            m_LastDiff := d
            m_State := State.WaitingForLowSync }
        s_lastTime := (r.s_lastTime + d) % 4294967296 } := by
  have e := duration_edge r.s_lastTime d ht (by omega)
  have i1 : InRange 5000 d 5400 = true := by simp [InRange]; omega
  simp [edge, ReceiveInterruptHandler, e, hc.1, hc.2, hb, RadioInterface.new, i1]

/-! ## Data pulses -/

theorem AtomicBuffers.GetWriteBuffer_modifyAt (a : AtomicBuffers) (i : Nat)
    (f : Buffer → Buffer) : (a.modifyAt i f).GetWriteBuffer = a.GetWriteBuffer := by
  simp only [AtomicBuffers.GetWriteBuffer, AtomicBuffers.modifyAt_index]

theorem AtomicBuffers.sizeAt_push (a : AtomicBuffers) (w : Nat) (one : Bool) (hw : w < 8)
    (hn : a.sizeAt w < 128) :
    (a.modifyAt w (fun b => b.Push one)).sizeAt w = a.sizeAt w + 1 := by
  simp only [AtomicBuffers.sizeAt, hw, dite_true] at hn ⊢
  rw [AtomicBuffers.modifyAt_slot]
  simp [Buffer.Push, hn]

theorem AtomicBuffers.bitAt_push (a : AtomicBuffers) (w : Nat) (one : Bool) (hw : w < 8)
    (hn : a.sizeAt w < 128) (j : Nat) :
    (a.modifyAt w (fun b => b.Push one)).bitAt w j =
      if j = a.sizeAt w then one else a.bitAt w j := by
  simp only [AtomicBuffers.sizeAt, AtomicBuffers.bitAt, hw, dite_true] at hn ⊢
  rw [AtomicBuffers.modifyAt_slot]
  simp only [Buffer.Push, hn, dite_true, if_true, Buffer.bit]
  by_cases hj : j < 128
  · simp only [hj, dite_true]
    by_cases e : j = (a.m_Buffers ⟨w, hw⟩).m_Size
    · subst e; simp
    · have : (⟨j, hj⟩ : Fin 128) ≠ ⟨(a.m_Buffers ⟨w, hw⟩).m_Size, hn⟩ := by
        intro h; exact e (Fin.mk.inj h)
      simp [Function.update_noteq this, e]
  · have : j ≠ (a.m_Buffers ⟨w, hw⟩).m_Size := by omega
    simp [hj, this]

/-- One data pulse of the encoder, high phase then low phase, appends its bit. -/
theorem Receiving.pulse {r : Receiver} {w n : Nat} {f : Nat → Bool} (h : Receiving r w n f)
    (hn : n < 128) (one : Bool) :
    Receiving (edge (edge r (if one then 200 else 600)) (if one then 600 else 200)) w (n + 1)
      (Function.update f n one) := by
  obtain ⟨hc, ht, hs, hb, hw, hsz, hbits⟩ := h
  have hn' : r.s_Instance.m_Buffer.sizeAt w < 128 := by omega
  have key : edge (edge r (if one then 200 else 600)) (if one then 600 else 200) =
      { s_Instance :=
          { r.s_Instance with
            m_Buffer := r.s_Instance.m_Buffer.modifyAt w (fun b => b.Push one)
            m_LastDiff := if one then 600 else 200 }
        s_lastTime :=
          ((r.s_lastTime + if one then 200 else 600) % 4294967296 + if one then 600 else 200)
            % 4294967296 } := by
    cases one
    · simp only [Bool.false_eq_true, if_false]
      rw [edge_WaitingForHigh_zero r w 600 ht hc hs hb (by norm_num) (by norm_num)]
      rw [edge_WaitingForLowZero
        { s_Instance :=
            { r.s_Instance with m_LastDiff := 600, m_State := State.WaitingForLowZero }
          s_lastTime := (r.s_lastTime + 600) % 4294967296 }
        w 200 (Nat.mod_lt _ (by norm_num)) hc rfl hb (by norm_num) (by norm_num)]
      simp [← hs]
    · simp only [if_true]
      rw [edge_WaitingForHigh_one r w 200 ht hc hs hb (by norm_num) (by norm_num)]
      rw [edge_WaitingForLowOne
        { s_Instance :=
            { r.s_Instance with m_LastDiff := 200, m_State := State.WaitingForLowOne }
          s_lastTime := (r.s_lastTime + 200) % 4294967296 }
        w 600 (Nat.mod_lt _ (by norm_num)) hc rfl hb (by norm_num) (by norm_num)]
      simp [← hs]
  rw [key]
  refine ⟨hc, Nat.mod_lt _ (by norm_num), hs, ?_, hw, ?_, ?_⟩
  · simpa [AtomicBuffers.GetWriteBuffer_modifyAt] using hb
  · simp [AtomicBuffers.sizeAt_push _ _ _ hw hn', hsz]
  · intro j hj
    simp only [AtomicBuffers.bitAt_push _ _ _ hw hn', hsz]
    by_cases e : j = n
    · subst e; simp
    · simp [e, Function.update_noteq e, hbits j (by omega)]

theorem Receiving.congr {r : Receiver} {w n : Nat} {f g : Nat → Bool} (h : Receiving r w n f)
    (hfg : ∀ j, j < n → f j = g j) : Receiving r w n g := by
  obtain ⟨hc, ht, hs, hb, hw, hsz, hbits⟩ := h
  exact ⟨hc, ht, hs, hb, hw, hsz, fun j hj => (hbits j hj).trans (hfg j hj)⟩

/-! ## The trace of the encoder -/

theorem pulseDurations_append (xs ys : List Gpio) :
    pulseDurations (xs ++ ys) = pulseDurations xs ++ pulseDurations ys := by
  induction xs with
  | nil => rfl
  | cons x xs ih => cases x <;> simp [pulseDurations, ih]

theorem pulseDurations_Transmit (rf : RadioInterface) (p : HighLow) (out : List Gpio) :
    pulseDurations (rf.Transmit p out) = pulseDurations out ++ [p.high, p.low] := by
  simp [RadioInterface.Transmit, pulseDurations_append, pulseDurations]

theorem feed_append (r : Receiver) (xs ys : List Nat) :
    feed r (xs ++ ys) = feed (feed r xs) ys := by
  simp [feed, List.foldl_append]

/-- The durations `SendWord` emits for the bits of `word`, fed to a receiver in the data
phase, append the low `i` bits of `word`, bit 0 first. -/
theorem Receiving.SendWordLoop (rf : RadioInterface) (hp : rf.m_Protocol = RadioInterface.new.m_Protocol)
    (i : Nat) : ∀ (word : Nat) (out : List Gpio) (r : Receiver) (w n : Nat) (f : Nat → Bool),
    word < 4294967296 → n + i ≤ 128 → Receiving (feed r (pulseDurations out)) w n f →
    Receiving (feed r (pulseDurations (rf.SendWordLoop i word out))) w (n + i)
      (fun j => if j < n then f j else word.testBit (j - n)) := by
  induction i with
  | zero =>
    intro word out r w n f _ _ h
    exact h.congr (fun j hj => by simp [hj])
  | succ i ih =>
    intro word out r w n f hword hn h
    have hbit : (word &&& 0x1) ≠ 0 ↔ word.testBit 0 = true := by
      rw [Nat.testBit_zero, Nat.and_one_is_mod]
      simp
    have hstep := h.pulse (by omega) (word.testBit 0)
    have hshift : (word >>> 1) % 4294967296 = word >>> 1 := by
      apply Nat.mod_eq_of_lt
      rw [Nat.shiftRight_eq_div_pow]
      omega
    have hlt : word >>> 1 < 4294967296 := by
      rw [Nat.shiftRight_eq_div_pow]; omega
    unfold RadioInterface.SendWordLoop
    simp only [hshift]
    have := ih (word >>> 1)
      (if (word &&& 0x1) ≠ 0 then rf.Transmit rf.m_Protocol.one out
        else rf.Transmit rf.m_Protocol.zero out) r w (n + 1)
      (Function.update f n (word.testBit 0)) hlt (by omega)
      (by
        by_cases hb : word.testBit 0 = true
        · rw [if_pos (hbit.2 hb)]
          simpa [hb, pulseDurations_Transmit, feed_append, hp, RadioInterface.new, feed]
            using hstep
        · rw [if_neg (fun h => hb (hbit.1 h))]
          simpa [hb, pulseDurations_Transmit, feed_append, hp, RadioInterface.new, feed]
            using hstep)
    rw [show n + (i + 1) = n + 1 + i by omega]
    refine this.congr ?_
    intro j hj
    by_cases h1 : j < n
    · have : j ≠ n := by omega
      simp [h1, Function.update_noteq this, show j < n + 1 by omega]
    · by_cases h2 : j = n
      · subst h2; simp
      · have e : j - n = 1 + (j - (n + 1)) := by omega
        simp [h1, show ¬ j < n + 1 by omega, Nat.testBit_shiftRight, e]


/-- The durations of one transmission, fed to a receiver that has just seen a sync,
append the 64 bits of `code`, bit 0 first. -/
theorem Receiving.words (rf : RadioInterface)
    (hp : rf.m_Protocol = RadioInterface.new.m_Protocol) (code : Nat) (out : List Gpio) (r : Receiver) (w : Nat)
    (f : Nat → Bool) (h : Receiving (feed r (pulseDurations out)) w 0 f) :
    Receiving
      (feed r (pulseDurations
        (rf.SendWord ((code >>> 32) % 4294967296) (rf.SendWord (code % 4294967296) out))))
      w 64 code.testBit := by
  have h1 := Receiving.SendWordLoop rf hp 32 (code % 4294967296) out r w 0 f
    (Nat.mod_lt _ (by norm_num)) (by norm_num) h
  have h2 := Receiving.SendWordLoop rf hp 32 ((code >>> 32) % 4294967296)
    (rf.SendWordLoop 32 (code % 4294967296) out) r w 32 _
    (Nat.mod_lt _ (by norm_num)) (by norm_num) h1
  refine Receiving.congr h2 ?_
  intro j hj
  have e32 : (4294967296 : Nat) = 2 ^ 32 := by norm_num
  by_cases hlt : j < 32
  · simp only [hlt, if_true, Nat.not_lt_zero, if_false, Nat.sub_zero]
    rw [e32, Nat.testBit_mod_two_pow]
    simp [hlt]
  · have : j - 32 < 32 := by omega
    have e : 32 + (j - 32) = j := by omega
    simp only [hlt, if_false]
    rw [e32, Nat.testBit_mod_two_pow, Nat.testBit_shiftRight, e]
    simp [this]

/-! ## The value `Learn` reconstructs -/

theorem testBit_learnLoop (buffer : Buffer) (i : Nat) :
    ∀ (val j : Nat), i ≤ 64 →
      (learnLoop buffer i val).testBit j =
        (if j < i then (buffer.bit j || val.testBit j) else val.testBit j) := by
  induction i with
  | zero => intro val j _; simp [learnLoop]
  | succ i ih =>
    intro val j hi
    have hpow : (1 <<< i) % 18446744073709551616 = 2 ^ i := by
      rw [Nat.shiftLeft_eq, Nat.one_mul]
      apply Nat.mod_eq_of_lt
      calc 2 ^ i < 2 ^ 64 := Nat.pow_lt_pow_right (by norm_num) (by omega)
        _ = 18446744073709551616 := by norm_num
    unfold learnLoop
    simp only [hpow]
    rw [ih _ _ (by omega)]
    by_cases h1 : j < i
    · have : i ≠ j := by omega
      cases hb : buffer.bit i <;>
        simp [h1, show j < i + 1 by omega, Nat.testBit_lor, Nat.testBit_two_pow, this]
    · by_cases h2 : j = i
      · subst h2
        cases hb : buffer.bit j <;> simp [Nat.testBit_lor, Nat.testBit_two_pow, hb]
      · have : i ≠ j := fun e => h2 e.symm
        cases hb : buffer.bit i <;>
          simp [h1, show ¬ j < i + 1 by omega, Nat.testBit_lor, Nat.testBit_two_pow, this]

/-- A frame of size 64 whose stored bit `i` is bit `i` of `code` is read back as `code`. -/
theorem learnValue_eq (buffer : Buffer) (code : Nat) (hcode : code < 18446744073709551616)
    (hsize : buffer.m_Size = 64) (hbits : ∀ j, j < 64 → buffer.bit j = code.testBit j) :
    learnValue buffer = code := by
  apply Nat.eq_of_testBit_eq
  intro j
  rw [learnValue, hsize, testBit_learnLoop buffer 64 0 j (Nat.le_refl _)]
  by_cases h : j < 64
  · simp [h, hbits j h]
  · have : code < 2 ^ j :=
      calc code < 2 ^ 64 := by simpa using hcode
        _ ≤ 2 ^ j := Nat.pow_le_pow_right (by norm_num) (by omega)
    simp [h, Nat.testBit_lt_two_pow this]

/-! ## Round trip -/

theorem length_pulseDurations_SendWordLoop (rf : RadioInterface) (i : Nat) :
    ∀ (word : Nat) (out : List Gpio),
      (pulseDurations (rf.SendWordLoop i word out)).length =
        (pulseDurations out).length + 2 * i := by
  induction i with
  | zero => intro word out; simp [RadioInterface.SendWordLoop]
  | succ i ih =>
    intro word out
    unfold RadioInterface.SendWordLoop
    simp only [ih]
    split <;> simp [pulseDurations_Transmit] <;> omega

set_option maxRecDepth 100000 in
theorem Receiving_after_sync (f : Nat → Bool) :
    Receiving (feed Receiver.new [5200, 600]) 0 0 f := by
  unfold Receiving CtorWindows
  refine ⟨⟨by decide, by decide⟩, by decide, by decide, by decide, by decide, by decide, ?_⟩
  intro j hj
  omega

theorem TransmitCode_one (rf : RadioInterface) (code : Nat) :
    rf.TransmitCode code 1 [] =
      rf.SendWord ((code >>> 32) % 4294967296)
        (rf.SendWord (code % 4294967296) (rf.Transmit rf.m_Protocol.sync [])) := by
  simp [RadioInterface.TransmitCode]

/-- The receiver after one transmission of `code` to a fresh decoder. -/
theorem Receiving_roundtrip (tx : RadioInterface)
    (hp : tx.m_Protocol = RadioInterface.new.m_Protocol) (code : Nat) :
    Receiving (feed Receiver.new (pulseDurations (tx.TransmitCode code 1 []))) 0 64
      code.testBit := by
  rw [TransmitCode_one]
  have : pulseDurations (tx.Transmit tx.m_Protocol.sync []) = [5200, 600] := by
    rw [pulseDurations_Transmit, hp]; rfl
  refine Receiving.words tx hp code _ _ 0 (fun _ => false) ?_
  rw [this]
  exact Receiving_after_sync _

theorem length_TransmitCode_one (tx : RadioInterface) (code : Nat) :
    (pulseDurations (tx.TransmitCode code 1 [])).length = 130 := by
  rw [TransmitCode_one]
  simp [RadioInterface.SendWord, length_pulseDurations_SendWordLoop, pulseDurations_Transmit,
    pulseDurations]

theorem Receiving.slot {r : Receiver} {w n : Nat} {f : Nat → Bool} (h : Receiving r w n f) :
    ∃ hw : w < 8, (r.s_Instance.m_Buffer.m_Buffers ⟨w, hw⟩).m_Size = n ∧
      ∀ j, j < n → (r.s_Instance.m_Buffer.m_Buffers ⟨w, hw⟩).bit j = f j := by
  obtain ⟨_, _, _, _, hw, hsz, hbits⟩ := h
  refine ⟨hw, ?_, ?_⟩
  · simpa [AtomicBuffers.sizeAt, hw] using hsz
  · intro j hj
    simpa [AtomicBuffers.bitAt, hw] using hbits j hj

/-- C1 (round trip). For every 64-bit `code`, the trace of `TransmitCode(code, 1)` has 130
pulse durations, and feeding them to the handler of a freshly constructed
`RadioInterface`, one duration per edge, leaves in the decoder's frame (the write slot,
slot 0) exactly 64 bits, stored bit `i` being bit `i` of `code`; the value the primary
loop of `Learn` builds from that frame is `code`. -/
theorem roundtrip_TransmitCode (tx : RadioInterface)
    (hp : tx.m_Protocol = RadioInterface.new.m_Protocol) (code : Nat)
    (hcode : code < 18446744073709551616) :
    (pulseDurations (tx.TransmitCode code 1 [])).length = 130 ∧
    (feed Receiver.new (pulseDurations (tx.TransmitCode code 1 []))).s_Instance.m_Buffer.GetWriteBuffer
      = some 0 ∧
    ((feed Receiver.new (pulseDurations (tx.TransmitCode code 1 []))).s_Instance.m_Buffer.m_Buffers
      0).m_Size = 64 ∧
    (∀ i, i < 64 →
      ((feed Receiver.new (pulseDurations (tx.TransmitCode code 1 []))).s_Instance.m_Buffer.m_Buffers
        0).bit i = code.testBit i) ∧
    learnValue
      ((feed Receiver.new (pulseDurations (tx.TransmitCode code 1 []))).s_Instance.m_Buffer.m_Buffers
        0) = code := by
  have h := Receiving_roundtrip tx hp code
  obtain ⟨hw, hsz, hbits⟩ := h.slot
  exact ⟨length_TransmitCode_one tx code, h.2.2.2.1, hsz, hbits,
    learnValue_eq _ code hcode hsz hbits⟩

/-- Witness of C1 at the code `0x0123456789ABCDEF`, sent through pin 7. -/
theorem roundtrip_TransmitCode_witness :
    (pulseDurations (({ RadioInterface.new with m_TransmitterPin := 7 } : RadioInterface).TransmitCode
      0x0123456789ABCDEF 1 [])).length = 130 ∧
    (feed Receiver.new (pulseDurations
      (({ RadioInterface.new with m_TransmitterPin := 7 } : RadioInterface).TransmitCode
        0x0123456789ABCDEF 1 []))).s_Instance.m_Buffer.GetWriteBuffer = some 0 ∧
    ((feed Receiver.new (pulseDurations
      (({ RadioInterface.new with m_TransmitterPin := 7 } : RadioInterface).TransmitCode
        0x0123456789ABCDEF 1 []))).s_Instance.m_Buffer.m_Buffers 0).m_Size = 64 ∧
    (∀ i, i < 64 →
      ((feed Receiver.new (pulseDurations
        (({ RadioInterface.new with m_TransmitterPin := 7 } : RadioInterface).TransmitCode
          0x0123456789ABCDEF 1 []))).s_Instance.m_Buffer.m_Buffers 0).bit i
        = (0x0123456789ABCDEF : Nat).testBit i) ∧
    learnValue
      ((feed Receiver.new (pulseDurations
        (({ RadioInterface.new with m_TransmitterPin := 7 } : RadioInterface).TransmitCode
          0x0123456789ABCDEF 1 []))).s_Instance.m_Buffer.m_Buffers 0) = 0x0123456789ABCDEF :=
  roundtrip_TransmitCode { RadioInterface.new with m_TransmitterPin := 7 } rfl
    0x0123456789ABCDEF (by decide)

/-! ## Decode correctness -/

/-- What a sync-high duration does to a receiver whose ring is fresh apart from
`n > 0` bits in slot 0: the slot is committed and becomes the readable one. -/
theorem edge_sync_commits_slot0 (r : Receiver) (d : Nat) (hc : CtorWindows r.s_Instance)
    (ht : r.s_lastTime < 4294967296) (hrw : r.s_Instance.m_Buffer.m_ReadWriteIndex = 0)
    (hsz : 0 < r.s_Instance.m_Buffer.sizeAt 0) (h1 : 5000 < d) (h2 : d < 5400) :
    (edge r d).s_Instance.m_Buffer.StartReadBuffer = some 0 ∧
    (edge r d).s_Instance.m_Buffer.m_Buffers = r.s_Instance.m_Buffer.m_Buffers := by
  have hb : r.s_Instance.m_Buffer.GetWriteBuffer = some 0 := by
    simp [AtomicBuffers.GetWriteBuffer, hrw, Next]
  rw [edge_sync r 0 d ht hc hb h1 h2]
  refine ⟨?_, AtomicBuffers.EndWriteBuffer_slots _ _⟩
  have hr := AtomicBuffers.EndWriteBuffer_read r.s_Instance.m_Buffer (some 0)
  have hw := AtomicBuffers.EndWriteBuffer_write r.s_Instance.m_Buffer 0
  rw [if_pos hsz] at hw
  have r0 : r.s_Instance.m_Buffer.read = 0 := by simp [AtomicBuffers.read_eq, hrw]
  have w0 : r.s_Instance.m_Buffer.write = 0 := by simp [AtomicBuffers.write_eq, hrw]
  rw [r0] at hr
  rw [w0] at hw
  simp only [AtomicBuffers.StartReadBuffer_eq, hr, hw, Next]
  rfl

set_option maxRecDepth 1000000 in
theorem after_ones :
    CtorWindows (feed Receiver.new (syncThen64 200 600)).s_Instance ∧
    (feed Receiver.new (syncThen64 200 600)).s_lastTime < 4294967296 ∧
    (feed Receiver.new (syncThen64 200 600)).s_Instance.m_Buffer.m_ReadWriteIndex = 0 ∧
    (feed Receiver.new (syncThen64 200 600)).s_Instance.m_Buffer.sizeAt 0 = 64 ∧
    learnValue ((feed Receiver.new (syncThen64 200 600)).s_Instance.m_Buffer.m_Buffers 0)
      = 0xFFFFFFFFFFFFFFFF := by
  unfold CtorWindows
  refine ⟨⟨by decide, by decide⟩, by decide, by decide, by decide, by decide⟩

set_option maxRecDepth 1000000 in
theorem after_zeros :
    CtorWindows (feed Receiver.new (syncThen64 600 200)).s_Instance ∧
    (feed Receiver.new (syncThen64 600 200)).s_lastTime < 4294967296 ∧
    (feed Receiver.new (syncThen64 600 200)).s_Instance.m_Buffer.m_ReadWriteIndex = 0 ∧
    (feed Receiver.new (syncThen64 600 200)).s_Instance.m_Buffer.sizeAt 0 = 64 ∧
    learnValue ((feed Receiver.new (syncThen64 600 200)).s_Instance.m_Buffer.m_Buffers 0)
      = 0x0000000000000000 := by
  unfold CtorWindows
  refine ⟨⟨by decide, by decide⟩, by decide, by decide, by decide, by decide⟩

set_option maxRecDepth 1000000 in
/-- C2, counterexample. After exactly the durations `[5200, 600, 64 x (200, 600)]` the
frame is not committed: `StartReadBuffer` returns `nullptr`. -/
theorem decode_ones_not_committed :
    (feed Receiver.new (syncThen64 200 600)).s_Instance.m_Buffer.StartReadBuffer = none := by
  decide

/-- C2, amended. After exactly `[5200, 600, 64 x (200, 600)]` the write slot (slot 0) holds
a frame of size 64 with value `0xFFFFFFFFFFFFFFFF` that is not yet readable; one further
duration `d` inside the sync-high window commits it, and `StartReadBuffer` then returns
that slot, of size 64 and value `0xFFFFFFFFFFFFFFFF`. The same holds for
`[5200, 600, 64 x (600, 200)]` with value `0`. -/
theorem decode_completed_by_next_sync (d : Nat) (h1 : 5000 < d) (h2 : d < 5400) :
    ((feed Receiver.new (syncThen64 200 600)).s_Instance.m_Buffer.StartReadBuffer = none ∧
     (feed Receiver.new (syncThen64 200 600)).s_Instance.m_Buffer.GetWriteBuffer = some 0 ∧
     ((feed Receiver.new (syncThen64 200 600)).s_Instance.m_Buffer.m_Buffers 0).m_Size = 64 ∧
     learnValue ((feed Receiver.new (syncThen64 200 600)).s_Instance.m_Buffer.m_Buffers 0)
       = 0xFFFFFFFFFFFFFFFF ∧
     (feed Receiver.new (syncThen64 200 600 ++ [d])).s_Instance.m_Buffer.StartReadBuffer
       = some 0 ∧
     ((feed Receiver.new (syncThen64 200 600 ++ [d])).s_Instance.m_Buffer.m_Buffers 0).m_Size
       = 64 ∧
     learnValue ((feed Receiver.new (syncThen64 200 600 ++ [d])).s_Instance.m_Buffer.m_Buffers 0)
       = 0xFFFFFFFFFFFFFFFF) ∧
    ((feed Receiver.new (syncThen64 600 200)).s_Instance.m_Buffer.StartReadBuffer = none ∧
     (feed Receiver.new (syncThen64 600 200)).s_Instance.m_Buffer.GetWriteBuffer = some 0 ∧
     ((feed Receiver.new (syncThen64 600 200)).s_Instance.m_Buffer.m_Buffers 0).m_Size = 64 ∧
     learnValue ((feed Receiver.new (syncThen64 600 200)).s_Instance.m_Buffer.m_Buffers 0)
       = 0x0000000000000000 ∧
     (feed Receiver.new (syncThen64 600 200 ++ [d])).s_Instance.m_Buffer.StartReadBuffer
       = some 0 ∧
     ((feed Receiver.new (syncThen64 600 200 ++ [d])).s_Instance.m_Buffer.m_Buffers 0).m_Size
       = 64 ∧
     learnValue ((feed Receiver.new (syncThen64 600 200 ++ [d])).s_Instance.m_Buffer.m_Buffers 0)
       = 0x0000000000000000) := by
  have fa : ∀ xs : List Nat, feed Receiver.new (xs ++ [d]) = edge (feed Receiver.new xs) d := by
    intro xs; rw [feed_append]; rfl
  have rd : ∀ a : AtomicBuffers, a.m_ReadWriteIndex = 0 →
      a.StartReadBuffer = none ∧ a.GetWriteBuffer = some 0 := by
    intro a h
    simp [AtomicBuffers.StartReadBuffer, AtomicBuffers.GetWriteBuffer, h, Next]
  have sz : ∀ a : AtomicBuffers, a.sizeAt 0 = (a.m_Buffers 0).m_Size := by
    intro a; simp [AtomicBuffers.sizeAt]
  constructor
  · obtain ⟨hc, ht, hrw, hsz, hval⟩ := after_ones
    obtain ⟨e1, e2⟩ := edge_sync_commits_slot0 _ d hc ht hrw (by omega) h1 h2
    rw [fa, e2]
    exact ⟨(rd _ hrw).1, (rd _ hrw).2, (sz _).symm.trans hsz, hval, e1, (sz _).symm.trans hsz,
      hval⟩
  · obtain ⟨hc, ht, hrw, hsz, hval⟩ := after_zeros
    obtain ⟨e1, e2⟩ := edge_sync_commits_slot0 _ d hc ht hrw (by omega) h1 h2
    rw [fa, e2]
    exact ⟨(rd _ hrw).1, (rd _ hrw).2, (sz _).symm.trans hsz, hval, e1, (sz _).symm.trans hsz,
      hval⟩


/-- Witness of the amended C2 at the sync-high duration 5200. -/
theorem decode_completed_by_next_sync_witness :
    (5000 < 5200 ∧ 5200 < 5400) ∧
    (feed Receiver.new (syncThen64 200 600 ++ [5200])).s_Instance.m_Buffer.StartReadBuffer
      = some 0 ∧
    learnValue
      ((feed Receiver.new (syncThen64 200 600 ++ [5200])).s_Instance.m_Buffer.m_Buffers 0)
      = 0xFFFFFFFFFFFFFFFF ∧
    (feed Receiver.new (syncThen64 600 200 ++ [5200])).s_Instance.m_Buffer.StartReadBuffer
      = some 0 ∧
    learnValue
      ((feed Receiver.new (syncThen64 600 200 ++ [5200])).s_Instance.m_Buffer.m_Buffers 0)
      = 0x0000000000000000 :=
  have h := decode_completed_by_next_sync 5200 (by decide) (by decide)
  ⟨⟨by decide, by decide⟩, h.1.2.2.2.2.1, h.1.2.2.2.2.2.2, h.2.2.2.2.2.1, h.2.2.2.2.2.2.2⟩

/-! ## The invariant of the ring -/

theorem Buffer.Push_size (b : Buffer) (one : Bool) :
    (b.Push one).m_Size = if b.m_Size < 128 then b.m_Size + 1 else b.m_Size := by
  unfold Buffer.Push
  split <;> rfl

theorem RingInv_new : RingInv AtomicBuffers.new := by
  refine ⟨by decide, by decide, ?_⟩
  intro j
  have hc : AtomicBuffers.new.count = 0 := by decide
  have hr : AtomicBuffers.new.read = 0 := by decide
  rw [hc, hr]
  refine ⟨by simp [AtomicBuffers.new, Buffer.empty], fun h => by omega, fun _ => rfl⟩

theorem AtomicBuffers.modifyAt_count (a : AtomicBuffers) (i : Nat) (f : Buffer → Buffer) :
    (a.modifyAt i f).count = a.count := by
  simp only [AtomicBuffers.count, AtomicBuffers.modifyAt_read, AtomicBuffers.modifyAt_write]

/-- A push into the write slot keeps the invariant. -/
theorem RingInv.push {a : AtomicBuffers} (h : RingInv a) (one : Bool) :
    RingInv (a.modifyAt a.write (fun b => b.Push one)) := by
  obtain ⟨hr, hw, hs⟩ := h
  refine ⟨by rwa [AtomicBuffers.modifyAt_read], by rwa [AtomicBuffers.modifyAt_write], ?_⟩
  intro j
  obtain ⟨h1, h2, h3⟩ := hs j
  rw [AtomicBuffers.modifyAt_slot, AtomicBuffers.modifyAt_count, AtomicBuffers.modifyAt_read]
  unfold AtomicBuffers.count at *
  by_cases e : j.val = a.write
  · rw [if_pos e, Buffer.Push_size]
    refine ⟨by split <;> omega, fun _ => by split <;> omega, fun h => by omega⟩
  · rw [if_neg e]
    exact ⟨h1, h2, h3⟩

/-- A commit of the write slot of a ring that is not full keeps the invariant. -/
theorem RingInv.endWrite {a : AtomicBuffers} (h : RingInv a) (hfull : a.read ≠ Next a.write) :
    RingInv (a.EndWriteBuffer (some a.write)) := by
  obtain ⟨hr, hw, hs⟩ := h
  have e1 := AtomicBuffers.EndWriteBuffer_read a (some a.write)
  have e2 := AtomicBuffers.EndWriteBuffer_write a a.write
  have e3 := AtomicBuffers.EndWriteBuffer_slots a (some a.write)
  rw [Next_eq] at hfull e2
  have hsz : a.sizeAt a.write = (a.m_Buffers ⟨a.write, hw⟩).m_Size := by
    simp [AtomicBuffers.sizeAt, hw]
  refine ⟨by omega, by rw [e2]; split <;> omega, ?_⟩
  intro j
  obtain ⟨h1, h2, h3⟩ := hs j
  rw [e3]
  unfold AtomicBuffers.count at *
  rw [e1, e2]
  by_cases hpos : a.sizeAt a.write > 0
  · rw [if_pos hpos]
    refine ⟨h1, fun h => ?_, fun h => h3 (by omega)⟩
    by_cases e : j.val = a.write
    · have : j = ⟨a.write, hw⟩ := Fin.ext e
      rw [this]; omega
    · exact h2 (by omega)
  · rw [if_neg hpos]
    exact ⟨h1, h2, h3⟩

/-- A release of the oldest readable slot keeps the invariant. -/
theorem RingInv.endRead {a : AtomicBuffers} (h : RingInv a) (hne : a.read ≠ a.write)
    (p : Nat) : RingInv (a.EndReadBuffer (some p)) := by
  obtain ⟨hr, hw, hs⟩ := h
  have e1 := AtomicBuffers.EndReadBuffer_read a p
  have e2 := AtomicBuffers.EndReadBuffer_write a (some p)
  rw [Next_eq] at e1
  refine ⟨by omega, by omega, ?_⟩
  intro j
  obtain ⟨h1, h2, h3⟩ := hs j
  rw [AtomicBuffers.EndReadBuffer_slot]
  unfold AtomicBuffers.count at *
  rw [e1, e2]
  by_cases e : j.val = a.read
  · rw [if_pos e]
    exact ⟨by simp, fun h => by omega, fun _ => rfl⟩
  · rw [if_neg e]
    exact ⟨h1, fun h => h2 (by omega), fun h => h3 (by omega)⟩

/-! ## The handler as a producer -/

/-- What one call of the handler does to the ring: nothing, or `EndWriteBuffer` on the
write slot, or one `Push` into the write slot; the last two only when the ring is not
full. -/
theorem handler_ring (micros : Nat) (r : Receiver) :
    ((ReceiveInterruptHandler micros r).s_Instance.m_Buffer = r.s_Instance.m_Buffer ∧
        commitsFrame micros r = false) ∨
    (r.s_Instance.m_Buffer.read ≠ Next r.s_Instance.m_Buffer.write ∧
      (ReceiveInterruptHandler micros r).s_Instance.m_Buffer =
        r.s_Instance.m_Buffer.EndWriteBuffer (some r.s_Instance.m_Buffer.write) ∧
      commitsFrame micros r =
        decide (r.s_Instance.m_Buffer.sizeAt r.s_Instance.m_Buffer.write > 0)) ∨
    (r.s_Instance.m_Buffer.read ≠ Next r.s_Instance.m_Buffer.write ∧
      commitsFrame micros r = false ∧
      ∃ one, (ReceiveInterruptHandler micros r).s_Instance.m_Buffer =
        r.s_Instance.m_Buffer.modifyAt r.s_Instance.m_Buffer.write (fun b => b.Push one)) := by
  by_cases hfull : r.s_Instance.m_Buffer.read = Next r.s_Instance.m_Buffer.write
  · left
    have hb : r.s_Instance.m_Buffer.GetWriteBuffer = none := by
      rw [AtomicBuffers.GetWriteBuffer_eq, if_pos hfull]
    simp [ReceiveInterruptHandler, commitsFrame, hb]
  · have hb : r.s_Instance.m_Buffer.GetWriteBuffer = some r.s_Instance.m_Buffer.write := by
      rw [AtomicBuffers.GetWriteBuffer_eq, if_neg hfull]
    by_cases hsync : InRange r.s_Instance.m_MinProtocol.sync.high
        (duration (micros % 4294967296) r.s_lastTime) r.s_Instance.m_MaxProtocol.sync.high = true
    · right; left
      refine ⟨hfull, ?_, ?_⟩
      · simp [ReceiveInterruptHandler, hb, hsync]
      · simp [commitsFrame, hb, hsync]
    · have hc : commitsFrame micros r = false := by
        simp [commitsFrame, hb, hsync]
      cases hs : r.s_Instance.m_State
      · left; simp [ReceiveInterruptHandler, hb, hsync, hs, hc]
      · left; simp only [ReceiveInterruptHandler, hb, hsync, hs, hc, Bool.false_eq_true, if_false]
        refine ⟨?_, trivial⟩
        split
        · rfl
        · split <;> rfl
      · left; simp only [ReceiveInterruptHandler, hb, hsync, hs, hc, Bool.false_eq_true, if_false]
        refine ⟨?_, trivial⟩
        split <;> rfl
      · by_cases hz : InRange r.s_Instance.m_MinProtocol.zero.low
          (duration (micros % 4294967296) r.s_lastTime) r.s_Instance.m_MaxProtocol.zero.low = true
        · right; right
          refine ⟨hfull, hc, false, ?_⟩
          simp [ReceiveInterruptHandler, hb, hsync, hs, hz]
        · left; simp [ReceiveInterruptHandler, hb, hsync, hs, hc, hz]
      · by_cases hz : InRange r.s_Instance.m_MinProtocol.one.low
          (duration (micros % 4294967296) r.s_lastTime) r.s_Instance.m_MaxProtocol.one.low = true
        · right; right
          refine ⟨hfull, hc, true, ?_⟩
          simp [ReceiveInterruptHandler, hb, hsync, hs, hz]
        · left; simp [ReceiveInterruptHandler, hb, hsync, hs, hc, hz]

/-! ## The invariant of the decoder with its consumer -/

theorem SysInv_new : SysInv System.new := by
  refine ⟨RingInv_new, ?_, Nat.le_refl _, ?_⟩
  · intro p h; simp [System.new] at h
  · decide

theorem AtomicBuffers.EndWriteBuffer_size_zero (a : AtomicBuffers) (i : Nat)
    (h : ¬ a.sizeAt i > 0) : a.EndWriteBuffer (some i) = a := by
  simp [AtomicBuffers.EndWriteBuffer, h]

theorem SysInv.sys_edgeAt {s : System} (h : SysInv s) (micros : Nat) :
    SysInv
      { s with
        rx := ReceiveInterruptHandler micros s.rx
        committed := s.committed + (if commitsFrame micros s.rx then 1 else 0) } := by
  obtain ⟨hinv, hbuf, hle, hcnt⟩ := h
  unfold SysInv System.ring at *
  dsimp only
  rcases handler_ring micros s.rx with ⟨e, hc⟩ | ⟨hfull, e, hc⟩ | ⟨hfull, hc, one, e⟩
  · rw [e, hc]
    exact ⟨hinv, hbuf, by simpa using Nat.le_trans hle (Nat.le_refl _), by simpa using hcnt⟩
  · rw [e, hc]
    have hr := AtomicBuffers.EndWriteBuffer_read s.rx.s_Instance.m_Buffer
      (some s.rx.s_Instance.m_Buffer.write)
    have hw := AtomicBuffers.EndWriteBuffer_write s.rx.s_Instance.m_Buffer
      s.rx.s_Instance.m_Buffer.write
    have hi := hinv.endWrite hfull
    obtain ⟨hr8, hw8, _⟩ := hinv
    refine ⟨hi, ?_, ?_, ?_⟩
    · intro p hp
      obtain ⟨h1, h2⟩ := hbuf p hp
      rw [hr, hw]
      refine ⟨h1, ?_⟩
      split
      · exact hfull
      · exact h2
    · split <;> omega
    · unfold AtomicBuffers.count at *
      rw [hr, hw]
      rw [Next_eq] at hfull ⊢
      by_cases hpos : s.rx.s_Instance.m_Buffer.sizeAt s.rx.s_Instance.m_Buffer.write > 0
      · simp only [hpos, decide_True, if_true]; omega
      · simp only [hpos, decide_False, if_false, Bool.false_eq_true]; omega
  · rw [e, hc]
    refine ⟨hinv.push one, ?_, by simpa using hle, ?_⟩
    · intro p hp
      rw [AtomicBuffers.modifyAt_read, AtomicBuffers.modifyAt_write]
      exact hbuf p hp
    · rw [AtomicBuffers.modifyAt_count]
      simpa using hcnt

theorem SysInv.sys_startRead {s : System} (h : SysInv s) :
    SysInv { s with buffer := some s.rx.s_Instance.m_Buffer.StartReadBuffer } := by
  obtain ⟨hinv, hbuf, hle, hcnt⟩ := h
  refine ⟨hinv, ?_, hle, hcnt⟩
  intro p hp
  simp only [System.ring, Option.some.injEq, AtomicBuffers.StartReadBuffer_eq] at hp ⊢
  split at hp
  · cases hp
  · rename_i hne
    cases hp
    exact ⟨rfl, hne⟩

theorem SysInv.sys_endRead {s : System} (h : SysInv s) (buffer : Option Nat)
    (hb : s.buffer = some buffer) :
    SysInv
      { s with
        rx := { s.rx with
          s_Instance := { s.rx.s_Instance with
            m_Buffer := s.rx.s_Instance.m_Buffer.EndReadBuffer buffer } }
        buffer := none
        released := s.released + (if buffer.isSome then 1 else 0) } := by
  obtain ⟨hinv, hbuf, hle, hcnt⟩ := h
  unfold SysInv System.ring at *
  dsimp only
  cases buffer with
  | none =>
    refine ⟨hinv, ?_, by simpa using hle, by simpa using hcnt⟩
    intro p hp; cases hp
  | some p =>
    obtain ⟨_, hne⟩ := hbuf p hb
    have hr := AtomicBuffers.EndReadBuffer_read s.rx.s_Instance.m_Buffer p
    have hw := AtomicBuffers.EndReadBuffer_write s.rx.s_Instance.m_Buffer (some p)
    have hi := hinv.endRead hne p
    obtain ⟨hr8, hw8, _⟩ := hinv
    rw [Next_eq] at hr
    unfold AtomicBuffers.count at *
    refine ⟨hi, ?_, ?_, ?_⟩
    · intro q hq; cases hq
    · simp only [Option.isSome_some, if_true]; omega
    · rw [hr, hw]
      simp only [Option.isSome_some, if_true]; omega

theorem SysInv.sys_step {s s' : System} (h : SysInv s) (e : Event) (hs : s.step e = some s') :
    SysInv s' := by
  cases e with
  | edgeAt micros =>
    simp only [System.step, Option.some.injEq] at hs
    subst hs
    exact h.sys_edgeAt micros
  | startRead =>
    simp only [System.step, Option.some.injEq] at hs
    subst hs
    exact h.sys_startRead
  | endRead =>
    unfold System.step at hs
    cases hb : s.buffer with
    | none => simp [hb] at hs
    | some buffer =>
      simp only [hb, Option.some.injEq] at hs
      subst hs
      exact h.sys_endRead buffer hb

theorem SysInv.sys_run (evs : List Event) : ∀ {s s' : System}, SysInv s →
    System.run evs s = some s' → SysInv s' := by
  induction evs with
  | nil =>
    intro s s' h hs
    simp only [System.run, Option.some.injEq] at hs
    subst hs; exact h
  | cons e es ih =>
    intro s s' h hs
    unfold System.run at hs
    cases hstep : s.step e with
    | none => simp [hstep] at hs
    | some s1 =>
      simp only [hstep, Option.some_bind] at hs
      exact ih (h.sys_step e hstep) hs

/-! ## Capacity and published frames -/

theorem AtomicBuffers.mem_readable (a : AtomicBuffers) (hr : a.read < 8) (j : Nat)
    (hj : j < 8) : j ∈ a.readable ↔ (j + 8 - a.read) % 8 < a.count := by
  unfold AtomicBuffers.readable
  rw [List.mem_map]
  constructor
  · rintro ⟨k, hk, e⟩
    rw [List.mem_range] at hk
    have : a.count < 8 := by unfold AtomicBuffers.count; omega
    omega
  · intro h
    exact ⟨(j + 8 - a.read) % 8, List.mem_range.2 h, by omega⟩

/-- C4 (capacity invariant). In every state reachable from a fresh `RadioInterface` by
handler calls with arbitrary timestamps and by the consumer's `StartReadBuffer` /
`EndReadBuffer` calls (`EndReadBuffer` given the pointer `StartReadBuffer` returned), the
read and the write index are below 8, the number of frames committed minus the number
released is `(write - read) mod 8` and at most 7, and `GetWriteBuffer` returns
`nullptr` exactly when that number is 7, i.e. when `read == Next(write)`. -/
theorem capacity_invariant (evs : List Event) (s : System)
    (h : System.run evs System.new = some s) :
    s.ring.read < 8 ∧ s.ring.write < 8 ∧
    s.released ≤ s.committed ∧
    ((s.committed : Int) - s.released = ((s.ring.write : Int) - s.ring.read) % 8) ∧
    s.committed - s.released ≤ 7 ∧
    (s.ring.GetWriteBuffer = none ↔ s.committed - s.released = 7) ∧
    (s.ring.read = Next s.ring.write ↔ s.committed - s.released = 7) := by
  obtain ⟨⟨hr, hw, _⟩, _, hle, hcnt⟩ := SysInv_new.sys_run evs h
  have hfull : s.ring.read = Next s.ring.write ↔ s.committed - s.released = 7 := by
    rw [hcnt, Next_eq]; unfold AtomicBuffers.count; omega
  refine ⟨hr, hw, hle, ?_, ?_, ?_, hfull⟩
  · unfold AtomicBuffers.count at hcnt; omega
  · rw [hcnt]; unfold AtomicBuffers.count; omega
  · rw [← hfull, AtomicBuffers.GetWriteBuffer_eq]
    constructor
    · intro h1
      by_contra h2
      rw [if_neg h2] at h1
      cases h1
    · intro h1
      rw [if_pos h1]

/-- C5 (no zero-length frame is published). In every state reachable from a freshly
constructed `RadioInterface` by handler calls with arbitrary timestamps and by
disciplined consumer reads and releases, the slot `StartReadBuffer` returns, and the
slot of a pointer the consumer still holds, has `m_Size >= 1`, and every slot that is
neither readable nor the current write slot has `m_Size == 0`. -/
theorem no_empty_frame_published (evs : List Event) (s : System)
    (h : System.run evs System.new = some s) :
    (∀ r, s.ring.StartReadBuffer = some r → 1 ≤ s.ring.sizeAt r) ∧
    (∀ p, s.buffer = some (some p) → 1 ≤ s.ring.sizeAt p) ∧
    (∀ j : Fin 8, j.val ∉ s.ring.readable → j.val ≠ s.ring.write →
      (s.ring.m_Buffers j).m_Size = 0) := by
  obtain ⟨⟨hr, hw, hs⟩, hbuf, _, _⟩ := SysInv_new.sys_run evs h
  have hread : s.ring.read ≠ s.ring.write → 1 ≤ s.ring.sizeAt s.ring.read := by
    intro hne
    have := (hs ⟨s.ring.read, hr⟩).2.1
    simp only [AtomicBuffers.sizeAt, hr, dite_true]
    apply this
    unfold AtomicBuffers.count
    simp only
    omega
  refine ⟨?_, ?_, ?_⟩
  · intro r hr'
    rw [AtomicBuffers.StartReadBuffer_eq] at hr'
    split at hr'
    · cases hr'
    · rename_i hne
      cases hr'
      exact hread hne
  · intro p hp
    obtain ⟨e, hne⟩ := hbuf p hp
    rw [e]
    exact hread hne
  · intro j hj hjw
    rw [AtomicBuffers.mem_readable _ hr _ j.isLt] at hj
    apply (hs j).2.2
    unfold AtomicBuffers.count at *
    have := j.isLt
    omega

theorem System.run_eq_after (evs : List Event)
    (h : (System.run evs System.new).isSome = true) :
    System.run evs System.new = some (System.after evs) := by
  unfold System.after
  cases hr : System.run evs System.new with
  | none => rw [hr] at h; cases h
  | some s => rfl

set_option maxRecDepth 100000 in
/-- Witness of C4: the run `oneBitRun`. -/
theorem capacity_invariant_witness :
    System.run oneBitRun System.new = some (System.after oneBitRun) ∧
    (System.after oneBitRun).ring.read < 8 ∧ (System.after oneBitRun).ring.write < 8 ∧
    (System.after oneBitRun).released ≤ (System.after oneBitRun).committed ∧
    (((System.after oneBitRun).committed : Int) - (System.after oneBitRun).released =
      (((System.after oneBitRun).ring.write : Int) - (System.after oneBitRun).ring.read) % 8) ∧
    (System.after oneBitRun).committed - (System.after oneBitRun).released ≤ 7 ∧
    ((System.after oneBitRun).ring.GetWriteBuffer = none ↔
      (System.after oneBitRun).committed - (System.after oneBitRun).released = 7) ∧
    ((System.after oneBitRun).ring.read = Next (System.after oneBitRun).ring.write ↔
      (System.after oneBitRun).committed - (System.after oneBitRun).released = 7) :=
  ⟨System.run_eq_after oneBitRun (by decide),
    capacity_invariant oneBitRun (System.after oneBitRun)
      (System.run_eq_after oneBitRun (by decide))⟩

set_option maxRecDepth 100000 in
/-- Witness of C5: the run `spuriousSyncRun`. -/
theorem no_empty_frame_published_witness :
    System.run spuriousSyncRun System.new = some (System.after spuriousSyncRun) ∧
    (∀ r, (System.after spuriousSyncRun).ring.StartReadBuffer = some r →
      1 ≤ (System.after spuriousSyncRun).ring.sizeAt r) ∧
    (∀ p, (System.after spuriousSyncRun).buffer = some (some p) →
      1 ≤ (System.after spuriousSyncRun).ring.sizeAt p) ∧
    (∀ j : Fin 8, j.val ∉ (System.after spuriousSyncRun).ring.readable →
      j.val ≠ (System.after spuriousSyncRun).ring.write →
      ((System.after spuriousSyncRun).ring.m_Buffers j).m_Size = 0) :=
  ⟨System.run_eq_after spuriousSyncRun (by decide),
    no_empty_frame_published spuriousSyncRun (System.after spuriousSyncRun)
      (System.run_eq_after spuriousSyncRun (by decide))⟩

/-! ## The frames of the ring -/

theorem Buffer.frame_length (b : Buffer) : b.frame.length = b.m_Size := by
  simp [Buffer.frame]

theorem Buffer.bit_Push (b : Buffer) (one : Bool) (h : b.m_Size < 128) (j : Nat) :
    (b.Push one).bit j = if j = b.m_Size then one else b.bit j := by
  simp only [Buffer.Push, h, dite_true, Buffer.bit]
  by_cases hj : j < 128
  · simp only [hj, dite_true]
    by_cases e : j = b.m_Size
    · subst e; simp
    · have : (⟨j, hj⟩ : Fin 128) ≠ ⟨b.m_Size, h⟩ := fun h' => e (Fin.mk.inj h')
      simp [Function.update_noteq this, e]
  · have : j ≠ b.m_Size := by omega
    simp [hj, this]

theorem Buffer.frame_Push (b : Buffer) (one : Bool) :
    (b.Push one).frame = if b.frame.length < 128 then b.frame ++ [one] else b.frame := by
  rw [Buffer.frame_length]
  by_cases h : b.m_Size < 128
  · rw [if_pos h]
    have hs : (b.Push one).m_Size = b.m_Size + 1 := by rw [Buffer.Push_size, if_pos h]
    unfold Buffer.frame
    rw [hs, List.range_succ, List.map_append]
    congr 1
    · apply List.map_congr_left
      intro j hj
      rw [List.mem_range] at hj
      rw [Buffer.bit_Push b one h, if_neg (by omega)]
    · simp [Buffer.bit_Push b one h]
  · rw [if_neg h]
    simp [Buffer.Push, h]

theorem AtomicBuffers.frameAt_of_slots {a b : AtomicBuffers} (h : a.m_Buffers = b.m_Buffers) :
    a.frameAt = b.frameAt := by
  funext i
  simp [AtomicBuffers.frameAt, h]

theorem AtomicBuffers.frameAt_modifyAt_ne (a : AtomicBuffers) (i j : Nat)
    (f : Buffer → Buffer) (h : j ≠ i) : (a.modifyAt i f).frameAt j = a.frameAt j := by
  unfold AtomicBuffers.frameAt
  by_cases hj : j < 8
  · simp only [hj, dite_true, AtomicBuffers.modifyAt_slot, if_neg h]
  · simp only [hj, dite_false]

theorem AtomicBuffers.frameAt_modifyAt_self (a : AtomicBuffers) (i : Nat)
    (f : Buffer → Buffer) (hi : i < 8) :
    (a.modifyAt i f).frameAt i = (f (a.m_Buffers ⟨i, hi⟩)).frame := by
  unfold AtomicBuffers.frameAt
  simp only [hi, dite_true, AtomicBuffers.modifyAt_slot, if_true]

theorem AtomicBuffers.committed_length (a : AtomicBuffers) : a.committed.length = a.count := by
  simp [AtomicBuffers.committed, AtomicBuffers.readable]

theorem AtomicBuffers.readable_ne_write (a : AtomicBuffers) (j : Nat) (hj : j ∈ a.readable) :
    j ≠ a.write := by
  unfold AtomicBuffers.readable at hj
  rw [List.mem_map] at hj
  obtain ⟨k, hk, e⟩ := hj
  rw [List.mem_range] at hk
  unfold AtomicBuffers.count at hk
  omega

/-- A change of the write slot leaves the committed frames as they are. -/
theorem AtomicBuffers.committed_modifyAt_write (a : AtomicBuffers) (f : Buffer → Buffer) :
    (a.modifyAt a.write f).committed = a.committed := by
  unfold AtomicBuffers.committed
  have hrd : (a.modifyAt a.write f).readable = a.readable := by
    unfold AtomicBuffers.readable
    rw [AtomicBuffers.modifyAt_count, AtomicBuffers.modifyAt_read]
  rw [hrd]
  apply List.map_congr_left
  intro j hj
  exact AtomicBuffers.frameAt_modifyAt_ne a _ j f (AtomicBuffers.readable_ne_write a j hj)

/-- A commit appends the frame of the write slot to the committed frames. -/
theorem AtomicBuffers.committed_EndWriteBuffer (a : AtomicBuffers) (hr : a.read < 8)
    (hw : a.write < 8) (hfull : a.read ≠ Next a.write) (hpos : a.sizeAt a.write > 0) :
    (a.EndWriteBuffer (some a.write)).committed = a.committed ++ [a.frameAt a.write] := by
  have e1 := AtomicBuffers.EndWriteBuffer_read a (some a.write)
  have e2 := AtomicBuffers.EndWriteBuffer_write a a.write
  have e3 := AtomicBuffers.frameAt_of_slots (AtomicBuffers.EndWriteBuffer_slots a (some a.write))
  rw [if_pos hpos] at e2
  rw [Next_eq] at hfull e2
  have hc : (a.EndWriteBuffer (some a.write)).count = a.count + 1 := by
    unfold AtomicBuffers.count; rw [e1, e2]; omega
  have hlast : (a.read + a.count) % 8 = a.write := by
    unfold AtomicBuffers.count; omega
  unfold AtomicBuffers.committed AtomicBuffers.readable
  rw [hc, e1, e3, List.range_succ, List.map_append, List.map_append]
  simp [hlast]

/-- A release removes the oldest committed frame. -/
theorem AtomicBuffers.committed_EndReadBuffer (a : AtomicBuffers) (hr : a.read < 8)
    (hw : a.write < 8) (hne : a.read ≠ a.write) (p : Nat) :
    (a.EndReadBuffer (some p)).committed = a.committed.tail := by
  have e1 := AtomicBuffers.EndReadBuffer_read a p
  have e2 := AtomicBuffers.EndReadBuffer_write a (some p)
  rw [Next_eq] at e1
  obtain ⟨c, hc⟩ : ∃ c, a.count = c + 1 := by
    refine ⟨a.count - 1, ?_⟩
    unfold AtomicBuffers.count; omega
  have hc' : (a.EndReadBuffer (some p)).count = c := by
    unfold AtomicBuffers.count at hc ⊢; rw [e1, e2]; omega
  have hc8 : c + 1 < 8 := by
    rw [← hc]; unfold AtomicBuffers.count; omega
  unfold AtomicBuffers.committed AtomicBuffers.readable
  rw [hc, hc', e1, List.range_succ_eq_map]
  simp only [List.map_cons, List.tail_cons, List.map_map]
  apply List.map_congr_left
  intro k hk
  rw [List.mem_range] at hk
  simp only [Function.comp]
  have hk1 : (a.read + Nat.succ k) % 8 = ((a.read + 1) % 8 + k) % 8 := by
    simp only [Nat.succ_eq_add_one]; omega
  rw [hk1]
  have hne' : ((a.read + 1) % 8 + k) % 8 ≠ a.read := by omega
  have hlt : ((a.read + 1) % 8 + k) % 8 < 8 := Nat.mod_lt _ (by norm_num)
  unfold AtomicBuffers.frameAt
  simp only [hlt, dite_true, AtomicBuffers.EndReadBuffer_slot, if_neg hne']

/-! ## The ring refines the queue -/

theorem ClientsInv_new : ClientsInv RingClients.new := by
  refine ⟨RingInv_new, ?_, ?_⟩ <;> intro p h <;> simp [RingClients.new] at h

theorem abs_new : RingClients.new.abs = FifoSpec.new := by
  decide

theorem AtomicBuffers.GetWriteBuffer_isSome (a : AtomicBuffers) (hr : a.read < 8)
    (hw : a.write < 8) : a.GetWriteBuffer.isSome = decide (a.committed.length < 7) := by
  rw [AtomicBuffers.committed_length, AtomicBuffers.GetWriteBuffer_eq, Next_eq]
  unfold AtomicBuffers.count
  by_cases h : a.read = (a.write + 1) % 8
  · rw [if_pos h]
    have : ¬ (a.write + 8 - a.read) % 8 < 7 := by omega
    simp [this]
  · rw [if_neg h]
    have : (a.write + 8 - a.read) % 8 < 7 := by omega
    simp [this]

theorem AtomicBuffers.StartReadBuffer_isSome (a : AtomicBuffers) (hr : a.read < 8)
    (hw : a.write < 8) : a.StartReadBuffer.isSome = decide (a.committed ≠ []) := by
  have hl := AtomicBuffers.committed_length a
  rw [AtomicBuffers.StartReadBuffer_eq]
  unfold AtomicBuffers.count at hl
  by_cases h : a.read = a.write
  · rw [if_pos h]
    have : a.committed = [] := List.eq_nil_of_length_eq_zero (by omega)
    simp [this]
  · rw [if_neg h]
    have : a.committed ≠ [] := by
      intro e; rw [e] at hl; simp at hl; omega
    simp [this]

/-- One operation of a client commutes with the abstraction and keeps the invariant. -/
theorem ClientsInv.clients_step {s : RingClients} (h : ClientsInv s) (op : RingOp) :
    (s.step op).map RingClients.abs = s.abs.step op ∧
    ∀ s', s.step op = some s' → ClientsInv s' := by
  obtain ⟨hinv, hwb, hrb⟩ := h
  have hr := hinv.1
  have hw := hinv.2.1
  cases op with
  | getWrite =>
    constructor
    · simp only [RingClients.step, FifoSpec.step, RingClients.abs, Option.map_some']
      rw [AtomicBuffers.GetWriteBuffer_isSome _ hr hw]
    · intro s' hs
      simp only [RingClients.step, Option.some.injEq] at hs
      subst hs
      refine ⟨hinv, ?_, hrb⟩
      intro w hw'
      simp only [Option.some.injEq, AtomicBuffers.GetWriteBuffer_eq] at hw'
      split at hw'
      · cases hw'
      · rename_i hne
        cases hw'
        exact ⟨rfl, hne⟩
  | push one =>
    cases hwb' : s.wbuf with
    | none => simp [RingClients.step, FifoSpec.step, RingClients.abs, hwb']
    | some p =>
      cases p with
      | none => simp [RingClients.step, FifoSpec.step, RingClients.abs, hwb']
      | some i =>
        obtain ⟨hi, hnf⟩ := hwb i hwb'
        rw [hi] at hwb'
        have hfr : s.ring.frameAt s.ring.write = (s.ring.m_Buffers ⟨s.ring.write, hw⟩).frame := by
          simp [AtomicBuffers.frameAt, hw]
        constructor
        · simp only [RingClients.step, FifoSpec.step, RingClients.abs, hwb', Option.map_some',
            Option.isSome_some]
          rw [AtomicBuffers.committed_modifyAt_write, AtomicBuffers.modifyAt_write,
            AtomicBuffers.frameAt_modifyAt_self _ _ _ hw, Buffer.frame_Push, hfr]
        · intro s' hs
          simp only [RingClients.step, hwb', Option.some.injEq] at hs
          subst hs
          refine ⟨hinv.push one, ?_, ?_⟩
          · intro w hw'
            simp only [AtomicBuffers.modifyAt_read, AtomicBuffers.modifyAt_write]
            exact hwb w (hwb'.trans hw')
          · intro r hr'
            simp only [AtomicBuffers.modifyAt_read, AtomicBuffers.modifyAt_write]
            exact hrb r hr'
  | endWrite =>
    cases hwb' : s.wbuf with
    | none => simp [RingClients.step, FifoSpec.step, RingClients.abs, hwb']
    | some p =>
      cases p with
      | none =>
        constructor
        · simp [RingClients.step, FifoSpec.step, RingClients.abs, hwb',
            AtomicBuffers.EndWriteBuffer]
        · intro s' hs
          simp only [RingClients.step, hwb', Option.some.injEq] at hs
          subst hs
          refine ⟨hinv, ?_, hrb⟩
          intro w hw'; cases hw'
      | some i =>
        obtain ⟨hi, hnf⟩ := hwb i hwb'
        rw [hi] at hwb'
        have hfr : s.ring.frameAt s.ring.write = (s.ring.m_Buffers ⟨s.ring.write, hw⟩).frame := by
          simp [AtomicBuffers.frameAt, hw]
        have hsz : s.ring.sizeAt s.ring.write = (s.ring.m_Buffers ⟨s.ring.write, hw⟩).m_Size := by
          simp [AtomicBuffers.sizeAt, hw]
        have e1 := AtomicBuffers.EndWriteBuffer_read s.ring (some s.ring.write)
        have e2 := AtomicBuffers.EndWriteBuffer_write s.ring s.ring.write
        by_cases hpos : s.ring.sizeAt s.ring.write > 0
        · rw [if_pos hpos] at e2
          have hne : s.ring.frameAt s.ring.write ≠ [] := by
            intro e
            have := Buffer.frame_length (s.ring.m_Buffers ⟨s.ring.write, hw⟩)
            rw [← hfr, e] at this
            simp at this
            omega
          have hi' := hinv.endWrite hnf
          have hnew : (s.ring.EndWriteBuffer (some s.ring.write)).frameAt (Next s.ring.write)
              = [] := by
            have hlt := Next_lt s.ring.write
            have h3 := (hinv.2.2 ⟨Next s.ring.write, hlt⟩).2.2
            unfold AtomicBuffers.count at h3
            have hz := h3 (by simp only; rw [Next_eq] at hnf ⊢; omega)
            have hl := Buffer.frame_length (s.ring.m_Buffers ⟨Next s.ring.write, hlt⟩)
            rw [hz] at hl
            rw [AtomicBuffers.frameAt_of_slots (AtomicBuffers.EndWriteBuffer_slots s.ring _)]
            simp only [AtomicBuffers.frameAt, hlt, dite_true]
            exact List.eq_nil_of_length_eq_zero hl
          constructor
          · simp only [RingClients.step, FifoSpec.step, RingClients.abs, hwb', Option.map_some',
              Option.isSome_some, hne, if_false]
            rw [AtomicBuffers.committed_EndWriteBuffer _ hr hw hnf hpos, e2, hnew]
            rfl
          · intro s' hs
            simp only [RingClients.step, hwb', Option.some.injEq] at hs
            subst hs
            refine ⟨hi', ?_, ?_⟩
            · intro w hw'; cases hw'
            · intro r hr'
              obtain ⟨h1, h2⟩ := hrb r hr'
              simp only [e1, e2]
              exact ⟨h1, hnf⟩
        · have hsame := AtomicBuffers.EndWriteBuffer_size_zero s.ring s.ring.write hpos
          have hnil : s.ring.frameAt s.ring.write = [] := by
            have := Buffer.frame_length (s.ring.m_Buffers ⟨s.ring.write, hw⟩)
            rw [hfr]
            exact List.eq_nil_of_length_eq_zero (by omega)
          constructor
          · simp only [RingClients.step, FifoSpec.step, RingClients.abs, hwb', Option.map_some',
              Option.isSome_some, hnil, if_true, hsame]
            rfl
          · intro s' hs
            simp only [RingClients.step, hwb', Option.some.injEq, hsame] at hs
            subst hs
            refine ⟨hinv, ?_, hrb⟩
            intro w hw'; cases hw'
  | startRead =>
    constructor
    · simp only [RingClients.step, FifoSpec.step, RingClients.abs, Option.map_some']
      rw [AtomicBuffers.StartReadBuffer_isSome _ hr hw]
    · intro s' hs
      simp only [RingClients.step, Option.some.injEq] at hs
      subst hs
      refine ⟨hinv, hwb, ?_⟩
      intro r hr'
      simp only [Option.some.injEq, AtomicBuffers.StartReadBuffer_eq] at hr'
      split at hr'
      · cases hr'
      · rename_i hne
        cases hr'
        exact ⟨rfl, hne⟩
  | endRead =>
    cases hrb' : s.rbuf with
    | none => simp [RingClients.step, FifoSpec.step, RingClients.abs, hrb']
    | some p =>
      cases p with
      | none =>
        constructor
        · simp [RingClients.step, FifoSpec.step, RingClients.abs, hrb',
            AtomicBuffers.EndReadBuffer]
        · intro s' hs
          simp only [RingClients.step, hrb', Option.some.injEq] at hs
          subst hs
          refine ⟨hinv, hwb, ?_⟩
          intro w hw'; cases hw'
      | some i =>
        obtain ⟨hi, hne⟩ := hrb i hrb'
        have e1 := AtomicBuffers.EndReadBuffer_read s.ring i
        have e2 := AtomicBuffers.EndReadBuffer_write s.ring (some i)
        have hfr : (s.ring.EndReadBuffer (some i)).frameAt s.ring.write
            = s.ring.frameAt s.ring.write := by
          simp only [AtomicBuffers.frameAt, hw, dite_true, AtomicBuffers.EndReadBuffer_slot,
            if_neg (Ne.symm hne)]
        constructor
        · simp only [RingClients.step, FifoSpec.step, RingClients.abs, hrb', Option.map_some',
            Option.isSome_some]
          rw [AtomicBuffers.committed_EndReadBuffer _ hr hw hne, e2, hfr]
          rfl
        · intro s' hs
          simp only [RingClients.step, hrb', Option.some.injEq] at hs
          subst hs
          refine ⟨hinv.endRead hne i, ?_, ?_⟩
          · intro w hw'
            obtain ⟨h1, h2⟩ := hwb w hw'
            simp only [e1, e2]
            refine ⟨h1, ?_⟩
            rw [Next_eq] at h2 ⊢
            rw [Next_eq]
            omega
          · intro r hr'; cases hr'

theorem ClientsInv.clients_run (ops : List RingOp) : ∀ s : RingClients, ClientsInv s →
    (RingClients.run ops s).map RingClients.abs = FifoSpec.run ops s.abs ∧
    ∀ s', RingClients.run ops s = some s' → ClientsInv s' := by
  induction ops with
  | nil =>
    intro s h
    refine ⟨rfl, ?_⟩
    intro s' hs
    simp only [RingClients.run, Option.some.injEq] at hs
    subst hs; exact h
  | cons op ops ih =>
    intro s h
    obtain ⟨h1, h2⟩ := h.clients_step op
    unfold RingClients.run FifoSpec.run
    rw [← h1]
    cases hstep : s.step op with
    | none => simp
    | some s1 =>
      obtain ⟨i1, i2⟩ := ih s1 (h2 s1 hstep)
      simp only [Option.some_bind, Option.map_some']
      exact ⟨i1, i2⟩

theorem AtomicBuffers.head_committed (a : AtomicBuffers) (hr : a.read < 8) (hw : a.write < 8) :
    a.StartReadBuffer.map a.frameAt = a.committed.head? := by
  rw [AtomicBuffers.StartReadBuffer_eq]
  by_cases h : a.read = a.write
  · rw [if_pos h]
    have hl := AtomicBuffers.committed_length a
    unfold AtomicBuffers.count at hl
    have : a.committed = [] := List.eq_nil_of_length_eq_zero (by omega)
    rw [this]; rfl
  · rw [if_neg h]
    obtain ⟨c, hc⟩ : ∃ c, a.count = c + 1 := by
      refine ⟨a.count - 1, ?_⟩
      unfold AtomicBuffers.count; omega
    unfold AtomicBuffers.committed AtomicBuffers.readable
    rw [hc, List.range_succ_eq_map]
    have : a.read % 8 = a.read := by omega
    simp [this]

/-- C3 (ring safety as a FIFO refinement). For every sequence of whole operations of a
disciplined producer and a disciplined consumer on a fresh ring, the ring stands for
the state the bounded FIFO queue of the specification reaches by the same operations
(the same operations are allowed, the committed frames are the same bit sequences in
commit order, and so is the frame in progress). In every state so reached at most 7
frames are buffered, `GetWriteBuffer` returns `nullptr` exactly when 7 are, the frame
`StartReadBuffer` returns is the oldest committed frame (none if there is none), a slot
the consumer gets or holds is readable and is not the write slot, and a slot the
producer gets or holds is the write slot and is not readable. -/
theorem ring_refines_fifo (ops : List RingOp) :
    (RingClients.run ops RingClients.new).map RingClients.abs
      = FifoSpec.run ops FifoSpec.new ∧
    ∀ s, RingClients.run ops RingClients.new = some s →
      s.abs.queue.length ≤ 7 ∧
      (s.ring.GetWriteBuffer = none ↔ s.abs.queue.length = 7) ∧
      s.ring.StartReadBuffer.map s.ring.frameAt = s.abs.queue.head? ∧
      (∀ r, s.ring.StartReadBuffer = some r → r ∈ s.ring.readable ∧ r ≠ s.ring.write) ∧
      (∀ r, s.rbuf = some (some r) →
        r ∈ s.ring.readable ∧ r ≠ s.ring.write ∧ some (s.ring.frameAt r) = s.abs.queue.head?) ∧
      (∀ w, s.ring.GetWriteBuffer = some w → w = s.ring.write ∧ w ∉ s.ring.readable) ∧
      (∀ w, s.wbuf = some (some w) → w = s.ring.write ∧ w ∉ s.ring.readable) := by
  obtain ⟨h1, h2⟩ := ClientsInv.clients_run ops RingClients.new ClientsInv_new
  rw [abs_new] at h1
  refine ⟨h1, ?_⟩
  intro s hs
  obtain ⟨hinv, hwb, hrb⟩ := h2 s hs
  have hr := hinv.1
  have hw := hinv.2.1
  have hlen : s.abs.queue.length = s.ring.count := AtomicBuffers.committed_length s.ring
  have hhead := AtomicBuffers.head_committed s.ring hr hw
  have hmem : s.ring.read ≠ s.ring.write → s.ring.read ∈ s.ring.readable := by
    intro hne
    rw [AtomicBuffers.mem_readable _ hr _ hr]
    unfold AtomicBuffers.count; omega
  have hstart : ∀ r, s.ring.StartReadBuffer = some r → r = s.ring.read ∧ s.ring.read ≠ s.ring.write := by
    intro r h
    rw [AtomicBuffers.StartReadBuffer_eq] at h
    split at h
    · cases h
    · rename_i hne; cases h; exact ⟨rfl, hne⟩
  have hget : ∀ w, s.ring.GetWriteBuffer = some w → w = s.ring.write := by
    intro w h
    rw [AtomicBuffers.GetWriteBuffer_eq] at h
    split at h
    · cases h
    · cases h; rfl
  refine ⟨?_, ?_, hhead, ?_, ?_, ?_, ?_⟩
  · rw [hlen]; unfold AtomicBuffers.count; omega
  · rw [hlen, AtomicBuffers.GetWriteBuffer_eq, Next_eq]
    unfold AtomicBuffers.count
    constructor
    · intro h
      split at h
      · omega
      · cases h
    · intro h
      rw [if_pos (by omega)]
  · intro r h
    obtain ⟨e, hne⟩ := hstart r h
    rw [e]
    exact ⟨hmem hne, hne⟩
  · intro r h
    obtain ⟨e, hne⟩ := hrb r h
    rw [e]
    refine ⟨hmem hne, hne, ?_⟩
    show some (s.ring.frameAt s.ring.read) = s.ring.committed.head?
    rw [← hhead, AtomicBuffers.StartReadBuffer_eq, if_neg hne]
    rfl
  · intro w h
    have e := hget w h
    rw [e]
    exact ⟨rfl, fun hm => AtomicBuffers.readable_ne_write s.ring _ hm rfl⟩
  · intro w h
    obtain ⟨e, _⟩ := hwb w h
    rw [e]
    exact ⟨rfl, fun hm => AtomicBuffers.readable_ne_write s.ring _ hm rfl⟩

/-- Witness of C3: after `twoFramesOps` the ring stands for the queue that holds the one
frame `[1]`, the consumer holding a slot. -/
theorem ring_refines_fifo_witness :
    (RingClients.run twoFramesOps RingClients.new).map RingClients.abs =
      some { queue := [[true]], frame := [], wslot := none, rslot := some true } :=
  (ring_refines_fifo twoFramesOps).1.trans (by decide)

/-! ## Single steps of the handler and of `EndWriteBuffer` -/

/-- The handler in the sync-high branch. -/
theorem handler_sync (micros : Nat) (r : Receiver) (w : Nat)
    (hb : r.s_Instance.m_Buffer.GetWriteBuffer = some w)
    (hsync : InRange r.s_Instance.m_MinProtocol.sync.high
      (duration (micros % 4294967296) r.s_lastTime) r.s_Instance.m_MaxProtocol.sync.high = true) :
    ReceiveInterruptHandler micros r =
      { s_Instance :=
          { r.s_Instance with
            m_Buffer := r.s_Instance.m_Buffer.EndWriteBuffer (some w)
            m_LastDiff := duration (micros % 4294967296) r.s_lastTime
            m_State := State.WaitingForLowSync }
        s_lastTime := micros % 4294967296 } := by
  simp [ReceiveInterruptHandler, hb, hsync]

/-- C6 (a sync-high pulse forces a frame boundary). With the windows of the constructor,
in every decoder state, when the ring is not full and the duration `d` the handler
computes satisfies `5000 < d < 5400`, the handler changes no slot (it appends no bit),
leaves the read index, advances the write index by one modulo 8 if and only if the
write slot's size is above 0 (and leaves it otherwise), and leaves the state
`WaitingForLowSync`. -/
theorem sync_high_forces_boundary (micros : Nat) (r : Receiver) (d : Nat)
    (hc : CtorWindows r.s_Instance)
    (hd : duration (micros % 4294967296) r.s_lastTime = d) (h1 : 5000 < d) (h2 : d < 5400)
    (hnf : r.s_Instance.m_Buffer.read ≠ Next r.s_Instance.m_Buffer.write) :
    (ReceiveInterruptHandler micros r).s_Instance.m_Buffer.m_Buffers
      = r.s_Instance.m_Buffer.m_Buffers ∧
    (ReceiveInterruptHandler micros r).s_Instance.m_Buffer.read = r.s_Instance.m_Buffer.read ∧
    ((ReceiveInterruptHandler micros r).s_Instance.m_Buffer.write
        = (r.s_Instance.m_Buffer.write + 1) % 8 ↔
      r.s_Instance.m_Buffer.sizeAt r.s_Instance.m_Buffer.write > 0) ∧
    (¬ r.s_Instance.m_Buffer.sizeAt r.s_Instance.m_Buffer.write > 0 →
      (ReceiveInterruptHandler micros r).s_Instance.m_Buffer.write = r.s_Instance.m_Buffer.write) ∧
    (ReceiveInterruptHandler micros r).s_Instance.m_State = State.WaitingForLowSync := by
  have hb : r.s_Instance.m_Buffer.GetWriteBuffer = some r.s_Instance.m_Buffer.write := by
    rw [AtomicBuffers.GetWriteBuffer_eq, if_neg hnf]
  have hsync : InRange r.s_Instance.m_MinProtocol.sync.high
      (duration (micros % 4294967296) r.s_lastTime) r.s_Instance.m_MaxProtocol.sync.high
      = true := by
    rw [hd, hc.1, hc.2]
    simp [InRange, RadioInterface.new, h1, h2]
  rw [handler_sync micros r _ hb hsync]
  have e2 := AtomicBuffers.EndWriteBuffer_write r.s_Instance.m_Buffer r.s_Instance.m_Buffer.write
  have hw : r.s_Instance.m_Buffer.write < 256 := by
    unfold AtomicBuffers.write; omega
  refine ⟨AtomicBuffers.EndWriteBuffer_slots _ _, AtomicBuffers.EndWriteBuffer_read _ _, ?_, ?_,
    rfl⟩
  · simp only [e2, Next_eq]
    constructor
    · intro h
      by_contra hz
      rw [if_neg hz] at h
      omega
    · intro h
      rw [if_pos h]
  · intro hz
    simp only [e2, if_neg hz]

/-- C7 (overflow step). Whenever the ring is full (`read == Next(write)`), in every decoder
state and for every timestamp, hence every duration, one handler call sets the state to
`WaitingForSync` and leaves the packed index and all slots unchanged. -/
theorem ring_full_drops (micros : Nat) (r : Receiver)
    (hfull : r.s_Instance.m_Buffer.read = Next r.s_Instance.m_Buffer.write) :
    (ReceiveInterruptHandler micros r).s_Instance.m_State = State.WaitingForSync ∧
    (ReceiveInterruptHandler micros r).s_Instance.m_Buffer.m_ReadWriteIndex
      = r.s_Instance.m_Buffer.m_ReadWriteIndex ∧
    (ReceiveInterruptHandler micros r).s_Instance.m_Buffer.m_Buffers
      = r.s_Instance.m_Buffer.m_Buffers := by
  have hb : r.s_Instance.m_Buffer.GetWriteBuffer = none := by
    rw [AtomicBuffers.GetWriteBuffer_eq, if_pos hfull]
  simp [ReceiveInterruptHandler, hb]

/-- C8 (resync robustness). With the ring not full, in every decoder state and for every
duration `d` the handler computes that is neither strictly inside the sync-high window
nor strictly inside a window the state accepts (sync low for `WaitingForLowSync`; zero
high or one high for `WaitingForHigh`; zero low for `WaitingForLowZero`; one low for
`WaitingForLowOne`; none for `WaitingForSync`), one handler call leaves the state
`WaitingForSync`, changes no slot (appends no bit) and leaves the packed index. -/
theorem unrecognised_duration_resyncs (micros : Nat) (r : Receiver) (d : Nat)
    (hd : duration (micros % 4294967296) r.s_lastTime = d)
    (hnf : r.s_Instance.m_Buffer.read ≠ Next r.s_Instance.m_Buffer.write)
    (hsync : ¬ (r.s_Instance.m_MinProtocol.sync.high < d ∧ d < r.s_Instance.m_MaxProtocol.sync.high))
    (hLowSync : r.s_Instance.m_State = State.WaitingForLowSync →
      ¬ (r.s_Instance.m_MinProtocol.sync.low < d ∧ d < r.s_Instance.m_MaxProtocol.sync.low))
    (hHigh : r.s_Instance.m_State = State.WaitingForHigh →
      ¬ (r.s_Instance.m_MinProtocol.zero.high < d ∧ d < r.s_Instance.m_MaxProtocol.zero.high) ∧
      ¬ (r.s_Instance.m_MinProtocol.one.high < d ∧ d < r.s_Instance.m_MaxProtocol.one.high))
    (hLowZero : r.s_Instance.m_State = State.WaitingForLowZero →
      ¬ (r.s_Instance.m_MinProtocol.zero.low < d ∧ d < r.s_Instance.m_MaxProtocol.zero.low))
    (hLowOne : r.s_Instance.m_State = State.WaitingForLowOne →
      ¬ (r.s_Instance.m_MinProtocol.one.low < d ∧ d < r.s_Instance.m_MaxProtocol.one.low)) :
    (ReceiveInterruptHandler micros r).s_Instance.m_State = State.WaitingForSync ∧
    (ReceiveInterruptHandler micros r).s_Instance.m_Buffer.m_Buffers
      = r.s_Instance.m_Buffer.m_Buffers ∧
    (ReceiveInterruptHandler micros r).s_Instance.m_Buffer.m_ReadWriteIndex
      = r.s_Instance.m_Buffer.m_ReadWriteIndex := by
  have hb : r.s_Instance.m_Buffer.GetWriteBuffer = some r.s_Instance.m_Buffer.write := by
    rw [AtomicBuffers.GetWriteBuffer_eq, if_neg hnf]
  have hin : ∀ lo hi, ¬ (lo < d ∧ d < hi) → InRange lo d hi = false := by
    intro lo hi h
    simp only [InRange, Bool.and_eq_false_imp, decide_eq_true_eq, decide_eq_false_iff_not]
    intro h1 h2
    exact h ⟨h1, h2⟩
  cases hs : r.s_Instance.m_State
  · simp [ReceiveInterruptHandler, hb, hd, hin _ _ hsync, hs]
  · simp [ReceiveInterruptHandler, hb, hd, hin _ _ hsync, hs, hin _ _ (hHigh hs).1,
      hin _ _ (hHigh hs).2]
  · simp [ReceiveInterruptHandler, hb, hd, hin _ _ hsync, hs, hin _ _ (hLowSync hs)]
  · simp [ReceiveInterruptHandler, hb, hd, hin _ _ hsync, hs, hin _ _ (hLowZero hs)]
  · simp [ReceiveInterruptHandler, hb, hd, hin _ _ hsync, hs, hin _ _ (hLowOne hs)]

/-- C9 (boundary strictness). `InRange(min, d, max)` holds exactly when `min < d < max`;
the six windows the constructor installs are sync high (5000, 5400), sync low (500, 700),
zero high (500, 700), zero low (150, 350), one high (150, 350) and one low (500, 700);
and for each of them a duration equal to `min` or to `max` is out of range while
`min + 1` and `max - 1` are in range. -/
theorem boundary_strictness :
    (∀ min d max : Nat, InRange min d max = true ↔ (min < d ∧ d < max)) ∧
    RadioInterface.new.windows
      = [(5000, 5400), (500, 700), (500, 700), (150, 350), (150, 350), (500, 700)] ∧
    ∀ w ∈ RadioInterface.new.windows,
      InRange w.1 w.1 w.2 = false ∧ InRange w.1 w.2 w.2 = false ∧
      InRange w.1 (w.1 + 1) w.2 = true ∧ InRange w.1 (w.2 - 1) w.2 = true := by
  refine ⟨?_, by decide, by decide⟩
  intro min d max
  simp [InRange]

/-- C10 (frame effect of `EndWriteBuffer`). `EndWriteBuffer(slot)` advances the write index
by one modulo 8 if and only if `slot` is non-null and `slot->m_Size > 0`; in every case it
leaves the read index and all slots unchanged; and for a null or an empty slot it leaves
the whole ring unchanged. -/
theorem EndWriteBuffer_effect (a : AtomicBuffers) (slot : Option Nat) :
    ((a.EndWriteBuffer slot).write = (a.write + 1) % 8 ↔
      ∃ i, slot = some i ∧ a.sizeAt i > 0) ∧
    (a.EndWriteBuffer slot).read = a.read ∧
    (a.EndWriteBuffer slot).m_Buffers = a.m_Buffers ∧
    ((slot = none ∨ ∃ i, slot = some i ∧ a.sizeAt i = 0) → a.EndWriteBuffer slot = a) := by
  have hw : a.write < 256 := by unfold AtomicBuffers.write; omega
  refine ⟨?_, AtomicBuffers.EndWriteBuffer_read a slot, AtomicBuffers.EndWriteBuffer_slots a slot,
    ?_⟩
  · cases slot with
    | none =>
      constructor
      · intro h
        have : (a.EndWriteBuffer none).write = a.write := rfl
        omega
      · rintro ⟨i, hi, _⟩; cases hi
    | some i =>
      rw [AtomicBuffers.EndWriteBuffer_write, Next_eq]
      constructor
      · intro h
        refine ⟨i, rfl, ?_⟩
        by_contra hz
        rw [if_neg hz] at h
        omega
      · rintro ⟨j, hj, hpos⟩
        cases hj
        rw [if_pos hpos]
  · rintro (h | ⟨i, hi, hz⟩)
    · rw [h]; rfl
    · rw [hi]
      exact AtomicBuffers.EndWriteBuffer_size_zero a i (by omega)

set_option maxRecDepth 1000000 in
/-- Witness of C7: the ring filled by `sevenFrames`, and an edge 5200 microseconds later. -/
theorem ring_full_drops_witness :
    (feed Receiver.new sevenFrames).s_Instance.m_Buffer.read
      = Next (feed Receiver.new sevenFrames).s_Instance.m_Buffer.write ∧
    (ReceiveInterruptHandler 56600 (feed Receiver.new sevenFrames)).s_Instance.m_State
      = State.WaitingForSync ∧
    (ReceiveInterruptHandler 56600 (feed Receiver.new sevenFrames)).s_Instance.m_Buffer.m_ReadWriteIndex
      = (feed Receiver.new sevenFrames).s_Instance.m_Buffer.m_ReadWriteIndex ∧
    (ReceiveInterruptHandler 56600 (feed Receiver.new sevenFrames)).s_Instance.m_Buffer.m_Buffers
      = (feed Receiver.new sevenFrames).s_Instance.m_Buffer.m_Buffers :=
  ⟨by decide, ring_full_drops 56600 (feed Receiver.new sevenFrames) (by decide)⟩


set_option maxRecDepth 1000000 in
/-- Witness of C6: the receiver that holds the 64 bits of the all-ones frame in its write
slot, and an edge 5200 microseconds after the last one. -/
theorem sync_high_forces_boundary_witness :
    (CtorWindows (feed Receiver.new (syncThen64 200 600)).s_Instance ∧
      duration (62200 % 4294967296) (feed Receiver.new (syncThen64 200 600)).s_lastTime = 5200 ∧
      (feed Receiver.new (syncThen64 200 600)).s_Instance.m_Buffer.read
        ≠ Next (feed Receiver.new (syncThen64 200 600)).s_Instance.m_Buffer.write) ∧
    (ReceiveInterruptHandler 62200 (feed Receiver.new (syncThen64 200 600))).s_Instance.m_Buffer.m_Buffers
      = (feed Receiver.new (syncThen64 200 600)).s_Instance.m_Buffer.m_Buffers ∧
    (ReceiveInterruptHandler 62200 (feed Receiver.new (syncThen64 200 600))).s_Instance.m_Buffer.read
      = (feed Receiver.new (syncThen64 200 600)).s_Instance.m_Buffer.read ∧
    ((ReceiveInterruptHandler 62200 (feed Receiver.new (syncThen64 200 600))).s_Instance.m_Buffer.write
        = ((feed Receiver.new (syncThen64 200 600)).s_Instance.m_Buffer.write + 1) % 8 ↔
      (feed Receiver.new (syncThen64 200 600)).s_Instance.m_Buffer.sizeAt
        (feed Receiver.new (syncThen64 200 600)).s_Instance.m_Buffer.write > 0) ∧
    (¬ (feed Receiver.new (syncThen64 200 600)).s_Instance.m_Buffer.sizeAt
        (feed Receiver.new (syncThen64 200 600)).s_Instance.m_Buffer.write > 0 →
      (ReceiveInterruptHandler 62200 (feed Receiver.new (syncThen64 200 600))).s_Instance.m_Buffer.write
        = (feed Receiver.new (syncThen64 200 600)).s_Instance.m_Buffer.write) ∧
    (ReceiveInterruptHandler 62200 (feed Receiver.new (syncThen64 200 600))).s_Instance.m_State
      = State.WaitingForLowSync :=
  ⟨⟨⟨by decide, by decide⟩, by decide, by decide⟩,
    sync_high_forces_boundary 62200 (feed Receiver.new (syncThen64 200 600)) 5200
      ⟨by decide, by decide⟩ (by decide) (by decide) (by decide) (by decide)⟩

set_option maxRecDepth 1000000 in
/-- Witness of C8: the receiver that waits for the low phase of a one-pulse, and an edge
100 microseconds after the last one. -/
theorem unrecognised_duration_resyncs_witness :
    ((feed Receiver.new [5200, 600, 200]).s_Instance.m_State = State.WaitingForLowOne ∧
      duration (6100 % 4294967296) (feed Receiver.new [5200, 600, 200]).s_lastTime = 100 ∧
      (feed Receiver.new [5200, 600, 200]).s_Instance.m_Buffer.read
        ≠ Next (feed Receiver.new [5200, 600, 200]).s_Instance.m_Buffer.write) ∧
    (ReceiveInterruptHandler 6100 (feed Receiver.new [5200, 600, 200])).s_Instance.m_State
      = State.WaitingForSync ∧
    (ReceiveInterruptHandler 6100 (feed Receiver.new [5200, 600, 200])).s_Instance.m_Buffer.m_Buffers
      = (feed Receiver.new [5200, 600, 200]).s_Instance.m_Buffer.m_Buffers ∧
    (ReceiveInterruptHandler 6100 (feed Receiver.new [5200, 600, 200])).s_Instance.m_Buffer.m_ReadWriteIndex
      = (feed Receiver.new [5200, 600, 200]).s_Instance.m_Buffer.m_ReadWriteIndex :=
  ⟨⟨by decide, by decide, by decide⟩,
    unrecognised_duration_resyncs 6100 (feed Receiver.new [5200, 600, 200]) 100
      (by decide) (by decide) (by decide) (by decide) (by decide) (by decide) (by decide)⟩

/-! ## `EndReadBuffer` and `Push` -/

theorem AtomicBuffers.EndReadBuffer_bits (a : AtomicBuffers) (p : Option Nat) (j : Fin 8) :
    ((a.EndReadBuffer p).m_Buffers j).m_Bits = (a.m_Buffers j).m_Bits := by
  cases p with
  | none => rfl
  | some i =>
    rw [AtomicBuffers.EndReadBuffer_slot]
    split <;> rfl

/-- C11 (frame effect of `EndReadBuffer`). `EndReadBuffer(slot)` with the slot
`StartReadBuffer` just returned sets that slot's `m_Size` to 0, advances the read index by
one modulo 8, and leaves the write index, the size of every other slot and the bits of
every slot unchanged; a ring that was full has a free write slot afterwards
(`GetWriteBuffer` returns the slot at the write position); `EndReadBuffer(nullptr)`
changes nothing. -/
theorem EndReadBuffer_effect (a : AtomicBuffers) (slot : Nat)
    (h : a.StartReadBuffer = some slot) :
    (a.EndReadBuffer (some slot)).sizeAt slot = 0 ∧
    (a.EndReadBuffer (some slot)).read = (a.read + 1) % 8 ∧
    (a.EndReadBuffer (some slot)).write = a.write ∧
    (∀ j : Fin 8, j.val ≠ slot →
      ((a.EndReadBuffer (some slot)).m_Buffers j).m_Size = (a.m_Buffers j).m_Size) ∧
    (∀ j : Fin 8, ((a.EndReadBuffer (some slot)).m_Buffers j).m_Bits = (a.m_Buffers j).m_Bits) ∧
    (a.read = Next a.write → (a.EndReadBuffer (some slot)).GetWriteBuffer = some a.write) ∧
    a.EndReadBuffer none = a := by
  have hs : slot = a.read := by
    rw [AtomicBuffers.StartReadBuffer_eq] at h
    split at h
    · cases h
    · cases h; rfl
  have e1 := AtomicBuffers.EndReadBuffer_read a slot
  have e2 := AtomicBuffers.EndReadBuffer_write a (some slot)
  rw [Next_eq] at e1
  refine ⟨?_, e1, e2, ?_, fun j => AtomicBuffers.EndReadBuffer_bits a _ j, ?_, rfl⟩
  · unfold AtomicBuffers.sizeAt
    split
    · rw [AtomicBuffers.EndReadBuffer_slot, if_pos hs]
    · rfl
  · intro j hj
    rw [AtomicBuffers.EndReadBuffer_slot, if_neg (by rw [← hs]; exact hj)]
  · intro hfull
    rw [AtomicBuffers.GetWriteBuffer_eq, e1, e2, if_neg]
    rw [Next_eq] at hfull ⊢
    omega

set_option maxRecDepth 100000 in
/-- Witness of C11: the ring filled by `sevenFrames`. -/
theorem EndReadBuffer_effect_witness :
    (feed Receiver.new sevenFrames).s_Instance.m_Buffer.StartReadBuffer = some 0 ∧
    ((feed Receiver.new sevenFrames).s_Instance.m_Buffer.EndReadBuffer (some 0)).sizeAt 0 = 0 ∧
    ((feed Receiver.new sevenFrames).s_Instance.m_Buffer.EndReadBuffer (some 0)).read
      = ((feed Receiver.new sevenFrames).s_Instance.m_Buffer.read + 1) % 8 ∧
    ((feed Receiver.new sevenFrames).s_Instance.m_Buffer.read
        = Next (feed Receiver.new sevenFrames).s_Instance.m_Buffer.write →
      ((feed Receiver.new sevenFrames).s_Instance.m_Buffer.EndReadBuffer (some 0)).GetWriteBuffer
        = some (feed Receiver.new sevenFrames).s_Instance.m_Buffer.write) :=
  have h := EndReadBuffer_effect (feed Receiver.new sevenFrames).s_Instance.m_Buffer 0 (by decide)
  ⟨by decide, h.1, h.2.1, h.2.2.2.2.2.1⟩

/-- C14 (frame append). For a `Buffer` with `m_Size < 128`, `Push(b)` stores `b` at position
`m_Size`, increases `m_Size` by exactly 1 and leaves the bits at all other positions
unchanged; for a `Buffer` with `m_Size == 128` (or above), `Push(b)` changes nothing; hence
`m_Size` never exceeds 128: a push keeps `m_Size <= 128`, and so does every sequence of
pushes into a default-constructed `Buffer`. -/
theorem Push_effect (b : Buffer) (one : Bool) :
    (b.m_Size < 128 →
      (b.Push one).m_Size = b.m_Size + 1 ∧ (b.Push one).bit b.m_Size = one ∧
      ∀ j, j ≠ b.m_Size → (b.Push one).bit j = b.bit j) ∧
    (128 ≤ b.m_Size → b.Push one = b) ∧
    (b.m_Size ≤ 128 → (b.Push one).m_Size ≤ 128) ∧
    ∀ bits : List Bool, (bits.foldl Buffer.Push Buffer.empty).m_Size ≤ 128 := by
  have hle : ∀ (c : Buffer) (x : Bool), c.m_Size ≤ 128 → (c.Push x).m_Size ≤ 128 := by
    intro c x hc
    rw [Buffer.Push_size]
    split <;> omega
  refine ⟨?_, ?_, hle b one, ?_⟩
  · intro h
    refine ⟨by rw [Buffer.Push_size, if_pos h], ?_, ?_⟩
    · rw [Buffer.bit_Push b one h, if_pos rfl]
    · intro j hj
      rw [Buffer.bit_Push b one h, if_neg hj]
  · intro h
    have : ¬ b.m_Size < 128 := by omega
    simp [Buffer.Push, this]
  · intro bits
    have : ∀ (c : Buffer), c.m_Size ≤ 128 → (bits.foldl Buffer.Push c).m_Size ≤ 128 := by
      induction bits with
      | nil => intro c hc; exact hc
      | cons x xs ih => intro c hc; exact ih _ (hle c x hc)
    exact this _ (by simp [Buffer.empty])

/-! ## The trace of `TransmitCode` -/

theorem Transmit_eq (rf : RadioInterface) (p : HighLow) (out : List Gpio) :
    rf.Transmit p out = out ++ pulseTrace rf.m_TransmitterPin p := rfl

/-- The trace of the loop of `SendWord`: the low `i` bits of `word`, bit 0 first. -/
theorem SendWordLoop_trace (rf : RadioInterface)
    (hp : rf.m_Protocol = RadioInterface.new.m_Protocol) (i : Nat) :
    ∀ (word : Nat) (out : List Gpio), word < 4294967296 →
      rf.SendWordLoop i word out =
        out ++ ((List.range i).map (fun k =>
          (if word.testBit k then ⟨200, 600⟩ else ⟨600, 200⟩ : HighLow))).flatMap
            (pulseTrace rf.m_TransmitterPin) := by
  induction i with
  | zero => intro word out _; simp [RadioInterface.SendWordLoop]
  | succ i ih =>
    intro word out hword
    have hbit : (word &&& 0x1) ≠ 0 ↔ word.testBit 0 = true := by
      rw [Nat.testBit_zero, Nat.and_one_is_mod]
      simp
    have hshift : (word >>> 1) % 4294967296 = word >>> 1 := by
      apply Nat.mod_eq_of_lt
      rw [Nat.shiftRight_eq_div_pow]
      omega
    have hlt : word >>> 1 < 4294967296 := by
      rw [Nat.shiftRight_eq_div_pow]; omega
    unfold RadioInterface.SendWordLoop
    simp only [hshift]
    rw [ih _ _ hlt, List.range_succ_eq_map, List.map_cons, List.flatMap_cons, List.map_map]
    have hk : ∀ k, (word >>> 1).testBit k = word.testBit (Nat.succ k) := by
      intro k
      rw [Nat.testBit_shiftRight, Nat.add_comm]
    have hmap : (List.range i).map (fun k =>
          (if (word >>> 1).testBit k then ⟨200, 600⟩ else ⟨600, 200⟩ : HighLow)) =
        (List.range i).map
          ((fun k => (if word.testBit k then ⟨200, 600⟩ else ⟨600, 200⟩ : HighLow)) ∘ Nat.succ) := by
      apply List.map_congr_left
      intro k _
      simp only [Function.comp, hk]
    rw [hmap]
    by_cases hb : word.testBit 0 = true
    · rw [if_pos (hbit.2 hb), Transmit_eq, hp, if_pos hb, List.append_assoc]
      rfl
    · rw [if_neg (fun h => hb (hbit.1 h)), Transmit_eq, hp, if_neg hb, List.append_assoc]
      rfl

/-- The trace of one repeat of `TransmitCode`. -/
theorem SendWords_trace (rf : RadioInterface)
    (hp : rf.m_Protocol = RadioInterface.new.m_Protocol) (code : Nat) (out : List Gpio) :
    rf.SendWord ((code >>> 32) % 4294967296)
        (rf.SendWord (code % 4294967296) (rf.Transmit rf.m_Protocol.sync out)) =
      out ++ (framePulses code).flatMap (pulseTrace rf.m_TransmitterPin) := by
  unfold RadioInterface.SendWord
  rw [SendWordLoop_trace rf hp 32 _ _ (Nat.mod_lt _ (by norm_num)),
    SendWordLoop_trace rf hp 32 _ _ (Nat.mod_lt _ (by norm_num)), Transmit_eq, hp]
  have e32 : (4294967296 : Nat) = 2 ^ 32 := by norm_num
  have h1 : (List.range 32).map (fun k =>
        (if (code % 4294967296).testBit k then ⟨200, 600⟩ else ⟨600, 200⟩ : HighLow)) =
      (List.range 32).map (fun k =>
        (if code.testBit k then ⟨200, 600⟩ else ⟨600, 200⟩ : HighLow)) := by
    apply List.map_congr_left
    intro k hk
    rw [List.mem_range] at hk
    rw [e32, Nat.testBit_mod_two_pow]
    simp [hk]
  have h2 : (List.range 32).map (fun k =>
        (if ((code >>> 32) % 4294967296).testBit k then ⟨200, 600⟩ else ⟨600, 200⟩ : HighLow)) =
      (List.range 32).map (fun k =>
        (if code.testBit (32 + k) then ⟨200, 600⟩ else ⟨600, 200⟩ : HighLow)) := by
    apply List.map_congr_left
    intro k hk
    rw [List.mem_range] at hk
    rw [e32, Nat.testBit_mod_two_pow, Nat.testBit_shiftRight]
    simp [hk]
  have h64 : List.range 64 = List.range 32 ++ (List.range 32).map (fun k => 32 + k) := by
    decide
  rw [h1, h2]
  unfold framePulses
  rw [h64]
  simp only [List.flatMap_cons, List.map_append, List.map_map, List.flatMap_append,
    List.append_assoc]
  rfl

/-- The trace of `TransmitCode`: `repeats` copies of the pulses of one transmission. -/
theorem TransmitCode_trace (rf : RadioInterface)
    (hp : rf.m_Protocol = RadioInterface.new.m_Protocol) (code : Nat) (repeats : Nat) :
    ∀ out : List Gpio, rf.TransmitCode code repeats out =
      out ++ ((List.replicate repeats (framePulses code)).flatten).flatMap
        (pulseTrace rf.m_TransmitterPin) := by
  induction repeats with
  | zero => intro out; simp [RadioInterface.TransmitCode]
  | succ n ih =>
    intro out
    unfold RadioInterface.TransmitCode
    simp only
    rw [ih, SendWords_trace rf hp, List.replicate_succ, List.flatten_cons, List.flatMap_append,
      List.append_assoc]

/-- C13 (encoder bit order). For every code and every `repeats`, the trace of
`TransmitCode(code, repeats)` consists of the pulses of `repeats` concatenated copies of
`framePulses code`: the sync `(5200, 600)` followed, for `i = 0, 1, ..., 63` in that order,
by `(200, 600)` if bit `i` of `code` is 1 and `(600, 200)` if it is 0, each pulse emitted as
in `Transmit`; so the low word followed by the high word, each from bit 0 upward, is the
64-bit code least-significant bit first, and `repeats = 0` emits nothing. -/
theorem TransmitCode_bit_order (tx : RadioInterface)
    (hp : tx.m_Protocol = RadioInterface.new.m_Protocol) (code : Nat) (n : Nat) :
    tx.TransmitCode code n [] =
      ((List.replicate n (framePulses code)).flatten).flatMap (pulseTrace tx.m_TransmitterPin) ∧
    ((List.replicate n (framePulses code)).flatten).length = 65 * n ∧
    tx.TransmitCode code 0 [] = [] := by
  refine ⟨by rw [TransmitCode_trace tx hp]; rfl, ?_, rfl⟩
  simp [framePulses, List.length_flatten]
  omega

/-- Witness of C13 at the code `0x0123456789ABCDEF`, 4 repeats, pin 7. -/
theorem TransmitCode_bit_order_witness :
    ({ RadioInterface.new with m_TransmitterPin := 7 } : RadioInterface).m_Protocol
      = RadioInterface.new.m_Protocol ∧
    ({ RadioInterface.new with m_TransmitterPin := 7 } : RadioInterface).TransmitCode
        0x0123456789ABCDEF 4 [] =
      ((List.replicate 4 (framePulses 0x0123456789ABCDEF)).flatten).flatMap (pulseTrace 7) :=
  ⟨rfl, (TransmitCode_bit_order { RadioInterface.new with m_TransmitterPin := 7 } rfl
    0x0123456789ABCDEF 4).1⟩

/-! ## Edge timing, and the first bits after construction -/

theorem handler_lastTime (micros : Nat) (r : Receiver) :
    (ReceiveInterruptHandler micros r).s_lastTime = micros % 4294967296 := by
  unfold ReceiveInterruptHandler
  simp only
  split
  · rfl
  · split
    · rfl
    · split <;> (try split) <;> (try split) <;> rfl

theorem handler_LastDiff (micros : Nat) (r : Receiver) :
    (ReceiveInterruptHandler micros r).s_Instance.m_LastDiff
      = duration (micros % 4294967296) r.s_lastTime := by
  unfold ReceiveInterruptHandler
  simp only
  split
  · rfl
  · split
    · rfl
    · split <;> (try split) <;> (try split) <;> rfl

/-- The handler sees `micros` and `s_lastTime` only through their 32-bit difference. -/
theorem handler_instance_congr (t1 t2 : Nat) (r1 r2 : Receiver)
    (hi : r1.s_Instance = r2.s_Instance)
    (hd : duration (t1 % 4294967296) r1.s_lastTime = duration (t2 % 4294967296) r2.s_lastTime) :
    (ReceiveInterruptHandler t1 r1).s_Instance = (ReceiveInterruptHandler t2 r2).s_Instance := by
  unfold ReceiveInterruptHandler
  simp only [hi, hd]
  split
  · rfl
  · split
    · rfl
    · split <;> (try split) <;> (try split) <;> rfl

/-- C18 (edge timing with wrap-around). On every handler call with 32-bit timestamp `t`,
whatever the decoder state and the ring, `m_LastDiff` becomes `(t - previous timestamp)
mod 2^32` and the stored last-edge time becomes `t`; two calls on the same instance with
the same difference leave the same instance; when the edge comes `d < 2^32` microseconds
after the previous one, so that `t` is the previous timestamp plus `d` modulo `2^32`, the
difference is `d`, also across a wrap of the counter; and the duration that is classified
is that difference: with `d = (t - previous timestamp) mod 2^32`, the call returns exactly
the receiver in which `m_LastDiff = d`, the last-edge time is `t`, and the state and the
ring are the ones chosen by testing `d` itself, strictly, against the sync-high window
and then against the window of the current state (no test at all when the ring is
full). -/
theorem edge_timing (t : Nat) (r : Receiver) (ht : t < 4294967296)
    (hl : r.s_lastTime < 4294967296) :
    ((ReceiveInterruptHandler t r).s_Instance.m_LastDiff : Int)
      = ((t : Int) - (r.s_lastTime : Int)) % 4294967296 ∧
    (ReceiveInterruptHandler t r).s_lastTime = t ∧
    (∀ (t2 : Nat) (r2 : Receiver), r2.s_Instance = r.s_Instance →
      duration (t2 % 4294967296) r2.s_lastTime = duration (t % 4294967296) r.s_lastTime →
      (ReceiveInterruptHandler t2 r2).s_Instance = (ReceiveInterruptHandler t r).s_Instance) ∧
    (∀ d, d < 4294967296 → t = (r.s_lastTime + d) % 4294967296 →
      (ReceiveInterruptHandler t r).s_Instance.m_LastDiff = d ∧
      duration (t % 4294967296) r.s_lastTime = d) ∧
    (∀ d : Nat, (d : Int) = ((t : Int) - (r.s_lastTime : Int)) % 4294967296 →
      ReceiveInterruptHandler t r =
        match r.s_Instance.m_Buffer.GetWriteBuffer with
        | none =>
          { s_Instance := { r.s_Instance with m_LastDiff := d, m_State := State.WaitingForSync },
            s_lastTime := t }
        | some buffer =>
          if InRange r.s_Instance.m_MinProtocol.sync.high d r.s_Instance.m_MaxProtocol.sync.high then
            { s_Instance :=
                { r.s_Instance with
                  m_LastDiff := d
                  m_Buffer := r.s_Instance.m_Buffer.EndWriteBuffer (some buffer)
                  m_State := State.WaitingForLowSync }
              s_lastTime := t }
          else
            match r.s_Instance.m_State with
            | State.WaitingForSync =>
              { s_Instance := { r.s_Instance with m_LastDiff := d }, s_lastTime := t }
            | State.WaitingForLowSync =>
              { s_Instance :=
                  { r.s_Instance with
                    m_LastDiff := d
                    m_State :=
                      if InRange r.s_Instance.m_MinProtocol.sync.low d
                          r.s_Instance.m_MaxProtocol.sync.low
                      then State.WaitingForHigh else State.WaitingForSync }
                s_lastTime := t }
            | State.WaitingForHigh =>
              { s_Instance :=
                  { r.s_Instance with
                    m_LastDiff := d
                    m_State :=
                      if InRange r.s_Instance.m_MinProtocol.zero.high d
                          r.s_Instance.m_MaxProtocol.zero.high
                      then State.WaitingForLowZero
                      else if InRange r.s_Instance.m_MinProtocol.one.high d
                          r.s_Instance.m_MaxProtocol.one.high
                      then State.WaitingForLowOne else State.WaitingForSync }
                s_lastTime := t }
            | State.WaitingForLowZero =>
              if InRange r.s_Instance.m_MinProtocol.zero.low d
                  r.s_Instance.m_MaxProtocol.zero.low then
                { s_Instance :=
                    { r.s_Instance with
                      m_LastDiff := d
                      m_Buffer := r.s_Instance.m_Buffer.modifyAt buffer (fun b => b.Push false)
                      m_State := State.WaitingForHigh }
                  s_lastTime := t }
              else
                { s_Instance :=
                    { r.s_Instance with m_LastDiff := d, m_State := State.WaitingForSync }
                  s_lastTime := t }
            | State.WaitingForLowOne =>
              if InRange r.s_Instance.m_MinProtocol.one.low d
                  r.s_Instance.m_MaxProtocol.one.low then
                { s_Instance :=
                    { r.s_Instance with
                      m_LastDiff := d
                      m_Buffer := r.s_Instance.m_Buffer.modifyAt buffer (fun b => b.Push true)
                      m_State := State.WaitingForHigh }
                  s_lastTime := t }
              else
                { s_Instance :=
                    { r.s_Instance with m_LastDiff := d, m_State := State.WaitingForSync }
                  s_lastTime := t }) := by
  have hdur : ((duration (t % 4294967296) r.s_lastTime : Nat) : Int)
      = ((t : Int) - (r.s_lastTime : Int)) % 4294967296 := by
    unfold duration
    omega
  refine ⟨?_, ?_, ?_, ?_, ?_⟩
  · rw [handler_LastDiff]; exact hdur
  · rw [handler_lastTime]; omega
  · intro t2 r2 hi hd
    exact handler_instance_congr t2 t r2 r hi hd
  · intro d hd e
    have : duration (t % 4294967296) r.s_lastTime = d := by
      unfold duration; omega
    exact ⟨by rw [handler_LastDiff]; exact this, this⟩
  · intro d hd
    have h1 : duration (t % 4294967296) r.s_lastTime = d := by
      have := hdur
      omega
    have h2 : t % 4294967296 = t := Nat.mod_eq_of_lt ht
    rw [h2] at h1
    unfold ReceiveInterruptHandler
    simp only [h2, h1]
    cases r.s_Instance.m_Buffer.GetWriteBuffer with
    | none => rfl
    | some buffer =>
      simp only
      by_cases hs : InRange r.s_Instance.m_MinProtocol.sync.high d
          r.s_Instance.m_MaxProtocol.sync.high = true
      · simp only [hs, if_true]
      · simp only [hs, Bool.false_eq_true, if_false]
        cases r.s_Instance.m_State with
        | WaitingForSync => rfl
        | WaitingForLowSync => simp only; split <;> rfl
        | WaitingForHigh => simp only; split <;> (try split) <;> rfl
        | WaitingForLowZero => rfl
        | WaitingForLowOne => rfl

set_option maxRecDepth 100000 in
/-- Witness of C18: the previous edge at `2^32 - 100`. The next edge 300 microseconds
later, at timestamp 200 after the wrap of the counter, is classified as the high pulse
of a one; so is an edge 349 microseconds later, the last duration inside the window
`(150, 350)`, while an edge 350 microseconds later is rejected; the last two states are
also evaluated directly. -/
theorem edge_timing_witness :
    ((200 : Nat) < 4294967296 ∧ beforeWrap.s_lastTime < 4294967296) ∧
    ((ReceiveInterruptHandler 200 beforeWrap).s_Instance.m_LastDiff : Int)
      = (((200 : Nat) : Int) - (beforeWrap.s_lastTime : Int)) % 4294967296 ∧
    (ReceiveInterruptHandler 200 beforeWrap).s_lastTime = 200 ∧
    (ReceiveInterruptHandler 200 beforeWrap).s_Instance.m_LastDiff = 300 ∧
    ((300 : Nat) : Int) = (((200 : Nat) : Int) - (beforeWrap.s_lastTime : Int)) % 4294967296 ∧
    ReceiveInterruptHandler 200 beforeWrap =
      { s_Instance :=
          { beforeWrap.s_Instance with m_LastDiff := 300, m_State := State.WaitingForLowOne }
        s_lastTime := 200 } ∧
    ((249 : Nat) < 4294967296 ∧
      ((349 : Nat) : Int) = (((249 : Nat) : Int) - (beforeWrap.s_lastTime : Int)) % 4294967296) ∧
    beforeWrap.s_Instance.m_State = State.WaitingForHigh ∧
    beforeWrap.s_Instance.m_MinProtocol.one.high = 150 ∧
    beforeWrap.s_Instance.m_MaxProtocol.one.high = 350 ∧
    ReceiveInterruptHandler 249 beforeWrap =
      { s_Instance :=
          { beforeWrap.s_Instance with m_LastDiff := 349, m_State := State.WaitingForLowOne }
        s_lastTime := 249 } ∧
    ReceiveInterruptHandler 250 beforeWrap =
      { s_Instance :=
          { beforeWrap.s_Instance with m_LastDiff := 350, m_State := State.WaitingForSync }
        s_lastTime := 250 } ∧
    (ReceiveInterruptHandler 249 beforeWrap).s_Instance.m_State = State.WaitingForLowOne ∧
    (ReceiveInterruptHandler 250 beforeWrap).s_Instance.m_State = State.WaitingForSync :=
  have h := edge_timing 200 beforeWrap (by decide) (by decide)
  have h2 := edge_timing 249 beforeWrap (by decide) (by decide)
  have h3 := edge_timing 250 beforeWrap (by decide) (by decide)
  ⟨⟨by decide, by decide⟩, h.1, h.2.1, (h.2.2.2.1 300 (by decide) (by decide)).1, by decide,
    (h.2.2.2.2 300 (by decide)).trans rfl, ⟨by decide, by decide⟩, rfl, rfl, rfl,
    (h2.2.2.2.2 349 (by decide)).trans rfl, (h3.2.2.2.2 350 (by decide)).trans rfl,
    by decide, by decide⟩

set_option maxRecDepth 100000 in
/-- C16, the code at the failing input. From the freshly constructed `RadioInterface`,
whose constructor leaves `m_State = WaitingForHigh`, the two durations 600 and 200,
neither of them inside the sync-high window, append a bit to slot 0 although no sync has
been seen. -/
theorem bit_appended_before_any_sync :
    RadioInterface.new.m_State = State.WaitingForHigh ∧
    InRange 5000 600 5400 = false ∧ InRange 5000 200 5400 = false ∧
    Receiver.new.s_Instance.m_Buffer.sizeAt 0 = 0 ∧
    (feed Receiver.new [600, 200]).s_Instance.m_Buffer.sizeAt 0 = 1 ∧
    (feed Receiver.new [600, 200]).s_Instance.m_Buffer.bitAt 0 0 = false := by
  decide

/-! ## The vote of `Learn` -/

theorem testBit_verboseNibbleLoop (buffer : Buffer) (i : Nat) (k : Nat) :
    ∀ (j val m : Nat),
      (verboseNibbleLoop buffer i k j val).testBit m =
        (if j ≤ m ∧ m < j + k then (buffer.bit (i + m - 4) || val.testBit m)
          else val.testBit m) := by
  induction k with
  | zero =>
    intro j val m
    have : ¬ (j ≤ m ∧ m < j + 0) := by omega
    simp only [verboseNibbleLoop]
    rw [if_neg this]
  | succ k ih =>
    intro j val m
    unfold verboseNibbleLoop
    simp only
    rw [ih, Nat.shiftLeft_eq, Nat.one_mul]
    by_cases h1 : j + 1 ≤ m ∧ m < j + 1 + k
    · have h2 : j ≤ m ∧ m < j + (k + 1) := by omega
      have h3 : j ≠ m := by omega
      rw [if_pos h1, if_pos h2]
      cases buffer.bit (i + j - 4) <;> simp [Nat.testBit_lor, Nat.testBit_two_pow, h3]
    · rw [if_neg h1]
      by_cases h2 : m = j
      · subst h2
        have h3 : m ≤ m ∧ m < m + (k + 1) := by omega
        rw [if_pos h3]
        cases buffer.bit (i + m - 4) <;> simp [Nat.testBit_lor, Nat.testBit_two_pow]
      · have h3 : ¬ (j ≤ m ∧ m < j + (k + 1)) := by omega
        have h4 : j ≠ m := fun e => h2 e.symm
        rw [if_neg h3]
        cases buffer.bit (i + j - 4) <;> simp [Nat.testBit_lor, Nat.testBit_two_pow, h4]

theorem testBit_learnValue (buffer : Buffer) (hsize : buffer.m_Size = 64) (m : Nat) :
    (learnValue buffer).testBit m = (decide (m < 64) && buffer.bit m) := by
  rw [learnValue, hsize, testBit_learnLoop buffer 64 0 m (Nat.le_refl _)]
  by_cases h : m < 64 <;> simp [h]

/-- The nibble the verbose path prints below position `4 * k + 4` is hexadecimal digit `k`
of the value of the primary path. -/
theorem verboseNibble_eq (buffer : Buffer) (hsize : buffer.m_Size = 64) (k : Nat)
    (hk : k < 16) :
    verboseNibble buffer (4 * k + 4) = (learnValue buffer / 16 ^ k) % 16 := by
  apply Nat.eq_of_testBit_eq
  intro m
  have e16 : (16 : Nat) ^ k = 2 ^ (4 * k) := by
    rw [Nat.pow_mul]
  have e4 : (16 : Nat) = 2 ^ 4 := by norm_num
  rw [verboseNibble, testBit_verboseNibbleLoop, e16, ← Nat.shiftRight_eq_div_pow]
  conv => rhs; rw [e4, Nat.testBit_mod_two_pow, Nat.testBit_shiftRight,
    testBit_learnValue buffer hsize]
  by_cases h : m < 4
  · have h1 : 0 ≤ m ∧ m < 0 + 4 := by omega
    have h2 : 4 * k + 4 + m - 4 = 4 * k + m := by omega
    have h3 : 4 * k + m < 64 := by omega
    rw [if_pos h1, h2]
    simp [h, h3]
  · have h1 : ¬ (0 ≤ m ∧ m < 0 + 4) := by omega
    rw [if_neg h1]
    simp [h]

theorem verboseDigits_succ (buffer : Buffer) (k : Nat) :
    verboseDigits buffer (4 * k + 4) =
      hexDigitUpper (verboseNibble buffer (4 * k + 4)) :: verboseDigits buffer (4 * k) := by
  rw [verboseDigits]
  have : 4 * k + 4 > 0 := by omega
  rw [if_pos this, Nat.add_sub_cancel]

theorem verboseDigits_eq (buffer : Buffer) (hsize : buffer.m_Size = 64) (k : Nat) :
    k ≤ 16 → verboseDigits buffer (4 * k) = hexDigitsUpper (learnValue buffer) k := by
  induction k with
  | zero =>
    intro _
    rw [verboseDigits]
    simp [hexDigitsUpper]
  | succ k ih =>
    intro hk
    rw [show 4 * (k + 1) = 4 * k + 4 by omega, verboseDigits_succ,
      verboseNibble_eq buffer hsize k (by omega), ih (by omega)]
    rfl

/-- C20 (the two traversals agree). For every frame of size exactly 64, the verbose dump
prints no `?` and its 16 hexadecimal digits are, in order, the 16 upper-case digits
`%016llX` prints for the value the primary path reconstructs. -/
theorem verbose_dump_agrees (buffer : Buffer) (hsize : buffer.m_Size = 64) :
    verboseDump buffer = hex016 (learnValue buffer) ∧
    (verboseDump buffer).length = 16 ∧
    learnValue buffer < 18446744073709551616 := by
  have hu : verboseUnknown 64 64 = ([], 64) := by
    rw [verboseUnknown]; simp
  have hd : verboseDump buffer = hex016 (learnValue buffer) := by
    unfold verboseDump hex016
    rw [hsize, hu]
    exact verboseDigits_eq buffer hsize 16 (Nat.le_refl _)
  have hlen : ∀ v n, (hexDigitsUpper v n).length = n := by
    intro v n
    induction n with
    | zero => rfl
    | succ n ih => simp [hexDigitsUpper, ih]
  refine ⟨hd, by rw [hd]; exact hlen _ 16, ?_⟩
  have h2 : (18446744073709551616 : Nat) = 2 ^ 64 := by norm_num
  rw [h2]
  apply Nat.lt_pow_two_of_testBit
  intro j hj
  rw [testBit_learnValue buffer hsize]
  have : ¬ j < 64 := by omega
  simp [this]

set_option maxRecDepth 1000000 in
/-- Witness of C20: the frame the decoder holds after one transmission of
`0x0123456789ABCDEF`. -/
theorem verbose_dump_agrees_witness :
    ((feed Receiver.new (pulseDurations (RadioInterface.new.TransmitCode 0x0123456789ABCDEF 1
        []))).s_Instance.m_Buffer.m_Buffers 0).m_Size = 64 ∧
    verboseDump ((feed Receiver.new (pulseDurations
        (RadioInterface.new.TransmitCode 0x0123456789ABCDEF 1 []))).s_Instance.m_Buffer.m_Buffers 0)
      = hex016 (learnValue ((feed Receiver.new (pulseDurations
        (RadioInterface.new.TransmitCode 0x0123456789ABCDEF 1 []))).s_Instance.m_Buffer.m_Buffers 0)) :=
  ⟨by decide, (verbose_dump_agrees _ (by decide)).1⟩

/-! ## The two compare-and-swap loops -/

theorem endWriteNewRW_read (rw : Nat) : (endWriteNewRW rw &&& 0xff) % 256 = (rw &&& 0xff) % 256 := by
  rw [land_ff, land_ff, endWriteNewRW_eq]; omega

theorem endWriteNewRW_write (rw : Nat) :
    (endWriteNewRW rw >>> 8) % 256 = ((rw >>> 8) % 256 + 1) % 8 := by
  rw [shiftRight_8, shiftRight_8, endWriteNewRW_eq]; omega

theorem endReadNewRW_read (rw : Nat) :
    (endReadNewRW rw &&& 0xff) % 256 = ((rw &&& 0xff) % 256 + 1) % 8 := by
  rw [land_ff, land_ff, endReadNewRW_eq]; omega

theorem endReadNewRW_write (rw : Nat) : (endReadNewRW rw >>> 8) % 256 = (rw >>> 8) % 256 := by
  rw [shiftRight_8, shiftRight_8, endReadNewRW_eq]; omega

/-- A step of the producer leaves the read half, a step of the consumer the write half. -/
theorem Race.step_other_half (s : Race) :
    (s.step Thread.producer).ring.read = s.ring.read ∧
    (s.step Thread.consumer).ring.write = s.ring.write := by
  constructor
  · unfold Race.step
    simp only
    split
    · rfl
    · split
      · rename_i h
        simp only [AtomicBuffers.read, ← h, endWriteNewRW_read]
      · rfl
    · rfl
  · unfold Race.step
    simp only
    split
    · simp only [AtomicBuffers.modifyAt_write]
    · split
      · rename_i h
        simp only [AtomicBuffers.write, ← h, endReadNewRW_write]
      · rfl
    · rfl

theorem Race.Halves_step (r0 w0 : Nat) (s : Race) (t : Thread) (h : Race.Halves r0 w0 s) :
    Race.Halves r0 w0 (s.step t) := by
  obtain ⟨hw, hr⟩ := h
  cases t with
  | producer =>
    have hr' := (Race.step_other_half s).1
    refine ⟨?_, ?_⟩
    · unfold Race.step
      simp only
      cases hp : s.producer with
      | load => simpa [hp] using hw
      | done => simpa [hp] using hw
      | cas oldRW =>
        simp only
        split
        · rename_i he
          simp only [AtomicBuffers.write, ← he, endWriteNewRW_write, if_true]
          simp only [hp, AtomicBuffers.write] at hw
          rw [hw]
          simp
        · simpa [hp] using hw
    · rw [hr']
      have : (s.step Thread.producer).consumer = s.consumer := by
        unfold Race.step
        simp only
        split
        · rfl
        · split <;> rfl
        · rfl
      rw [this]; exact hr
  | consumer =>
    have hw' := (Race.step_other_half s).2
    refine ⟨?_, ?_⟩
    · rw [hw']
      have : (s.step Thread.consumer).producer = s.producer := by
        unfold Race.step
        simp only
        split
        · rfl
        · split <;> rfl
        · rfl
      rw [this]; exact hw
    · unfold Race.step
      simp only
      cases hp : s.consumer with
      | load => simpa [hp, AtomicBuffers.modifyAt_read] using hr
      | done => simpa [hp] using hr
      | cas oldRW =>
        simp only
        split
        · rename_i he
          simp only [AtomicBuffers.read, ← he, endReadNewRW_read, if_true]
          simp only [hp, AtomicBuffers.read] at hr
          rw [hr]
          simp
        · simpa [hp] using hr

set_option maxHeartbeats 1000000 in
/-- A step of a thread lowers its own bound and does not raise the other's. -/
theorem Race.need_step (s : Race) (t t' : Thread) :
    (s.step t').need t ≤ s.need t - (if t' = t then 1 else 0) := by
  rcases s with ⟨ring, p, c⟩
  cases t <;> cases t' <;> cases p <;> cases c <;>
    simp only [Race.need, Race.step, AtomicBuffers.modifyAt_index, if_true, if_false,
      reduceCtorEq] <;>
    (try split_ifs) <;> (try simp_all) <;> (try split_ifs) <;> (try omega)


theorem Race.need_eq_zero (s : Race) :
    (s.need Thread.producer = 0 ↔ s.producer = Pc.done) ∧
    (s.need Thread.consumer = 0 ↔ s.consumer = Pc.done) := by
  rcases s with ⟨ring, p, c⟩
  cases p <;> cases c <;> simp only [Race.need, reduceCtorEq, if_true, if_false] <;>
    (try split_ifs) <;> simp

/-- After a schedule a thread's bound is lower by at least the number of its steps. -/
theorem Race.need_run (schedule : List Thread) (t : Thread) :
    ∀ s : Race, (Race.run schedule s).need t ≤ s.need t - schedule.count t := by
  induction schedule with
  | nil => intro s; simp [Race.run]
  | cons t' rest ih =>
    intro s
    have h1 := ih (s.step t')
    have h2 := Race.need_step s t t'
    have h3 : Race.run (t' :: rest) s = Race.run rest (s.step t') := rfl
    rw [h3, List.count_cons]
    by_cases e : t' = t
    · subst e
      simp only [if_true, beq_self_eq_true] at h2 ⊢
      omega
    · have : (t' == t) = false := by simpa using e
      simp only [e, if_false, this, Bool.false_eq_true] at h2 ⊢
      omega

theorem Race.Halves_run (r0 w0 : Nat) (schedule : List Thread) :
    ∀ s : Race, Race.Halves r0 w0 s → Race.Halves r0 w0 (Race.run schedule s) := by
  induction schedule with
  | nil => intro s h; exact h
  | cons t rest ih => intro s h; exact ih _ (Race.Halves_step r0 w0 s t h)

/-- C15 (no lost update). For every interleaving of the atomic loads and compare-exchanges
of one producer in the loop of `EndWriteBuffer` and one consumer in the loop of
`EndReadBuffer` on the same `m_ReadWriteIndex`: at every point the write half is the
initial one until the producer has left its loop and advanced by one modulo 8 from then
on, and likewise the read half for the consumer, so each half is advanced exactly once and
by its owner; no step of one thread changes the other thread's half, whatever stale value
it holds; and a thread that has taken 4 steps has left its loop, so both loops finish. -/
theorem no_lost_update (a : AtomicBuffers) (schedule : List Thread) :
    ((Race.run schedule (Race.start a)).ring.write =
      if (Race.run schedule (Race.start a)).producer = Pc.done then (a.write + 1) % 8
      else a.write) ∧
    ((Race.run schedule (Race.start a)).ring.read =
      if (Race.run schedule (Race.start a)).consumer = Pc.done then (a.read + 1) % 8
      else a.read) ∧
    (4 ≤ schedule.count Thread.producer →
      (Race.run schedule (Race.start a)).producer = Pc.done) ∧
    (4 ≤ schedule.count Thread.consumer →
      (Race.run schedule (Race.start a)).consumer = Pc.done) ∧
    (4 ≤ schedule.count Thread.producer → 4 ≤ schedule.count Thread.consumer →
      (Race.run schedule (Race.start a)).ring.write = (a.write + 1) % 8 ∧
      (Race.run schedule (Race.start a)).ring.read = (a.read + 1) % 8) ∧
    (∀ s : Race, (s.step Thread.producer).ring.read = s.ring.read ∧
      (s.step Thread.consumer).ring.write = s.ring.write) := by
  have hh : Race.Halves a.read a.write (Race.run schedule (Race.start a)) :=
    Race.Halves_run _ _ schedule _ ⟨by simp [Race.start], by simp [Race.start]⟩
  have hp : 4 ≤ schedule.count Thread.producer →
      (Race.run schedule (Race.start a)).producer = Pc.done := by
    intro h
    have := Race.need_run schedule Thread.producer (Race.start a)
    have h0 : (Race.start a).need Thread.producer = 4 := by simp [Race.start, Race.need]
    exact (Race.need_eq_zero _).1.1 (by omega)
  have hc : 4 ≤ schedule.count Thread.consumer →
      (Race.run schedule (Race.start a)).consumer = Pc.done := by
    intro h
    have := Race.need_run schedule Thread.consumer (Race.start a)
    have h0 : (Race.start a).need Thread.consumer = 4 := by simp [Race.start, Race.need]
    exact (Race.need_eq_zero _).2.1 (by omega)
  refine ⟨hh.1, hh.2, hp, hc, ?_, Race.step_other_half⟩
  intro h1 h2
  have e1 := hh.1
  have e2 := hh.2
  rw [if_pos (hp h1)] at e1
  rw [if_pos (hc h2)] at e2
  exact ⟨e1, e2⟩

set_option maxRecDepth 100000 in
/-- Witness of C15: on the ring that holds one committed frame, the interleaving
`racySchedule`, in which the producer's first compare-exchange fails, ends with both
loops left and both halves advanced: the index goes from `0x0100` to `0x0201`. -/
theorem no_lost_update_witness :
    (Race.run racySchedule (Race.start oneFrameRing)).producer
      = Pc.done ∧
    (Race.run racySchedule (Race.start oneFrameRing)).consumer
      = Pc.done ∧
    oneFrameRing.m_ReadWriteIndex = 0x0100 ∧
    (Race.run racySchedule
      (Race.start oneFrameRing)).ring.m_ReadWriteIndex
      = 0x0201 ∧
    ((Race.run racySchedule
        (Race.start oneFrameRing)).ring.write =
      if (Race.run racySchedule
        (Race.start oneFrameRing)).producer = Pc.done
      then (oneFrameRing.write + 1) % 8
      else oneFrameRing.write) :=
  ⟨by decide, by decide, by decide, by decide, (no_lost_update oneFrameRing racySchedule).1⟩

/-! ## Whole transmissions into a ring nobody reads -/

theorem handler_windows (micros : Nat) (r : Receiver) :
    (ReceiveInterruptHandler micros r).s_Instance.m_MinProtocol = r.s_Instance.m_MinProtocol ∧
    (ReceiveInterruptHandler micros r).s_Instance.m_MaxProtocol = r.s_Instance.m_MaxProtocol := by
  unfold ReceiveInterruptHandler
  simp only
  split
  · exact ⟨rfl, rfl⟩
  · split
    · exact ⟨rfl, rfl⟩
    · split <;> (try split) <;> (try split) <;> exact ⟨rfl, rfl⟩

theorem handler_CtorWindows (micros : Nat) (r : Receiver) (h : CtorWindows r.s_Instance) :
    CtorWindows (ReceiveInterruptHandler micros r).s_Instance := by
  obtain ⟨h1, h2⟩ := handler_windows micros r
  exact ⟨h1.trans h.1, h2.trans h.2⟩

/-- A handler call changes no slot but the write slot. -/
theorem handler_other_slots (micros : Nat) (r : Receiver) (j : Fin 8)
    (hj : j.val ≠ r.s_Instance.m_Buffer.write) :
    (ReceiveInterruptHandler micros r).s_Instance.m_Buffer.m_Buffers j
      = r.s_Instance.m_Buffer.m_Buffers j := by
  rcases handler_ring micros r with ⟨e, _⟩ | ⟨_, e, _⟩ | ⟨_, _, one, e⟩
  · rw [e]
  · rw [e, AtomicBuffers.EndWriteBuffer_slots]
  · rw [e, AtomicBuffers.modifyAt_slot, if_neg hj]

/-- A handler call outside the sync-high window leaves the packed index. -/
theorem handler_index_not_sync (micros : Nat) (r : Receiver)
    (h : InRange r.s_Instance.m_MinProtocol.sync.high
      (duration (micros % 4294967296) r.s_lastTime) r.s_Instance.m_MaxProtocol.sync.high = false) :
    (ReceiveInterruptHandler micros r).s_Instance.m_Buffer.m_ReadWriteIndex
      = r.s_Instance.m_Buffer.m_ReadWriteIndex := by
  unfold ReceiveInterruptHandler
  simp only [h]
  split
  · rfl
  · simp only [Bool.false_eq_true, if_false]
    split <;> (try split) <;> (try split) <;>
      first | rfl | exact AtomicBuffers.modifyAt_index _ _ _

/-- The handler on a full ring. -/
theorem handler_full (micros : Nat) (r : Receiver)
    (hfull : r.s_Instance.m_Buffer.read = Next r.s_Instance.m_Buffer.write) :
    (ReceiveInterruptHandler micros r).s_Instance.m_Buffer = r.s_Instance.m_Buffer ∧
    (ReceiveInterruptHandler micros r).s_Instance.m_State = State.WaitingForSync := by
  have hb : r.s_Instance.m_Buffer.GetWriteBuffer = none := by
    rw [AtomicBuffers.GetWriteBuffer_eq, if_pos hfull]
  simp [ReceiveInterruptHandler, hb]

/-- Durations fed to a full ring leave it as it is; the decoder waits for a sync. -/
theorem feed_full (ds : List Nat) : ∀ (r : Receiver),
    r.s_Instance.m_Buffer.read = Next r.s_Instance.m_Buffer.write →
    CtorWindows r.s_Instance → r.s_lastTime < 4294967296 →
    (feed r ds).s_Instance.m_Buffer = r.s_Instance.m_Buffer ∧
    CtorWindows (feed r ds).s_Instance ∧ (feed r ds).s_lastTime < 4294967296 ∧
    (ds ≠ [] → (feed r ds).s_Instance.m_State = State.WaitingForSync) := by
  induction ds using List.reverseRecOn with
  | nil => intro r _ hc ht; exact ⟨rfl, hc, ht, fun h => absurd rfl h⟩
  | append_singleton ds d ih =>
    intro r hfull hc ht
    obtain ⟨e, hc', ht', _⟩ := ih r hfull hc ht
    have hfeed : feed r (ds ++ [d]) = edge (feed r ds) d := by
      rw [feed_append]; rfl
    rw [hfeed]
    have hfull' : (feed r ds).s_Instance.m_Buffer.read
        = Next (feed r ds).s_Instance.m_Buffer.write := by rw [e]; exact hfull
    obtain ⟨h1, h2⟩ := handler_full (((feed r ds).s_lastTime + d) % 4294967296) (feed r ds) hfull'
    refine ⟨h1.trans e, handler_CtorWindows _ _ hc', ?_, fun _ => h2⟩
    unfold edge
    rw [handler_lastTime]
    exact Nat.mod_lt _ (by norm_num)

/-- Durations up to 5000 leave the packed index and every slot but the write slot. -/
theorem feed_quiet (ds : List Nat) : ∀ (r : Receiver),
    (∀ d ∈ ds, d ≤ 5000) → CtorWindows r.s_Instance → r.s_lastTime < 4294967296 →
    (feed r ds).s_Instance.m_Buffer.m_ReadWriteIndex = r.s_Instance.m_Buffer.m_ReadWriteIndex ∧
    (∀ j : Fin 8, j.val ≠ r.s_Instance.m_Buffer.write →
      (feed r ds).s_Instance.m_Buffer.m_Buffers j = r.s_Instance.m_Buffer.m_Buffers j) ∧
    CtorWindows (feed r ds).s_Instance ∧ (feed r ds).s_lastTime < 4294967296 := by
  induction ds using List.reverseRecOn with
  | nil => intro r _ hc ht; exact ⟨rfl, fun _ _ => rfl, hc, ht⟩
  | append_singleton ds d ih =>
    intro r hds hc ht
    obtain ⟨e1, e2, hc', ht'⟩ := ih r (fun x hx => hds x (List.mem_append_left _ hx)) hc ht
    have hd : d ≤ 5000 := hds d (by simp)
    have hfeed : feed r (ds ++ [d]) = edge (feed r ds) d := by
      rw [feed_append]; rfl
    rw [hfeed]
    unfold edge
    have hdur : duration (((feed r ds).s_lastTime + d) % 4294967296 % 4294967296)
        (feed r ds).s_lastTime = d := by
      rw [Nat.mod_mod]; exact duration_edge _ _ ht' (by omega)
    have hns : InRange (feed r ds).s_Instance.m_MinProtocol.sync.high
        (duration (((feed r ds).s_lastTime + d) % 4294967296 % 4294967296) (feed r ds).s_lastTime)
        (feed r ds).s_Instance.m_MaxProtocol.sync.high = false := by
      rw [hdur, hc'.1, hc'.2]
      simp [InRange, RadioInterface.new]
      omega
    have hw : (feed r ds).s_Instance.m_Buffer.write = r.s_Instance.m_Buffer.write := by
      simp only [AtomicBuffers.write, e1]
    refine ⟨(handler_index_not_sync _ _ hns).trans e1, ?_, handler_CtorWindows _ _ hc', ?_⟩
    · intro j hj
      rw [handler_other_slots _ _ j (by rw [hw]; exact hj)]
      exact e2 j hj
    · rw [handler_lastTime]
      exact Nat.mod_lt _ (by norm_num)

theorem pulseDurations_flatMap (pin : Int) (ps : List HighLow) :
    pulseDurations (ps.flatMap (pulseTrace pin)) = durationsOf ps := by
  induction ps with
  | nil => rfl
  | cons p ps ih =>
    rw [List.flatMap_cons, pulseDurations_append, ih]
    rfl

theorem durationsOf_append (xs ys : List HighLow) :
    durationsOf (xs ++ ys) = durationsOf xs ++ durationsOf ys := by
  simp [durationsOf, List.flatMap_append]

theorem durationsOf_replicate (n : Nat) (ps : List HighLow) :
    durationsOf (List.replicate n ps).flatten = (List.replicate n (durationsOf ps)).flatten := by
  induction n with
  | zero => rfl
  | succ n ih =>
    rw [List.replicate_succ, List.flatten_cons, durationsOf_append, ih, List.replicate_succ,
      List.flatten_cons]

/-- The durations `TransmitCode` emits: `repeats` copies of the durations of one frame. -/
theorem pulseDurations_TransmitCode (tx : RadioInterface)
    (hp : tx.m_Protocol = RadioInterface.new.m_Protocol) (code n : Nat) :
    pulseDurations (tx.TransmitCode code n []) =
      (List.replicate n (durationsOf (framePulses code))).flatten := by
  rw [TransmitCode_trace tx hp, List.nil_append, pulseDurations_flatMap, durationsOf_replicate]

theorem durationsOf_framePulses (code : Nat) :
    durationsOf (framePulses code) =
      [5200, 600] ++ durationsOf ((List.range 64).map
        (fun i => (if code.testBit i then ⟨200, 600⟩ else ⟨600, 200⟩ : HighLow))) := rfl

theorem length_durationsOf_framePulses (code : Nat) :
    (durationsOf (framePulses code)).length = 130 := by
  have : ∀ ps : List HighLow, (durationsOf ps).length = 2 * ps.length := by
    intro ps
    induction ps with
    | nil => rfl
    | cons p ps ih =>
      have : durationsOf (p :: ps) = [p.high, p.low] ++ durationsOf ps := rfl
      rw [this, List.length_append, ih]
      simp only [List.length_cons, List.length_nil]
      omega
  rw [this]
  simp [framePulses]

theorem data_durations_quiet (code : Nat) :
    ∀ d ∈ durationsOf ((List.range 64).map
      (fun i => (if code.testBit i then ⟨200, 600⟩ else ⟨600, 200⟩ : HighLow))), d ≤ 5000 := by
  intro d hd
  simp only [durationsOf, List.mem_flatMap, List.mem_map, List.mem_range] at hd
  obtain ⟨p, ⟨i, _, rfl⟩, hd⟩ := hd
  split at hd <;> simp at hd <;> omega

/-- One frame of durations after its sync has been seen: the 64 bits arrive in slot `w`. -/
theorem Receiving.frame (code : Nat) (r : Receiver) (w : Nat) (f : Nat → Bool)
    (h : Receiving (feed r [5200, 600]) w 0 f) :
    Receiving (feed r (durationsOf (framePulses code))) w 64 code.testBit := by
  have h1 := Receiving.words RadioInterface.new rfl code
    (RadioInterface.new.Transmit RadioInterface.new.m_Protocol.sync []) r w f h
  rw [SendWords_trace RadioInterface.new rfl, List.nil_append, pulseDurations_flatMap] at h1
  exact h1

/-- The data pulses of a frame fill slot `w` and leave everything else. -/
theorem Filling.data_frame (code : Nat) (r : Receiver) (w : Nat) (f : Nat → Bool)
    (h : Filling (feed r [5200, 600]) w 0 f code) :
    Filling (feed r (durationsOf (framePulses code))) w 64 code.testBit code := by
  obtain ⟨hrec, hrw, hbuf⟩ := h
  have hR := Receiving.frame code r w f hrec
  have hsplit : feed r (durationsOf (framePulses code)) =
      feed (feed r [5200, 600]) (durationsOf ((List.range 64).map
        (fun i => (if code.testBit i then ⟨200, 600⟩ else ⟨600, 200⟩ : HighLow)))) := by
    rw [durationsOf_framePulses, feed_append]
  obtain ⟨hc, ht, _, hb, hw8, _, _⟩ := hrec
  have hw : (feed r [5200, 600]).s_Instance.m_Buffer.write = w := by
    rw [AtomicBuffers.GetWriteBuffer_eq] at hb
    split at hb
    · cases hb
    · exact Option.some.inj hb
  obtain ⟨e1, e2, _, _⟩ := feed_quiet _ (feed r [5200, 600]) (data_durations_quiet code) hc ht
  rw [← hsplit] at e1 e2
  refine ⟨hR, e1.trans hrw, ?_⟩
  intro j
  have hj := hbuf j
  constructor
  · intro hlt
    rw [e2 j (by rw [hw]; omega)]
    exact hj.1 hlt
  · intro hgt
    rw [e2 j (by rw [hw]; omega)]
    exact hj.2 hgt

/-- The sync-high of the next transmission commits the frame in the write slot. -/
theorem Filling.sync (code : Nat) (r : Receiver) (w : Nat)
    (h : Filling r w 64 code.testBit code) (hw7 : w < 7) :
    CtorWindows (edge r 5200).s_Instance ∧
    (edge r 5200).s_lastTime < 4294967296 ∧
    (edge r 5200).s_Instance.m_State = State.WaitingForLowSync ∧
    (edge r 5200).s_Instance.m_Buffer.m_ReadWriteIndex = 256 * (w + 1) ∧
    (edge r 5200).s_Instance.m_Buffer.sizeAt (w + 1) = 0 ∧
    Buffered (edge r 5200).s_Instance.m_Buffer (w + 1) code := by
  obtain ⟨⟨hc, ht, hs, hb, hw, hsz, hbits⟩, hrw, hbuf⟩ := h
  rw [edge_sync r w 5200 ht hc hb (by norm_num) (by norm_num)]
  refine ⟨hc, Nat.mod_lt _ (by norm_num), rfl, ?_, ?_, ?_⟩
  · simp only [AtomicBuffers.EndWriteBuffer, hsz]
    rw [if_pos (by norm_num)]
    simp only [hrw, endWriteNewRW_eq]
    omega
  · have h8 : w + 1 < 8 := by omega
    simp only [AtomicBuffers.sizeAt, h8, dite_true, AtomicBuffers.EndWriteBuffer_slots]
    exact (hbuf ⟨w + 1, h8⟩).2 (by simp)
  · intro j
    simp only [AtomicBuffers.EndWriteBuffer_slots]
    obtain ⟨h1, h2⟩ := hbuf j
    constructor
    · intro hlt
      by_cases e : j.val = w
      · have hj : j = ⟨w, hw⟩ := Fin.ext e
        rw [hj]
        constructor
        · simpa [AtomicBuffers.sizeAt, hw] using hsz
        · intro i hi
          simpa [AtomicBuffers.bitAt, hw] using hbits i hi
      · exact h1 (by omega)
    · intro hgt
      exact h2 (by omega)

/-- From a frame in slot `w` to the next transmission's data phase in slot `w + 1`. -/
theorem Filling.next_sync (code : Nat) (r : Receiver) (w : Nat)
    (h : Filling r w 64 code.testBit code) (hw6 : w < 6) :
    Filling (feed r [5200, 600]) (w + 1) 0 (fun _ => false) code := by
  obtain ⟨hc, ht, hs, hrw, hsz, hbuf⟩ := Filling.sync code r w h (by omega)
  have hb : (edge r 5200).s_Instance.m_Buffer.GetWriteBuffer = some (w + 1) := by
    rw [AtomicBuffers.GetWriteBuffer_eq, AtomicBuffers.read_eq, AtomicBuffers.write_eq, hrw,
      Next_eq]
    have e1 : 256 * (w + 1) % 256 = 0 := by omega
    have e2 : 256 * (w + 1) / 256 % 256 = w + 1 := by omega
    rw [e1, e2, if_neg (by omega)]
  have hfeed : feed r [5200, 600] = edge (edge r 5200) 600 := rfl
  rw [hfeed, edge_WaitingForLowSync (edge r 5200) (w + 1) 600 ht hc hs hb (by norm_num)
    (by norm_num)]
  refine ⟨⟨hc, Nat.mod_lt _ (by norm_num), rfl, hb, by omega, hsz, ?_⟩, hrw, hbuf⟩
  intro j hj; omega

/-- The next transmission after a frame in slot `w < 6` arrives in slot `w + 1`. -/
theorem Filling.next_frame (code : Nat) (r : Receiver) (w : Nat)
    (h : Filling r w 64 code.testBit code) (hw6 : w < 6) :
    Filling (feed r (durationsOf (framePulses code))) (w + 1) 64 code.testBit code :=
  Filling.data_frame code r (w + 1) _ (Filling.next_sync code r w h hw6)

theorem Full7.full {r : Receiver} {code : Nat} (h : Full7 r code) :
    r.s_Instance.m_Buffer.read = Next r.s_Instance.m_Buffer.write := by
  obtain ⟨_, _, _, hrw, _⟩ := h
  rw [AtomicBuffers.read_eq, AtomicBuffers.write_eq, hrw]
  decide

set_option maxRecDepth 100000 in
/-- The eighth transmission: its sync commits the seventh frame and fills the ring, and
the rest of it is dropped. -/
theorem Filling.eighth_frame (code : Nat) (r : Receiver)
    (h : Filling r 6 64 code.testBit code) :
    Full7 (feed r (durationsOf (framePulses code))) code := by
  obtain ⟨hc, ht, hs, hrw, _, hbuf⟩ := Filling.sync code r 6 h (by norm_num)
  have hfull : (edge r 5200).s_Instance.m_Buffer.read
      = Next (edge r 5200).s_Instance.m_Buffer.write := by
    rw [AtomicBuffers.read_eq, AtomicBuffers.write_eq, hrw]
    decide
  have hsplit : feed r (durationsOf (framePulses code)) =
      feed (edge r 5200) (600 :: durationsOf ((List.range 64).map
        (fun i => (if code.testBit i then ⟨200, 600⟩ else ⟨600, 200⟩ : HighLow)))) := by
    have hcons : ∀ X : List Nat, feed r ([5200, 600] ++ X) = feed (edge r 5200) (600 :: X) :=
      fun _ => rfl
    exact (congrArg (feed r) (durationsOf_framePulses code)).trans (hcons _)
  obtain ⟨e, hc', ht', hst⟩ := feed_full (600 :: durationsOf ((List.range 64).map
    (fun i => (if code.testBit i then ⟨200, 600⟩ else ⟨600, 200⟩ : HighLow))))
    (edge r 5200) hfull hc ht
  rw [← hsplit] at e hc' ht' hst
  refine ⟨hc', ht', hst (by simp), ?_, ?_⟩
  · rw [e, hrw]
  · rw [e]; exact hbuf

/-- A transmission into the full ring changes nothing. -/
theorem Full7.dropped_frame (code : Nat) (r : Receiver) (h : Full7 r code) (ds : List Nat)
    (hds : ds ≠ []) :
    Full7 (feed r ds) code ∧ (feed r ds).s_Instance.m_Buffer = r.s_Instance.m_Buffer := by
  obtain ⟨e, hc', ht', hst⟩ := feed_full ds r h.full h.1 h.2.1
  refine ⟨⟨hc', ht', hst hds, ?_, ?_⟩, e⟩
  · rw [e]; exact h.2.2.2.1
  · rw [e]; exact h.2.2.2.2

set_option maxRecDepth 100000 in
/-- The first transmission into the fresh decoder. -/
theorem Filling_first_frame (code : Nat) :
    Filling (feed Receiver.new (durationsOf (framePulses code))) 0 64 code.testBit code := by
  apply Filling.data_frame code Receiver.new 0 (fun _ => false)
  refine ⟨Receiving_after_sync _, by decide, ?_⟩
  have h0 : ∀ j : Fin 8,
      ((feed Receiver.new [5200, 600]).s_Instance.m_Buffer.m_Buffers j).m_Size = 0 := by
    decide
  intro j
  exact ⟨fun h => by omega, fun _ => h0 j⟩

theorem feed_replicate_succ (r : Receiver) (n : Nat) (ds : List Nat) :
    feed r (List.replicate (n + 1) ds).flatten = feed (feed r (List.replicate n ds).flatten) ds := by
  rw [List.replicate_succ', List.flatten_append, feed_append]
  simp

/-- The receiver after `n >= 1` transmissions of `code`. -/
theorem AfterFrames_feed (code : Nat) (n : Nat) :
    AfterFrames (feed Receiver.new (List.replicate (n + 1) (durationsOf (framePulses code))).flatten)
      (n + 1) code := by
  have hne : durationsOf (framePulses code) ≠ [] := by
    rw [durationsOf_framePulses]; simp
  induction n with
  | zero =>
    left
    refine ⟨by omega, by omega, ?_⟩
    have : (List.replicate (0 + 1) (durationsOf (framePulses code))).flatten
        = durationsOf (framePulses code) := by simp
    rw [this]
    exact Filling_first_frame code
  | succ n ih =>
    rw [feed_replicate_succ]
    rcases ih with ⟨h1, h7, hf⟩ | ⟨h8, hf⟩
    · by_cases h6 : n + 1 ≤ 6
      · left
        refine ⟨by omega, by omega, ?_⟩
        have := Filling.next_frame code _ (n + 1 - 1) hf (by omega)
        rw [show n + 1 - 1 + 1 = n + 1 + 1 - 1 by omega] at this
        exact this
      · right
        have e : n + 1 - 1 = 6 := by omega
        rw [e] at hf
        exact ⟨by omega, Filling.eighth_frame code _ hf⟩
    · right
      exact ⟨by omega, (Full7.dropped_frame code _ hf _ hne).1⟩

theorem afterTransmissions_eq (tx : RadioInterface)
    (hp : tx.m_Protocol = RadioInterface.new.m_Protocol) (code n : Nat) :
    afterTransmissions tx code n =
      feed Receiver.new (List.replicate n (durationsOf (framePulses code))).flatten := by
  rw [afterTransmissions, pulseDurations_TransmitCode tx hp]

/-- From the eighth transmission on the ring stays as the eighth left it. -/
theorem ring_after_eighth (code : Nat) (m : Nat) :
    (feed Receiver.new
        (List.replicate (8 + m) (durationsOf (framePulses code))).flatten).s_Instance.m_Buffer =
      (feed Receiver.new
        (List.replicate 8 (durationsOf (framePulses code))).flatten).s_Instance.m_Buffer := by
  have hne : durationsOf (framePulses code) ≠ [] := by
    intro h
    have := length_durationsOf_framePulses code
    rw [h] at this
    cases this
  induction m with
  | zero => rw [Nat.add_zero]
  | succ m ih =>
    rw [show 8 + (m + 1) = (8 + m) + 1 by omega, feed_replicate_succ]
    have haf := AfterFrames_feed code (7 + m)
    rw [show 7 + m + 1 = 8 + m by omega] at haf
    rcases haf with ⟨_, h7, _⟩ | ⟨_, hf⟩
    · omega
    · rw [(Full7.dropped_frame code _ hf _ hne).2]
      exact ih

theorem Buffered.learnValue {a : AtomicBuffers} {w code : Nat} (h : Buffered a w code)
    (hcode : code < 18446744073709551616) (j : Nat) (hj : j < w) (hw : w ≤ 8) :
    (a.slot j).m_Size = 64 ∧ SilentG.learnValue (a.slot j) = code := by
  have hj8 : j < 8 := by omega
  obtain ⟨hs, hb⟩ := (h ⟨j, hj8⟩).1 hj
  have e : a.slot j = a.m_Buffers ⟨j, hj8⟩ := by simp [AtomicBuffers.slot, hj8]
  rw [e]
  exact ⟨hs, learnValue_eq _ code hcode hs hb⟩

theorem AtomicBuffers.readable_of_index (a : AtomicBuffers) (w : Nat) (hw : w < 8)
    (h : a.m_ReadWriteIndex = 256 * w) :
    a.read = 0 ∧ a.write = w ∧ a.count = w ∧ a.readable = List.range w := by
  have hr : a.read = 0 := by rw [AtomicBuffers.read_eq, h]; omega
  have hwr : a.write = w := by rw [AtomicBuffers.write_eq, h]; omega
  have hc : a.count = w := by unfold AtomicBuffers.count; rw [hr, hwr]; omega
  refine ⟨hr, hwr, hc, ?_⟩
  unfold AtomicBuffers.readable
  rw [hc, hr]
  have : ∀ k ∈ List.range w, (fun k => (0 + k) % 8) k = id k := by
    intro k hk
    rw [List.mem_range] at hk
    simp only [id]
    omega
  rw [List.map_congr_left this, List.map_id]

/-- C17 (overflow policy over whole transmissions). For every 64-bit `code` and every
`n >= 1`, starting from a freshly constructed decoder and with the consumer never
reading, feeding all `130 * n` durations `TransmitCode(code, n)` emits leaves exactly
`min(n - 1, 7)` readable frames in the ring, the slots `0, ..., min(n - 1, 7) - 1`, each of
size 64 with reconstructed value `code`; when `n >= 8` the decoder ends in
`WaitingForSync` and the ring is exactly the ring the first 8 transmissions left, so the
transmissions delivered after the ring became full are dropped and leave the 7 buffered
frames unchanged. -/
theorem overflow_policy (tx : RadioInterface)
    (hp : tx.m_Protocol = RadioInterface.new.m_Protocol) (code : Nat)
    (hcode : code < 18446744073709551616) (n : Nat) (hn : 1 ≤ n) :
    (pulseDurations (tx.TransmitCode code n [])).length = 130 * n ∧
    (afterTransmissions tx code n).s_Instance.m_Buffer.count = min (n - 1) 7 ∧
    (afterTransmissions tx code n).s_Instance.m_Buffer.readable = List.range (min (n - 1) 7) ∧
    (∀ j ∈ (afterTransmissions tx code n).s_Instance.m_Buffer.readable,
      ((afterTransmissions tx code n).s_Instance.m_Buffer.slot j).m_Size = 64 ∧
      learnValue ((afterTransmissions tx code n).s_Instance.m_Buffer.slot j) = code) ∧
    (8 ≤ n → (afterTransmissions tx code n).s_Instance.m_State = State.WaitingForSync) ∧
    (8 ≤ n → (afterTransmissions tx code n).s_Instance.m_Buffer
      = (afterTransmissions tx code 8).s_Instance.m_Buffer) := by
  have hlen : (pulseDurations (tx.TransmitCode code n [])).length = 130 * n := by
    rw [pulseDurations_TransmitCode tx hp, List.length_flatten]
    simp [length_durationsOf_framePulses]
    omega
  obtain ⟨m, rfl⟩ : ∃ m, n = m + 1 := ⟨n - 1, by omega⟩
  have hdrop : 8 ≤ m + 1 → (afterTransmissions tx code (m + 1)).s_Instance.m_Buffer
      = (afterTransmissions tx code 8).s_Instance.m_Buffer := by
    intro h8
    rw [afterTransmissions_eq tx hp, afterTransmissions_eq tx hp]
    have := ring_after_eighth code (m + 1 - 8)
    rw [show 8 + (m + 1 - 8) = m + 1 by omega] at this
    exact this
  have haf := AfterFrames_feed code m
  rw [← afterTransmissions_eq tx hp] at haf
  rcases haf with ⟨_, h7, hrec, hrw, hbuf⟩ | ⟨h8, hf⟩
  · obtain ⟨_, _, hc, hrd⟩ := AtomicBuffers.readable_of_index _ (m + 1 - 1) (by omega) hrw
    have hmin : min (m + 1 - 1) 7 = m + 1 - 1 := by omega
    rw [hmin]
    refine ⟨hlen, hc, hrd, ?_, fun h => by omega, hdrop⟩
    intro j hj
    rw [hrd, List.mem_range] at hj
    exact hbuf.learnValue hcode j hj (by omega)
  · obtain ⟨_, _, hst, hrw, hbuf⟩ := hf
    obtain ⟨_, _, hc, hrd⟩ := AtomicBuffers.readable_of_index _ 7 (by norm_num) hrw
    have hmin : min (m + 1 - 1) 7 = 7 := by omega
    rw [hmin]
    refine ⟨hlen, hc, hrd, ?_, fun _ => hst, hdrop⟩
    intro j hj
    rw [hrd, List.mem_range] at hj
    exact hbuf.learnValue hcode j hj (by norm_num)

/-- Witness of C17 at the code `0x0123456789ABCDEF`, 10 repeats, pin 7. -/
theorem overflow_policy_witness :
    (({ RadioInterface.new with m_TransmitterPin := 7 } : RadioInterface).m_Protocol
        = RadioInterface.new.m_Protocol ∧
      (0x0123456789ABCDEF : Nat) < 18446744073709551616 ∧ 1 ≤ 10) ∧
    (afterTransmissions { RadioInterface.new with m_TransmitterPin := 7 }
        0x0123456789ABCDEF 10).s_Instance.m_Buffer.readable = List.range (min (10 - 1) 7) ∧
    (∀ j ∈ (afterTransmissions { RadioInterface.new with m_TransmitterPin := 7 }
        0x0123456789ABCDEF 10).s_Instance.m_Buffer.readable,
      ((afterTransmissions { RadioInterface.new with m_TransmitterPin := 7 }
        0x0123456789ABCDEF 10).s_Instance.m_Buffer.slot j).m_Size = 64 ∧
      learnValue ((afterTransmissions { RadioInterface.new with m_TransmitterPin := 7 }
        0x0123456789ABCDEF 10).s_Instance.m_Buffer.slot j) = 0x0123456789ABCDEF) ∧
    (8 ≤ 10 → (afterTransmissions { RadioInterface.new with m_TransmitterPin := 7 }
        0x0123456789ABCDEF 10).s_Instance.m_State = State.WaitingForSync) :=
  have h := overflow_policy { RadioInterface.new with m_TransmitterPin := 7 } rfl
    0x0123456789ABCDEF (by decide) 10 (by decide)
  ⟨⟨rfl, by decide, by decide⟩, h.2.2.1, h.2.2.2.1, h.2.2.2.2.1⟩

/-! ## A decoder that waits for a sync -/

/-- The handler in the state `WaitingForSync`, outside the sync-high window. -/
theorem handler_WaitingForSync (micros : Nat) (r : Receiver)
    (hs : r.s_Instance.m_State = State.WaitingForSync)
    (h : InRange r.s_Instance.m_MinProtocol.sync.high
      (duration (micros % 4294967296) r.s_lastTime) r.s_Instance.m_MaxProtocol.sync.high = false) :
    (ReceiveInterruptHandler micros r).s_Instance.m_Buffer = r.s_Instance.m_Buffer ∧
    (ReceiveInterruptHandler micros r).s_Instance.m_State = State.WaitingForSync := by
  unfold ReceiveInterruptHandler
  simp only [h, hs]
  split
  · simp
  · simp [hs]

/-- A decoder that waits for a sync appends no bit, and keeps waiting, as long as no
duration falls inside the sync-high window: with the initial state `WaitingForSync`
instead of `WaitingForHigh`, a frame would begin only at a sync. -/
theorem no_bit_while_WaitingForSync (ds : List Nat) : ∀ (r : Receiver),
    CtorWindows r.s_Instance → r.s_lastTime < 4294967296 →
    r.s_Instance.m_State = State.WaitingForSync →
    (∀ d ∈ ds, d < 4294967296 ∧ ¬ (5000 < d ∧ d < 5400)) →
    (feed r ds).s_Instance.m_Buffer = r.s_Instance.m_Buffer ∧
    (feed r ds).s_Instance.m_State = State.WaitingForSync ∧
    CtorWindows (feed r ds).s_Instance ∧ (feed r ds).s_lastTime < 4294967296 := by
  induction ds using List.reverseRecOn with
  | nil => intro r hc ht hs _; exact ⟨rfl, hs, hc, ht⟩
  | append_singleton ds d ih =>
    intro r hc ht hs hds
    obtain ⟨e, hs', hc', ht'⟩ := ih r hc ht hs (fun x hx => hds x (List.mem_append_left _ hx))
    obtain ⟨hd1, hd2⟩ := hds d (by simp)
    have hfeed : feed r (ds ++ [d]) = edge (feed r ds) d := by
      rw [feed_append]; rfl
    rw [hfeed]
    unfold edge
    have hdur : duration (((feed r ds).s_lastTime + d) % 4294967296 % 4294967296)
        (feed r ds).s_lastTime = d := by
      rw [Nat.mod_mod]; exact duration_edge _ _ ht' hd1
    have hns : InRange (feed r ds).s_Instance.m_MinProtocol.sync.high
        (duration (((feed r ds).s_lastTime + d) % 4294967296 % 4294967296) (feed r ds).s_lastTime)
        (feed r ds).s_Instance.m_MaxProtocol.sync.high = false := by
      rw [hdur, hc'.1, hc'.2]
      simp only [InRange, RadioInterface.new, Bool.and_eq_false_imp, decide_eq_true_eq,
        decide_eq_false_iff_not]
      intro h1 h2
      exact hd2 ⟨h1, h2⟩
    obtain ⟨h1, h2⟩ := handler_WaitingForSync _ _ hs' hns
    refine ⟨h1.trans e, h2, handler_CtorWindows _ _ hc', ?_⟩
    rw [handler_lastTime]
    exact Nat.mod_lt _ (by norm_num)

end SilentG
